import Mathlib

/-!
# arlo: the initialization wizard and the vite config transformer

A shallow embedding of `commands/init.go` of `JasnRathore/arlo`.

* A Go `string` is a sequence of bytes; it is embedded as `List Nat`, every
  element standing for one byte (`GoString`).  String literals of the source
  are written with `str`, which UTF-8 encodes a Lean string.
* The two bubbletea models (`model`, `model2`) are embedded as structures and
  their `Update` methods as pure functions returning the new model and the
  command (`none` or `Quit`).
* The text rewrite inside `PatchViteConfig` (everything between reading and
  writing the file) is embedded as `patchViteConfigText`, which returns the
  text handed to `os.WriteFile`, one of the two `fmt.Errorf` errors, or a
  run-time panic (slice bounds out of range).
-/

set_option autoImplicit false

namespace Arlo

/-! ## Go strings -/

/-- A Go string: a finite sequence of bytes. -/
abbrev GoString := List Nat

/-- UTF-8 encoding of one code point (`utf8.AppendRune` on a valid rune). -/
def encodeRune (r : Nat) : GoString :=
  if r < 0x80 then [r]
  else if r < 0x800 then [0xC0 + r / 64, 0x80 + r % 64]
  else if r < 0x10000 then [0xE0 + r / 4096, 0x80 + r / 64 % 64, 0x80 + r % 64]
  else [0xF0 + r / 262144, 0x80 + r / 4096 % 64, 0x80 + r / 64 % 64, 0x80 + r % 64]

/-- The bytes of a list of runes (`string(runes)`). -/
def encodeRunes : List Char → GoString
  | [] => []
  | c :: cs => encodeRune c.toNat ++ encodeRunes cs

/-- The bytes of a string literal of the source. -/
def str (s : String) : GoString := encodeRunes s.toList

/-! ## The wizard (bubbletea models) -/

/-- The key types of bubbletea that the source distinguishes, and a few of the
others (all of which reach the `default` branch or no branch at all). -/
inductive KeyType
  | KeyRunes | KeyEnter | KeyBackspace | KeyCtrlC | KeyUp | KeyDown
  | KeyLeft | KeyRight | KeyTab | KeyEsc | KeySpace | KeyDelete
  deriving DecidableEq, Repr

/-- A bubbletea key message `tea.KeyMsg`: its type (field `Type` of the source), the runes typed (for
`KeyRunes`) and the alt modifier. -/
structure KeyMsg where
  Typ : KeyType
  Runes : List Char
  Alt : Bool
  deriving DecidableEq, Repr

/-- The name bubbletea gives a key that is not `KeyRunes` (its `keyNames`
table). -/
def keyName : KeyType → GoString
  | .KeyRunes => str "runes"
  | .KeyEnter => str "enter"
  | .KeyBackspace => str "backspace"
  | .KeyCtrlC => str "ctrl+c"
  | .KeyUp => str "up"
  | .KeyDown => str "down"
  | .KeyLeft => str "left"
  | .KeyRight => str "right"
  | .KeyTab => str "tab"
  | .KeyEsc => str "esc"
  | .KeySpace => str " "
  | .KeyDelete => str "delete"

/-- What `msg.String()` returns (bubbletea `Key.String`): the runes of a
`KeyRunes` key, the key name otherwise, after `alt+` when alt is held. -/
def KeyMsg.String (k : KeyMsg) : GoString :=
  (if k.Alt then str "alt+" else []) ++
    (if k.Typ = KeyType.KeyRunes then encodeRunes k.Runes else keyName k.Typ)

/-- A message `tea.Msg`: a key message, or any other message (window size,
...), on which both `Update` methods do nothing. -/
inductive Msg
  | key (k : KeyMsg)
  | other
  deriving DecidableEq, Repr

/-- A command `tea.Cmd` as the source returns it: `nil` or `tea.Quit`. -/
inductive Cmd
  | none
  | Quit
  deriving DecidableEq, Repr

/-- The states of stage 1: `stateInput`, `stateMenu`, `stateDone`. -/
inductive state1
  | stateInput | stateMenu | stateDone
  deriving DecidableEq, Repr

/-- The stage-1 model. -/
structure model where
  state : state1
  input : GoString
  selection : Int
  options : List GoString
  done : Bool
  deriving DecidableEq, Repr

/-- Go's `s[:len(s)-1]`. -/
def dropLastByte (s : GoString) : GoString := s.take (s.length - 1)

/-- The method `model.Update`. -/
def model.Update (m : model) (msg : Msg) : model × Cmd :=
  match m.state with
  | .stateInput =>
    match msg with
    | .key k =>
      match k.Typ with
      | .KeyEnter => ({ m with state := .stateMenu }, .none)
      | .KeyBackspace =>
        if m.input.length > 0 then ({ m with input := dropLastByte m.input }, .none)
        else (m, .none)
      | .KeyCtrlC => (m, .Quit)
      | _ => ({ m with input := m.input ++ k.String }, .none)
    | .other => (m, .none)
  | .stateMenu =>
    match msg with
    | .key k =>
      match k.Typ with
      | .KeyUp =>
        if m.selection > 0 then ({ m with selection := m.selection - 1 }, .none)
        else (m, .none)
      | .KeyDown =>
        if m.selection < (m.options.length : Int) - 1 then
          ({ m with selection := m.selection + 1 }, .none)
        else (m, .none)
      | .KeyEnter => ({ m with state := .stateDone, done := true }, .Quit)
      | .KeyCtrlC => (m, .Quit)
      | _ => (m, .none)
    | .other => (m, .none)
  | .stateDone => (m, .none)

/-- The states of stage 2: `state2Menu`, `state2Done`. -/
inductive state2
  | state2Menu | state2Done
  deriving DecidableEq, Repr

/-- The stage-2 model. -/
structure model2 where
  state : state2
  selection : Int
  options : List GoString
  done : Bool
  deriving DecidableEq, Repr

/-- The method `model2.Update`. -/
def model2.Update (m : model2) (msg : Msg) : model2 × Cmd :=
  match m.state with
  | .state2Menu =>
    match msg with
    | .key k =>
      match k.Typ with
      | .KeyUp =>
        if m.selection > 0 then ({ m with selection := m.selection - 1 }, .none)
        else (m, .none)
      | .KeyDown =>
        if m.selection < (m.options.length : Int) - 1 then
          ({ m with selection := m.selection + 1 }, .none)
        else (m, .none)
      | .KeyEnter => ({ m with state := .state2Done, done := true }, .Quit)
      | .KeyCtrlC => (m, .Quit)
      | _ => (m, .none)
    | .other => (m, .none)
  | .state2Done => (m, .none)

/-- The model `ui` starts from. -/
def initModel : model :=
  { state := .stateInput, input := [], selection := 0,
    options := [str "npm", str "yarn", str "pnpm", str "deno", str "bun"], done := false }

/-- The model `ui2` starts from. -/
def initModel2 : model2 :=
  { state := .state2Menu, selection := 0, options := [str "Standard", str "Gin"],
    done := false }

/-- The model after a sequence of messages, each handled by `Update`. -/
def model.steps (m : model) : List Msg → model
  | [] => m
  | e :: es => model.steps (m.Update e).1 es

/-- The stage-2 model after a sequence of messages. -/
def model2.steps (m : model2) : List Msg → model2
  | [] => m
  | e :: es => model2.steps (m.Update e).1 es

/-- A session of the bubbletea program (`prog.Run`) on the messages `msgs`. The
event loop hands each message to `Update` and runs the command that `Update`
returns concurrently: `tea.Quit` ends the session only when its `QuitMsg`
reaches the loop, and the messages that reach the loop before it are still
handled by `Update`. `late` is the number of these messages. The result is the
final model and whether the session was ended by a quit command. -/
def model.run (m : model) (late : Nat) : List Msg → model × Bool
  | [] => (m, false)
  | e :: es =>
    match m.Update e with
    | (m1, .Quit) => (m1.steps (es.take late), true)
    | (m1, .none) => model.run m1 late es

/-- A session of the stage-2 program. -/
def model2.run (m : model2) (late : Nat) : List Msg → model2 × Bool
  | [] => (m, false)
  | e :: es =>
    match m.Update e with
    | (m1, .Quit) => (m1.steps (es.take late), true)
    | (m1, .none) => model2.run m1 late es

/-- The record `models.ProjectDetails`. -/
structure ProjectDetails where
  Name : GoString
  PackageManager : GoString
  deriving DecidableEq, Repr

/-- Go's `xs[i]` on a slice of strings: `none` stands for the index-out-of-range
panic. -/
def index (xs : List GoString) (i : Int) : Option GoString :=
  if 0 ≤ i then xs.get? i.toNat else Option.none

/-- What `ui` returns for the final model of the session: the project details
when `done` is set, the empty record otherwise (`none`: index panic). -/
def uiResult (m : model) : Option ProjectDetails :=
  if m.done then
    (index m.options m.selection).map fun pm => { Name := m.input, PackageManager := pm }
  else some { Name := [], PackageManager := [] }

/-- The function `ui` on the messages of the session. -/
def ui (late : Nat) (msgs : List Msg) : Option ProjectDetails :=
  uiResult (initModel.run late msgs).1

/-- What `ui2` returns for the final model of the session. -/
def ui2Result (m : model2) : Option GoString :=
  if m.done then index m.options m.selection else some []

/-- The function `ui2` on the messages of the session. -/
def ui2 (late : Nat) (msgs : List Msg) : Option GoString :=
  ui2Result (initModel2.run late msgs).1

/-! ## Library functions used by `PatchViteConfig` -/

/-- The function `strings.HasPrefix`. -/
def HasPrefix (s pre : GoString) : Bool := pre.isPrefixOf s

/-- The function `strings.HasSuffix`. -/
def HasSuffix (s suf : GoString) : Bool := suf.reverse.isPrefixOf s.reverse

/-- The function `strings.Contains`. -/
def Contains : GoString → GoString → Bool
  | [], sub => sub.isPrefixOf []
  | c :: cs, sub => sub.isPrefixOf (c :: cs) || Contains cs sub

/-- Scan of `strings.LastIndex`: `i` is the index of the first byte of the rest
of the string, `best` the last index found so far. -/
def lastIndexFrom (sub : GoString) : Nat → GoString → Int → Int
  | i, [], best => if sub.isPrefixOf [] then (i : Int) else best
  | i, c :: cs, best =>
    lastIndexFrom sub (i + 1) cs (if sub.isPrefixOf (c :: cs) then (i : Int) else best)

/-- The function `strings.LastIndex`: the index of the last occurrence of `sub`
in `s`, or `-1`. -/
def LastIndex (s sub : GoString) : Int := lastIndexFrom sub 0 s (-1)

/-- Replacement of the leftmost non-overlapping matches, from left to right:
`f` gives the length of the match that starts the rest of the text, if any;
`k` counts the bytes of the current match still to be skipped.  A match of
length zero inserts the replacement and copies the next byte. -/
def replaceGo (f : GoString → Option Nat) (new : GoString) : Nat → GoString → GoString
  | _, [] => []
  | k + 1, _ :: cs => replaceGo f new k cs
  | 0, c :: cs =>
    match f (c :: cs) with
    | some (n + 1) => new ++ replaceGo f new n cs
    | some 0 => new ++ c :: replaceGo f new 0 cs
    | none => c :: replaceGo f new 0 cs

/-- The match of a literal at the start of the text. -/
def literalAt (old : GoString) (s : GoString) : Option Nat :=
  if old.isPrefixOf s then some old.length else none

/-- The function `strings.ReplaceAll` for a non-empty `old` (the source calls
it with a non-empty literal). -/
def ReplaceAll (s old new : GoString) : GoString := replaceGo (literalAt old) new 0 s

/-- White space of `strings.TrimSpace` in ASCII: tab, line feed, vertical tab,
form feed, carriage return, space. -/
def asciiSpace (b : Nat) : Bool :=
  b == 9 || b == 10 || b == 11 || b == 12 || b == 13 || b == 32

/-- Width in bytes of the white-space rune (`unicode.IsSpace`) that starts the
text, or `0` when the text does not start with one: the ASCII white space,
U+0085, U+00A0, U+1680, U+2000..U+200A, U+2028, U+2029, U+202F, U+205F,
U+3000, each in its UTF-8 encoding. -/
def spaceWidth : GoString → Nat
  | [] => 0
  | b :: rest =>
    if asciiSpace b then 1
    else match b, rest with
      | 0xC2, b1 :: _ => if b1 == 0x85 || b1 == 0xA0 then 2 else 0
      | 0xE1, b1 :: b2 :: _ => if b1 == 0x9A && b2 == 0x80 then 3 else 0
      | 0xE2, b1 :: b2 :: _ =>
        if b1 == 0x80 &&
            ((0x80 ≤ b2 && b2 ≤ 0x8A) || b2 == 0xA8 || b2 == 0xA9 || b2 == 0xAF) then 3
        else if b1 == 0x81 && b2 == 0x9F then 3 else 0
      | 0xE3, b1 :: b2 :: _ => if b1 == 0x80 && b2 == 0x80 then 3 else 0
      | _, _ => 0

/-- Width in bytes of the white-space rune that ends the text whose bytes are
given last byte first, or `0`. -/
def spaceWidthRev : GoString → Nat
  | [] => 0
  | b :: rest =>
    if asciiSpace b then 1
    else match rest with
      | b1 :: rest2 =>
        if spaceWidth [b1, b] == 2 then 2
        else match rest2 with
          | b2 :: _ => if spaceWidth [b2, b1, b] == 3 then 3 else 0
          | [] => 0
      | [] => 0

/-- Removal of the leading runes of width `w s > 0`; `k` counts the bytes of
the current rune still to be removed. -/
def trimGo (w : GoString → Nat) : Nat → GoString → GoString
  | _, [] => []
  | k + 1, _ :: cs => trimGo w k cs
  | 0, c :: cs =>
    match w (c :: cs) with
    | 0 => c :: cs
    | n + 1 => trimGo w n cs

/-- The function `strings.TrimSpace`: leading white space removed, then
trailing white space. -/
def TrimSpace (s : GoString) : GoString :=
  (trimGo spaceWidthRev 0 (trimGo spaceWidth 0 s).reverse).reverse

/-- Go's `s[a:b]` for `a ≤ b ≤ len(s)`. -/
def slice (s : GoString) (a b : Nat) : GoString := (s.drop a).take (b - a)

/-! ### The two regular expressions -/

/-- The class `\s` of Go's `regexp`: tab, line feed, form feed, carriage
return, space. -/
def reSpace : List Nat := [9, 10, 12, 13, 32]

/-- The class `['"]`. -/
def reQuote : List Nat := [39, 34]

/-- One item of a regular expression that is a sequence of single-byte classes
and starred single-byte classes; a class is the list of its bytes. -/
inductive Item
  | one (cls : List Nat)
  | star (cls : List Nat)
  deriving DecidableEq, Repr

/-- The greedy loop of a starred class followed by the rest `k` of the
expression: as many bytes of the class as possible, fewer if the rest does not
match (leftmost-first semantics). The result is the number of bytes matched. -/
def starLoop (cls : List Nat) (k : GoString → Option Nat) : GoString → Option Nat
  | [] => k []
  | c :: cs =>
    if cls.contains c then
      match starLoop cls k cs with
      | some n => some (n + 1)
      | none => k (c :: cs)
    else k (c :: cs)

/-- The match of a sequence of items at the start of the text: the number of
bytes matched, or `none`. -/
def matchItems : List Item → GoString → Option Nat
  | [], _ => some 0
  | .one cls :: rest, s =>
    match s with
    | [] => none
    | c :: cs => if cls.contains c then (matchItems rest cs).map (· + 1) else none
  | .star cls :: rest, s => starLoop cls (matchItems rest) s

/-- The items of a literal. -/
def lits (s : GoString) : List Item := s.map fun b => Item.one [b]

/-- The items of `\s+`. -/
def spaces1 : List Item := [.one reSpace, .star reSpace]

/-- The items of `\s*`. -/
def spaces0 : List Item := [.star reSpace]

/-- The expression
`import\s+\{\s*defineConfig\s*\}\s+from\s+['"]vite['"]`. -/
def importRegex : List Item :=
  lits (str "import") ++ spaces1 ++ lits (str "\x7b") ++ spaces0 ++
    lits (str "defineConfig") ++ spaces0 ++ lits (str "\x7d") ++ spaces1 ++
    lits (str "from") ++ spaces1 ++ [.one reQuote] ++ lits (str "vite") ++ [.one reQuote]

/-- The expression `export\s+default\s+defineConfig\s*\(\s*\{`. -/
def defineConfigRegex : List Item :=
  lits (str "export") ++ spaces1 ++ lits (str "default") ++ spaces1 ++
    lits (str "defineConfig") ++ spaces0 ++ lits (str "(") ++ spaces0 ++ lits (str "\x7b")

/-- Scan of `FindStringIndex`: `i` is the index of the first byte of the rest
of the text. -/
def findFrom (re : List Item) : Nat → GoString → Option (Nat × Nat)
  | i, [] => (matchItems re []).map fun n => (i, i + n)
  | i, c :: cs =>
    match matchItems re (c :: cs) with
    | some n => some (i, i + n)
    | none => findFrom re (i + 1) cs

/-- The method `FindStringIndex`: start and end of the leftmost match. -/
def FindStringIndex (re : List Item) (s : GoString) : Option (Nat × Nat) := findFrom re 0 s

/-- The method `ReplaceAllString` for a replacement without `$`. -/
def ReplaceAllString (re : List Item) (s repl : GoString) : GoString :=
  replaceGo (matchItems re) repl 0 s

/-! ## The text rewrite of `PatchViteConfig` -/

/-- What the rewrite ends in: the text written to the config file, an error
returned to the caller, or a run-time panic. -/
inductive Outcome
  | written (content : GoString)
  | error (msg : GoString)
  | panic
  deriving DecidableEq, Repr

/-- The literal `serverProxy`. -/
def serverProxy : GoString :=
  str ("\n    server: \x7b\n      proxy: \x7b\n        '/api': \x7b\n" ++
    "          target: env.VITE_API_URL,\n          changeOrigin: true,\n" ++
    "          rewrite: path => path.replace(/^\\/api/, ''),\n" ++
    "        \x7d\n      \x7d\n    \x7d\n  \x7d\n\t")

/-- The first literal of `newConfig`. -/
def newConfigHead : GoString :=
  str ("\nexport default defineConfig((\x7b mode \x7d) => \x7b\n" ++
    "  const env = loadEnv(mode, process.cwd(), '')\n  return \x7b\n\t")

/-- The last literal of `newConfig`. -/
def newConfigTail : GoString := str "\n\x7d)\n"

/-- The substring that marks a function-based config. -/
def functionMarker : GoString := str "defineConfig((\x7b mode \x7d)"

/-- The proxy target that the fast path replaces. -/
def oldTarget : GoString := str "target: process.env.VITE_API_URL"

/-- The proxy target that the fast path writes. -/
def newTarget : GoString := str "target: env.VITE_API_URL"

/-- The import statement that the import step writes. -/
def newImport : GoString := str "import \x7b defineConfig, loadEnv \x7d from 'vite'"

/-- The import step: `importRegex.ReplaceAllString(content, ...)`. -/
def importStep (content : GoString) : GoString :=
  ReplaceAllString importRegex content newImport

/-- The config object extracted by the conversion path: `content[e:k]`,
trimmed, without one leading `{` and one trailing `}`. -/
def configBody (content : GoString) (e k : Nat) : GoString :=
  let b0 := TrimSpace (slice content e k)
  let b1 := if HasPrefix b0 (str "\x7b") then b0.drop 1 else b0
  if HasSuffix b1 (str "\x7d") then b1.take (b1.length - 1) else b1

/-- The text rewrite of `PatchViteConfig`, from the content read to the
content written. -/
def patchViteConfigText (data : GoString) : Outcome :=
  let content := importStep data
  if Contains content functionMarker then
    .written (ReplaceAll content oldTarget newTarget)
  else
    match FindStringIndex defineConfigRegex content with
    | none => .error (str "Could not find export default defineConfig(\x7b in config file")
    | some (s, e) =>
      let lastClosing := LastIndex content (str "\x7d)")
      if lastClosing = -1 then
        .error (str "Could not find closing \x7d) in config file")
      else if lastClosing < (e : Int) then .panic
      else
        .written (content.take s ++
          (newConfigHead ++ configBody content e lastClosing.toNat ++ serverProxy ++
            newConfigTail))

/-! ## Rendering -/

/-- The loop `for i, opt := range m.options` of both `View` methods: one line
`cursor opt` per option, the cursor being `>` where `i == m.selection`. -/
def menuLines (selection : Int) : Nat → List GoString → GoString
  | _, [] => []
  | i, opt :: rest =>
    (if (i : Int) = selection then str ">" else str " ") ++ str " " ++ opt ++ str "\n" ++
      menuLines selection (i + 1) rest

/-- The method `model.View` (`none`: index-out-of-range panic). -/
def model.View (m : model) : Option GoString :=
  match m.state with
  | .stateInput => some (str "Enter Project Name: " ++ m.input)
  | .stateMenu =>
    some (str "You typed: " ++ m.input ++ str "\n\nChoose an option:\n\n" ++
      menuLines m.selection 0 m.options)
  | .stateDone =>
    (index m.options m.selection).map fun opt =>
      str "You typed: " ++ m.input ++ str "\n" ++ (str "You selected: " ++ opt ++ str "\n")

/-- The method `model2.View`. -/
def model2.View (m : model2) : Option GoString :=
  match m.state with
  | .state2Menu => some (str "Choose an option:\n\n" ++ menuLines m.selection 0 m.options)
  | .state2Done =>
    (index m.options m.selection).map fun opt => str "You selected: " ++ opt ++ str "\n"

/-! ## Effects, `strings.ToLower` and the dependency check -/

/-- What the orchestrator and its helpers do to the outside world, in the order
in which they do it. -/
inductive Effect
  | print (text : GoString)
  | lookPath (name : GoString)
  | runCommand (argv : List GoString)
  | chdir (dir : GoString)
  | mkdir (dir : GoString)
  | writeJSON (file : GoString) (name packageManager : GoString)
  | patchViteConfig
  | generateTemplate (template dest title : GoString)
  | copyTemplate (template dest : GoString)
  | exit
  | panic
  deriving DecidableEq, Repr

/-- Lower case of an ASCII byte. -/
def asciiLower (b : Nat) : Nat := if 65 ≤ b ∧ b ≤ 90 then b + 32 else b

/-- The function `strings.ToLower`: a string of ASCII bytes has its upper-case
letters replaced; any other string goes through the Unicode case mapping
`strings.Map(unicode.ToLower, s)`, which is the parameter `unicodeLower`. -/
def ToLower (unicodeLower : GoString → GoString) (s : GoString) : GoString :=
  if s.all (fun b => decide (b < 128)) then s.map asciiLower else unicodeLower s

/-- The slice `coreTools`. -/
def coreTools : List GoString := [str "go", str "node", str "air"]

/-- The map `jsOptions`. -/
def jsOptions : List (GoString × Bool) :=
  [(str "npm", true), (str "deno", true), (str "pnpm", true), (str "bun", true),
    (str "yarn", true)]

/-- Go's `m[key]` on a `map[string]bool`: `false` for a missing key. -/
def mapGet : List (GoString × Bool) → GoString → Bool
  | [], _ => false
  | (k, v) :: rest, key => if k = key then v else mapGet rest key

/-- One check of `CheckDependencies`: `checkCommand(tool)`, that is one
`exec.LookPath`, and the line printed for its result; `st` is `allInstalled`
and the effects so far. -/
def checkTool (lookPath : GoString → Bool) (st : Bool × List Effect) (tool : GoString) :
    Bool × List Effect :=
  if lookPath tool then
    (st.1, st.2 ++ [.lookPath tool, .print (str "✔ " ++ tool ++ str " is installed\n")])
  else
    (false, st.2 ++ [.lookPath tool, .print (str "✘ " ++ tool ++ str " is NOT installed\n")])

/-- The function `CheckDependencies`: its result and its effects. `lookPath`
tells whether `exec.LookPath` succeeds on a name. -/
def CheckDependencies (unicodeLower : GoString → GoString) (lookPath : GoString → Bool)
    (jsTool : GoString) : Bool × List Effect :=
  let jsTool := ToLower unicodeLower jsTool
  if !(mapGet jsOptions jsTool) then
    (false, [.print (str "⚠ '" ++ jsTool ++ str "' is not a supported JS tool\n")])
  else
    checkTool lookPath (coreTools.foldl (checkTool lookPath) (true, [])) jsTool

/-! ## The file system and `PatchViteConfig` -/

/-- A file of the working directory: its content, the error of reading it and
the error of writing it, if any. -/
structure FileEntry where
  content : GoString
  readErr : Option GoString
  writeErr : Option GoString
  deriving DecidableEq, Repr

/-- The files of the working directory by name; `none`: `os.Stat` fails. -/
abbrev FS := GoString → Option FileEntry

/-- What `PatchViteConfig` returns: `nil`, an error, or no return at all
(panic). -/
inductive Ret
  | nil
  | error (msg : GoString)
  | panic
  deriving DecidableEq, Repr

/-- The function `os.ReadFile`. -/
def ReadFile (fs : FS) (name : GoString) : Except GoString GoString :=
  match fs name with
  | none => .error (str "open " ++ name ++ str ": no such file or directory")
  | some f =>
    match f.readErr with
    | some e => .error e
    | none => .ok f.content

/-- The function `os.WriteFile`: the new file system and the error. A write
that fails leaves the file system as it was. -/
def WriteFile (fs : FS) (name : GoString) (data : GoString) : FS × Option GoString :=
  match fs name with
  | none =>
    (fun n => if n = name then some { content := data, readErr := none, writeErr := none }
      else fs n, none)
  | some f =>
    match f.writeErr with
    | some e => (fs, some e)
    | none => (fun n => if n = name then some { f with content := data } else fs n, none)

/-- The candidate file names, in the order of the source. -/
def configFiles : List GoString := [str "vite.config.ts", str "vite.config.js"]

/-- The loop that selects `configFile`: the first candidate on which `os.Stat`
succeeds, the empty string if there is none. -/
def selectConfig (fs : FS) : List GoString → GoString
  | [] => []
  | f :: rest => if (fs f).isSome then f else selectConfig fs rest

/-- The function `PatchViteConfig` on a file system: the file system it leaves
and what it returns. -/
def PatchViteConfig (fs : FS) : FS × Ret :=
  let configFile := selectConfig fs configFiles
  if configFile = [] then
    (fs, .error (str "No vite.config.js or vite.config.ts found"))
  else
    match ReadFile fs configFile with
    | .error e => (fs, .error e)
    | .ok data =>
      match patchViteConfigText data with
      | .error msg => (fs, .error msg)
      | .panic => (fs, .panic)
      | .written content =>
        match WriteFile fs configFile content with
        | (fs1, none) => (fs1, .nil)
        | (fs1, some e) => (fs1, .error e)

/-! ## The orchestrator -/

/-- The outside world: whether an effect succeeds after the effects so far. -/
abbrev World := List Effect → Effect → Bool

/-- An effect whose error goes to `utils.Check`.
Modelled from the spec: `utils.Check` is not among the sources; it is the
"check and terminate" helper, which does nothing on a nil error and ends the
process otherwise. -/
def checked (w : World) (e : Effect) (k : List Effect → List Effect) (tr : List Effect) :
    List Effect :=
  if w tr e then k (tr ++ [e]) else tr ++ [e, .exit]

/-- An effect whose result is not looked at. -/
def emit (e : Effect) (k : List Effect → List Effect) (tr : List Effect) : List Effect :=
  k (tr ++ [e])

/-- The function `CreateFrontend`. -/
def CreateFrontend (unicodeLower : GoString → GoString) (w : World)
    (packageManager name : GoString) (k : List Effect → List Effect) (tr : List Effect) :
    List Effect :=
  if packageManager = str "npm" then
    checked w (.runCommand [str "npm", str "create", str "vite@latest",
      ToLower unicodeLower name]) k tr
  else if packageManager = str "pnpm" then
    checked w (.runCommand [str "pnpm", str "create", str "vite", ToLower unicodeLower name]) k tr
  else if packageManager = str "yarn" then
    checked w (.runCommand [str "yarn", str "create", str "vite", ToLower unicodeLower name]) k tr
  else if packageManager = str "bun" then
    checked w (.runCommand [str "bun", str "create", str "vite", ToLower unicodeLower name]) k tr
  else if packageManager = str "deno" then
    checked w (.runCommand [str "deno", str "init", str "--npm", str "vite",
      ToLower unicodeLower name]) k tr
  else emit (.print (str "default\n")) k tr

/-- The function `InstallNodeTypes`. -/
def InstallNodeTypes (w : World) (packageManager : GoString)
    (k : List Effect → List Effect) (tr : List Effect) : List Effect :=
  if packageManager = str "npm" then
    checked w (.runCommand [str "npm", str "i", str "--save-dev", str "@types/node"]) k tr
  else if packageManager = str "pnpm" then
    checked w (.runCommand [str "pnpm", str "add", str "-D", str "@types/node"]) k tr
  else if packageManager = str "yarn" then
    checked w (.runCommand [str "yarn", str "add", str "--dev", str "@types/node"]) k tr
  else if packageManager = str "bun" then
    checked w (.runCommand [str "bun", str "add", str "-d", str "@types/node"]) k tr
  else if packageManager = str "deno" then
    emit (.print (str "Deno does not require @types/node.\n")) k tr
  else
    emit (.print (str "Unsupported package manager: " ++ packageManager ++ str "\n")) k tr

/-- The function `GetFrontendDependenciesCommand`. -/
def GetFrontendDependenciesCommand (packageManager : GoString) : GoString :=
  if packageManager = str "npm" then str "npm install"
  else if packageManager = str "pnpm" then str "pnpm install"
  else if packageManager = str "yarn" then str "yarn"
  else if packageManager = str "bun" then str "bun install"
  else if packageManager = str "deno" then str "deno install"
  else str "default"

/-- The function `CreateBackend`. -/
def CreateBackend (w : World) (framework title : GoString)
    (k : List Effect → List Effect) (tr : List Effect) : List Effect :=
  if framework = str "Standard" then
    emit (.generateTemplate (str "std.main.go.tmpl") (str "main.go") title)
      (checked w (.mkdir (str "app"))
        (emit (.generateTemplate (str "std.app.go.tmpl") (str "app/app.go") title)
          (emit (.generateTemplate (str "std.build.go.tmpl") (str "build.go") title) k))) tr
  else if framework = str "Gin" then
    emit (.generateTemplate (str "gin.main.go.tmpl") (str "main.go") title)
      (checked w (.mkdir (str "app"))
        (emit (.generateTemplate (str "gin.app.go.tmpl") (str "app/app.go") title)
          (emit (.generateTemplate (str "gin.build.go.tmpl") (str "build.go") title)
            (checked w (.runCommand [str "go", str "get", str "github.com/gin-gonic/gin"])
              k)))) tr
  else emit (.print (str "Invalid Option\n")) k tr

/-- The function `InitProject`: the effects of one run, in order. `msgs1` and
`msgs2` are the messages of the two wizard sessions, `late1` and `late2` the
numbers of messages handled after a quit command in each, `lookPath` tells
which tools are on the path and `w` which effects succeed. -/
def InitProject (unicodeLower : GoString → GoString) (lookPath : GoString → Bool) (w : World)
    (late1 late2 : Nat) (msgs1 msgs2 : List Msg) : List Effect :=
  match ui late1 msgs1 with
  | none => [.panic]
  | some project =>
    let deps := CheckDependencies unicodeLower lookPath project.PackageManager
    let tr0 := [Effect.print (str "\n")] ++ deps.2
    if deps.1 = false then
      tr0 ++ [.print (str "\n❌ Some dependencies are missing.\n")]
    else
      match ui2 late2 msgs2 with
      | none =>
        tr0 ++ [.print (str "\n✅ All dependencies are installed.\n"), .print (str "\n"),
          .print (str "Select Go API framework:\n"), .panic]
      | some goFramework =>
        let lower := ToLower unicodeLower project.Name
        (CreateFrontend unicodeLower w project.PackageManager project.Name
          (checked w (.chdir lower)
            (checked w (.writeJSON (str "arlo.config.json") project.Name project.PackageManager)
              (InstallNodeTypes w project.PackageManager
                (checked w .patchViteConfig
                  (checked w (.mkdir (str "src-backend"))
                    (checked w (.chdir (str "src-backend"))
                      (emit (.runCommand [str "go", str "mod", str "init", lower])
                        (emit (.copyTemplate (str "air.toml.tmpl") (str ".air.toml"))
                          (CreateBackend w goFramework lower
                            (fun tr => tr ++ [.print (str "cd " ++ lower ++ str "\n"),
                              .print (GetFrontendDependenciesCommand project.PackageManager ++
                                str "\n"),
                              .print (str "arlo dev\n")])))))))))))
          (tr0 ++ [.print (str "\n✅ All dependencies are installed.\n"),
            .print (str "\n"), .print (str "Select Go API framework:\n")])

/-! ## Auxiliary definitions for the statements -/

/-- A key event that types the printable character `c`. -/
def printable (c : Char) : Msg := .key { Typ := .KeyRunes, Runes := [c], Alt := false }

/-- Position of a stage-1 state in the order Input < Menu < Done. -/
def state1.rank : state1 → Nat
  | .stateInput => 0
  | .stateMenu => 1
  | .stateDone => 2

/-- Position of a stage-2 state in the order Menu < Done. -/
def state2.rank : state2 → Nat
  | .state2Menu => 0
  | .state2Done => 1

/-- The selection of a stage-1 model is an index of its option list. -/
def model.selectionOk (m : model) : Prop :=
  0 ≤ m.selection ∧ m.selection ≤ (m.options.length : Int) - 1

/-- The selection of a stage-2 model is an index of its option list. -/
def model2.selectionOk (m : model2) : Prop :=
  0 ≤ m.selection ∧ m.selection ≤ (m.options.length : Int) - 1

/-- The Backspace key. -/
def backspaceKey : Msg := .key { Typ := .KeyBackspace, Runes := [], Alt := false }

/-- The completion flag is set exactly in the Done state. -/
def model.flagOk (m : model) : Prop := m.done = true ↔ m.state = .stateDone

/-- The completion flag of a stage-2 model is set exactly in the Done state. -/
def model2.flagOk (m : model2) : Prop := m.done = true ↔ m.state = .state2Done

/-- The bytes of the class of an item. -/
def Item.cls : Item → List Nat
  | .one c => c
  | .star c => c

/-- The byte `b` belongs to the class of some item of the expression. -/
def allowedBy (items : List Item) (b : Nat) : Bool := items.any fun it => it.cls.contains b

/-- Every starred class is followed by a single class disjoint from it: the
greedy loop then never gives a byte back. -/
def det : List Item → Bool
  | [] => true
  | .one _ :: rest => det rest
  | .star cls :: rest =>
    match rest with
    | .one q :: _ => cls.all (fun b => !q.contains b) && det rest
    | _ => false

/-- No occurrence of `m` in a text `u ++ B ++ v` shares a byte with the block
`B`: every occurrence ends before the block or starts after it. -/
def NoTouch (B m : GoString) : Prop :=
  ∀ u v s t : GoString, s ++ m ++ t = u ++ B ++ v →
    s.length + m.length ≤ u.length ∨ u.length + B.length ≤ s.length

/-- The words `m` and `B` can overlap: a non-empty end of one starts the other,
or one lies inside the other. -/
def Overlap (m B : GoString) : Prop :=
  (∃ t, t ≠ [] ∧ t <:+ m ∧ t <+: B) ∨ (∃ t, t ≠ [] ∧ t <:+ B ∧ t <+: m) ∨
    B <:+: m ∨ m <:+: B

/-- Decision procedure for `Overlap`. -/
def overlapB (m B : GoString) : Bool :=
  (m.tails.any fun t => !t.isEmpty && t.isPrefixOf B) ||
  (B.tails.any fun t => !t.isEmpty && t.isPrefixOf m) ||
  (m.tails.any fun t => B.isPrefixOf t) ||
  (B.tails.any fun t => m.isPrefixOf t)

/-- Sufficient check that a word that starts with `p`, ends with `q` and has
bytes of `allowed` only cannot overlap the word `B`. -/
def guardB (allowed : Nat → Bool) (p q B : GoString) : Bool :=
  !(B.all allowed) &&
  (B.takeWhile allowed).tails.all (fun r => !(q.isPrefixOf r)) &&
  q.tails.all (fun t => t.isEmpty || !(t.isPrefixOf (B.takeWhile allowed))) &&
  B.tails.all (fun t => t.isEmpty || !(t.all allowed && (p.isPrefixOf t || t.isPrefixOf p))) &&
  B.tails.all (fun t =>
    !(p.isPrefixOf t && (t.takeWhile allowed).tails.any (fun r => q.isPrefixOf r)))

/-- The bytes that occur in matches of the import expression. -/
def importAllowed (b : Nat) : Bool := allowedBy importRegex b

/-- A word matched by the import expression. -/
def ImportWord (m : GoString) : Prop :=
  ∃ s n, matchItems importRegex s = some n ∧ m = s.take n

/-- The text has no match of the import expression. -/
def ImportFree (x : GoString) : Prop := ∀ m, ImportWord m → ¬ m <:+: x

/-- The body as the specification words it: the text between the signature and
the closing sequence, whitespace-trimmed, with one leading `{` and one trailing
`}` removed if present. -/
def specBody (t : GoString) : GoString :=
  let t0 := TrimSpace t
  let t1 := if str "\x7b" <+: t0 then t0.tail else t0
  if str "\x7d" <:+ t1 then t1.dropLast else t1

/-- Run of a bracket check over a text: `st` is the stack of the closing
brackets still expected; `none` when a closing bracket does not match. -/
def bracketRun : List Nat → GoString → Option (List Nat)
  | st, [] => some st
  | st, c :: cs =>
    if c = 40 then bracketRun (41 :: st) cs
    else if c = 91 then bracketRun (93 :: st) cs
    else if c = 123 then bracketRun (125 :: st) cs
    else if c = 41 ∨ c = 93 ∨ c = 125 then
      match st with
      | top :: st1 => if top = c then bracketRun st1 cs else none
      | [] => none
    else bracketRun st cs

/-- Parentheses, square brackets and braces of the text are balanced and
properly nested. -/
def balanced (s : GoString) : Bool := bracketRun [] s == some []

/-- The white-space runes of `unicode.IsSpace`. -/
def whiteSpaceRunes : List Nat :=
  [0x09, 0x0A, 0x0B, 0x0C, 0x0D, 0x20, 0x85, 0xA0, 0x1680, 0x2000, 0x2001, 0x2002, 0x2003,
    0x2004, 0x2005, 0x2006, 0x2007, 0x2008, 0x2009, 0x200A, 0x2028, 0x2029, 0x202F, 0x205F,
    0x3000]

/-- The text is a sequence of UTF-8 encoded white-space runes. -/
inductive WhiteRunes : GoString → Prop
  | nil : WhiteRunes []
  | cons (r : Nat) (a : GoString) : r ∈ whiteSpaceRunes → WhiteRunes a →
      WhiteRunes (encodeRune r ++ a)

/-- One line of a rendered menu as the specification words it: the cursor
marker (`>` on the selected index, a space otherwise), a space, the option text
and a line feed. -/
def menuLine (selection : Int) (i : Nat) (opt : GoString) : GoString :=
  (if (i : Int) = selection then str ">" else str " ") ++ str " " ++ opt ++ str "\n"

/-- The lines of a rendered menu, for the options from index `i` on. -/
def menuLineList (selection : Int) : Nat → List GoString → List GoString
  | _, [] => []
  | i, opt :: rest => menuLine selection i opt :: menuLineList selection (i + 1) rest

/-- The names looked up on the path, in order. -/
def lookups : List Effect → List GoString
  | [] => []
  | .lookPath n :: rest => n :: lookups rest
  | _ :: rest => lookups rest

/-- The two effects of the check of one tool: the lookup and the line
reporting its result. -/
def toolReport (lookPath : GoString → Bool) (tool : GoString) : List Effect :=
  [.lookPath tool,
    .print (if lookPath tool then str "✔ " ++ tool ++ str " is installed\n"
      else str "✘ " ++ tool ++ str " is NOT installed\n")]

/-- The five supported package managers. -/
def supportedTools : List GoString :=
  [str "npm", str "yarn", str "pnpm", str "bun", str "deno"]

/-- The effect changes the outside world: it is not a message printed and not
a lookup on the path. -/
def Effect.acts : Effect → Bool
  | .print _ => false
  | .lookPath _ => false
  | _ => true

/-- The error of `PatchViteConfig` when no config file is found. -/
def errNoConfig : GoString := str "No vite.config.js or vite.config.ts found"

/-- The error of `PatchViteConfig` when the export signature is not found. -/
def errNoSignature : GoString :=
  str "Could not find export default defineConfig(\x7b in config file"

/-- The error of `PatchViteConfig` when the closing sequence is not found. -/
def errNoClosing : GoString := str "Could not find closing \x7d) in config file"

/-- A file system with the single file `name`, readable and writable. -/
def oneFile (name content : GoString) : FS :=
  fun n => if n = name then some { content := content, readErr := none, writeErr := none }
    else none

/-- The bytes that occur in matches of the export signature. -/
def exportAllowed (b : Nat) : Bool := allowedBy defineConfigRegex b

/-- A word matched by the export signature expression. -/
def ExportWord (w : GoString) : Prop :=
  ∃ s n, matchItems defineConfigRegex s = some n ∧ w = s.take n

/-- The export signature matches somewhere in the text. -/
def HasSignature (x : GoString) : Prop :=
  ∃ t, t <:+ x ∧ matchItems defineConfigRegex t ≠ none

/-- Decision procedure for `HasSignature`. -/
def hasSignatureB (x : GoString) : Bool :=
  x.tails.any fun t => (matchItems defineConfigRegex t).isSome

/-- The file `name` with entry `f` is the one `PatchViteConfig` selects:
`vite.config.ts` when it exists, `vite.config.js` when it exists and
`vite.config.ts` does not. -/
def Selected (fs : FS) (name : GoString) (f : FileEntry) : Prop :=
  (name = str "vite.config.ts" ∧ fs (str "vite.config.ts") = some f) ∨
  (name = str "vite.config.js" ∧ fs (str "vite.config.ts") = none ∧
    fs (str "vite.config.js") = some f)

/-- A readable and writable file with the given text. -/
def plainFile (content : GoString) : FileEntry :=
  { content := content, readErr := none, writeErr := none }

/-- A file system with both candidate files, readable and writable. -/
def twoFiles (ts js : GoString) : FS :=
  fun n => if n = str "vite.config.ts" then some (plainFile ts)
    else if n = str "vite.config.js" then some (plainFile js) else none

/-- The key event of a key without runes, such as an arrow key. -/
def plainKey (t : KeyType) : Msg := .key { Typ := t, Runes := [], Alt := false }

/-- A config text whose only `\x7d)` stands before the export signature. -/
def closingBeforeExport : GoString :=
  str ("const p = mkPlugin(\x7b\x7d)\n" ++
    "export default defineConfig(\x7b plugins: [p] \x7d satisfies UserConfig)\n")

/-- The effects of a run of `InitProject` whose first wizard session ended
without the completion flag. -/
def abortedTrace : List Effect :=
  [.print (str "\n"), .print (str "⚠ '' is not a supported JS tool\n"),
    .print (str "\n❌ Some dependencies are missing.\n")]


/-- A config text in which the export signature matches and the call is never
closed; its only `\x7d)` stands before the signature. -/
def unclosedCall : GoString :=
  str "f(\x7b\x7d)\nexport default defineConfig(\x7b plugins: []\n"

/-- The key events Ctrl-C, Enter, Enter. -/
def interruptThenConfirm : List Msg :=
  [plainKey .KeyCtrlC, plainKey .KeyEnter, plainKey .KeyEnter]

/-! ## The wizard: theorems -/

theorem model.Update_options (m : model) (e : Msg) : (m.Update e).1.options = m.options := by
  unfold model.Update
  repeat' split
  all_goals rfl

theorem model2.Update_options2 (m : model2) (e : Msg) :
    (m.Update e).1.options = m.options := by
  unfold model2.Update
  repeat' split
  all_goals rfl

theorem model.Update_selectionOk (m : model) (e : Msg) (h : m.selectionOk) :
    (m.Update e).1.selectionOk := by
  unfold model.selectionOk at h ⊢
  rw [model.Update_options]
  unfold model.Update
  repeat' split
  all_goals simp only []
  all_goals omega

theorem model2.Update_selectionOk2 (m : model2) (e : Msg) (h : m.selectionOk) :
    (m.Update e).1.selectionOk := by
  unfold model2.selectionOk at h ⊢
  rw [model2.Update_options2]
  unfold model2.Update
  repeat' split
  all_goals simp only []
  all_goals omega

theorem model.steps_selectionOk (es : List Msg) :
    ∀ m : model, m.selectionOk → (m.steps es).selectionOk := by
  induction es with
  | nil => intro m h; exact h
  | cons e es ih => intro m h; exact ih _ (m.Update_selectionOk e h)

theorem model2.steps_selectionOk2 (es : List Msg) :
    ∀ m : model2, m.selectionOk → (m.steps es).selectionOk := by
  induction es with
  | nil => intro m h; exact h
  | cons e es ih => intro m h; exact ih _ (m.Update_selectionOk2 e h)

theorem model.steps_options (es : List Msg) :
    ∀ m : model, (m.steps es).options = m.options := by
  induction es with
  | nil => intro m; rfl
  | cons e es ih => intro m; exact (ih _).trans (m.Update_options e)

theorem model2.steps_options2 (es : List Msg) :
    ∀ m : model2, (m.steps es).options = m.options := by
  induction es with
  | nil => intro m; rfl
  | cons e es ih => intro m; exact (ih _).trans (m.Update_options2 e)

/-- C5. From the initial model of either stage, after every finite sequence of
messages handled by `Update`, the option list is the initial one (five options
in stage 1, two in stage 2) and the selection lies in `[0, len(options)-1]`. -/
theorem selection_in_range (es : List Msg) :
    ((initModel.steps es).options = initModel.options ∧
      0 ≤ (initModel.steps es).selection ∧
      (initModel.steps es).selection ≤ ((initModel.steps es).options.length : Int) - 1 ∧
      (initModel.steps es).options.length = 5) ∧
    ((initModel2.steps es).options = initModel2.options ∧
      0 ≤ (initModel2.steps es).selection ∧
      (initModel2.steps es).selection ≤ ((initModel2.steps es).options.length : Int) - 1 ∧
      (initModel2.steps es).options.length = 2) := by
  have h1 : initModel.selectionOk := by
    unfold model.selectionOk initModel; simp
  have h2 : initModel2.selectionOk := by
    unfold model2.selectionOk initModel2; simp
  have o1 := model.steps_options es initModel
  have o2 := model2.steps_options2 es initModel2
  have s1 := model.steps_selectionOk es initModel h1
  have s2 := model2.steps_selectionOk2 es initModel2 h2
  refine ⟨⟨o1, s1.1, s1.2, ?_⟩, ⟨o2, s2.1, s2.2, ?_⟩⟩
  · rw [o1]; rfl
  · rw [o2]; rfl

/-- C6. In the Menu state of either stage, an up event moves the selection from
`i` to `i-1` when `i > 0` and changes nothing otherwise; a down event moves it
from `i` to `i+1` when `i < len(options)-1` and changes nothing otherwise (no
wraparound); state, input, options and completion flag are unchanged and the
command is `nil`. -/
theorem menu_up_down (m : model) (m2 : model2) (k : KeyMsg)
    (hm : m.state = .stateMenu) (hm2 : m2.state = .state2Menu) :
    (k.Typ = .KeyUp →
      m.Update (.key k) =
        ({ m with selection := if m.selection > 0 then m.selection - 1 else m.selection },
          Cmd.none) ∧
      m2.Update (.key k) =
        ({ m2 with selection := if m2.selection > 0 then m2.selection - 1 else m2.selection },
          Cmd.none)) ∧
    (k.Typ = .KeyDown →
      m.Update (.key k) =
        ({ m with selection :=
            if m.selection < (m.options.length : Int) - 1 then m.selection + 1
            else m.selection }, Cmd.none) ∧
      m2.Update (.key k) =
        ({ m2 with selection :=
            if m2.selection < (m2.options.length : Int) - 1 then m2.selection + 1
            else m2.selection }, Cmd.none)) := by
  obtain ⟨st, inp, sel, opts, dn⟩ := m
  obtain ⟨st2, sel2, opts2, dn2⟩ := m2
  simp only at hm hm2
  subst hm hm2
  constructor
  · intro hk
    constructor
    · simp only [model.Update, hk]
      by_cases h : sel > 0 <;> simp [h]
    · simp only [model2.Update, hk]
      by_cases h : sel2 > 0 <;> simp [h]
  · intro hk
    constructor
    · simp only [model.Update, hk]
      by_cases h : sel < (opts.length : Int) - 1 <;> simp [h]
    · simp only [model2.Update, hk]
      by_cases h : sel2 < (opts2.length : Int) - 1 <;> simp [h]

/-- C6, at a concrete input: stage 1 with the third of five options selected,
stage 2 with the first of two, and the plain up key. -/
theorem menu_up_down_witness :
    ({ initModel with state := .stateMenu, selection := 2 } : model).Update
        (.key { Typ := .KeyUp, Runes := [], Alt := false }) =
      ({ initModel with state := .stateMenu, selection := 1 }, Cmd.none) ∧
    ({ initModel2 with selection := 0 } : model2).Update
        (.key { Typ := .KeyUp, Runes := [], Alt := false }) =
      ({ initModel2 with selection := 0 }, Cmd.none) :=
  (menu_up_down { initModel with state := .stateMenu, selection := 2 }
    { initModel2 with selection := 0 } { Typ := .KeyUp, Runes := [], Alt := false }
    rfl rfl).1 rfl

theorem model.steps_append (es fs : List Msg) :
    ∀ m : model, m.steps (es ++ fs) = (m.steps es).steps fs := by
  induction es with
  | nil => intro m; rfl
  | cons e es ih => intro m; exact ih _

theorem printable_String (c : Char) :
    (KeyMsg.String { Typ := .KeyRunes, Runes := [c], Alt := false }) = encodeRunes [c] := by
  simp [KeyMsg.String]

theorem encodeRunes_append (xs ys : List Char) :
    encodeRunes (xs ++ ys) = encodeRunes xs ++ encodeRunes ys := by
  induction xs with
  | nil => rfl
  | cons x xs ih => simp [encodeRunes, ih]

theorem model.steps_printable (cs : List Char) :
    ∀ m : model, m.state = .stateInput →
      m.steps (cs.map printable) = { m with input := m.input ++ encodeRunes cs } := by
  induction cs with
  | nil => intro m _; simp [model.steps, encodeRunes]
  | cons c cs ih =>
    intro m hm
    obtain ⟨st, inp, sel, opts, dn⟩ := m
    simp only at hm
    subst hm
    simp only [List.map_cons, model.steps]
    have hu : (model.Update ⟨.stateInput, inp, sel, opts, dn⟩ (printable c)).1 =
        ⟨.stateInput, inp ++ encodeRunes [c], sel, opts, dn⟩ := by
      simp [model.Update, printable, KeyMsg.String]
    rw [hu, ih _ rfl]
    simp [encodeRunes]

/-- C7. Printable characters followed by one Enter, fed to the stage-1 `Update`
from the initial model: the final state is Menu, the state after every proper
initial segment of the events is still Input (the transition happens once, on
the last event), the session has not quit, and the buffer is the concatenation
of the characters typed, in order. -/
theorem printable_then_enter (cs r : List Char) (a : Bool) :
    (initModel.steps
        (cs.map printable ++ [Msg.key { Typ := .KeyEnter, Runes := r, Alt := a }])).state =
      .stateMenu ∧
    (initModel.steps
        (cs.map printable ++ [Msg.key { Typ := .KeyEnter, Runes := r, Alt := a }])).input =
      encodeRunes cs ∧
    (∀ n, n ≤ cs.length →
      (initModel.steps
        ((cs.map printable ++ [Msg.key { Typ := .KeyEnter, Runes := r, Alt := a }]).take n)).state =
        .stateInput) ∧
    (initModel.steps (cs.map printable)).input = encodeRunes cs := by
  have hs := model.steps_printable cs initModel rfl
  refine ⟨?_, ?_, ?_, ?_⟩
  · rw [model.steps_append, hs]; rfl
  · rw [model.steps_append, hs]; simp [model.steps, model.Update, initModel]
  · intro n hn
    have ht : (cs.map printable ++ [Msg.key { Typ := .KeyEnter, Runes := r, Alt := a }]).take n =
        (cs.take n).map printable := by
      rw [List.take_append_of_le_length (by simpa using hn), List.map_take]
    rw [ht, model.steps_printable _ initModel rfl]
    rfl
  · rw [hs]; simp [initModel]

/-- In the Input state Backspace removes the last byte of a non-empty buffer,
leaves an empty buffer empty, and the state stays Input. -/
theorem backspace_removes_last_byte (m : model) (k : KeyMsg) (hm : m.state = .stateInput)
    (hk : k.Typ = .KeyBackspace) :
    m.Update (.key k) = ({ m with input := m.input.take (m.input.length - 1) }, Cmd.none) := by
  obtain ⟨st, inp, sel, opts, dn⟩ := m
  simp only at hm
  subst hm
  simp only [model.Update, hk, dropLastByte]
  cases inp with
  | nil => simp
  | cons b bs => simp

/-- C8, the code at the failing input. The character U+00E9 typed as one key
event puts the two bytes 195, 169 into the buffer; one Backspace then leaves the
byte 195 in the buffer instead of the empty buffer. -/
theorem backspace_multibyte :
    (initModel.steps [printable (Char.ofNat 233)]).input = encodeRunes [Char.ofNat 233] ∧
    (initModel.steps [printable (Char.ofNat 233)]).input = [195, 169] ∧
    (initModel.steps [printable (Char.ofNat 233), backspaceKey]).input = [195] ∧
    (initModel.steps [printable (Char.ofNat 233), backspaceKey]).input ≠ [] ∧
    (initModel.steps [printable (Char.ofNat 233), backspaceKey]).state = .stateInput := by
  decide

theorem model.Update_flagOk (m : model) (e : Msg) (h : m.flagOk) : (m.Update e).1.flagOk := by
  obtain ⟨st, inp, sel, opts, dn⟩ := m
  unfold model.flagOk at h ⊢
  simp only at h
  unfold model.Update
  repeat' split
  all_goals simp_all

theorem model2.Update_flagOk2 (m : model2) (e : Msg) (h : m.flagOk) :
    (m.Update e).1.flagOk := by
  obtain ⟨st, sel, opts, dn⟩ := m
  unfold model2.flagOk at h ⊢
  simp only at h
  unfold model2.Update
  repeat' split
  all_goals simp_all

theorem model.steps_flagOk (es : List Msg) : ∀ m : model, m.flagOk → (m.steps es).flagOk := by
  induction es with
  | nil => intro m h; exact h
  | cons e es ih => intro m h; exact ih _ (m.Update_flagOk e h)

theorem model2.steps_flagOk2 (es : List Msg) :
    ∀ m : model2, m.flagOk → (m.steps es).flagOk := by
  induction es with
  | nil => intro m h; exact h
  | cons e es ih => intro m h; exact ih _ (m.Update_flagOk2 e h)

/-- The flag becomes true only through Enter in the Menu state, and that step
quits. -/
theorem model.Update_sets_flag (m : model) (e : Msg) (h0 : m.done = false)
    (h1 : (m.Update e).1.done = true) :
    m.state = .stateMenu ∧ (∃ k, e = .key k ∧ k.Typ = .KeyEnter) ∧ (m.Update e).2 = .Quit := by
  obtain ⟨st, inp, sel, opts, dn⟩ := m
  simp only at h0
  subst h0
  revert h1
  unfold model.Update
  repeat' split
  all_goals simp_all

theorem model2.Update_sets_flag2 (m : model2) (e : Msg) (h0 : m.done = false)
    (h1 : (m.Update e).1.done = true) :
    m.state = .state2Menu ∧ (∃ k, e = .key k ∧ k.Typ = .KeyEnter) ∧
      (m.Update e).2 = .Quit := by
  obtain ⟨st, sel, opts, dn⟩ := m
  simp only at h0
  subst h0
  revert h1
  unfold model2.Update
  repeat' split
  all_goals simp_all

/-- The final model of a session is the model after an initial segment of the
messages. -/
theorem model.run_eq_steps (late : Nat) (es : List Msg) :
    ∀ m : model, ∃ pre, pre <+: es ∧ (m.run late es).1 = m.steps pre := by
  induction es with
  | nil => intro m; exact ⟨[], List.prefix_refl _, rfl⟩
  | cons e es ih =>
    intro m
    unfold model.run
    split
    · rename_i m1 hq
      refine ⟨e :: es.take late, by simpa using List.take_prefix _ _, ?_⟩
      simp [model.steps, hq]
    · rename_i m1 hq
      obtain ⟨pre, hp, he⟩ := ih m1
      refine ⟨e :: pre, by simpa using hp, ?_⟩
      simp [model.steps, hq, he]

theorem model2.run_eq_steps2 (late : Nat) (es : List Msg) :
    ∀ m : model2, ∃ pre, pre <+: es ∧ (m.run late es).1 = m.steps pre := by
  induction es with
  | nil => intro m; exact ⟨[], List.prefix_refl _, rfl⟩
  | cons e es ih =>
    intro m
    unfold model2.run
    split
    · rename_i m1 hq
      refine ⟨e :: es.take late, by simpa using List.take_prefix _ _, ?_⟩
      simp [model2.steps, hq]
    · rename_i m1 hq
      obtain ⟨pre, hp, he⟩ := ih m1
      refine ⟨e :: pre, by simpa using hp, ?_⟩
      simp [model2.steps, hq, he]

/-- Enter in the Menu state sets the flag, enters Done and quits. -/
theorem model.Update_enter_menu (m : model) (k : KeyMsg) (hm : m.state = .stateMenu)
    (hk : k.Typ = .KeyEnter) :
    m.Update (.key k) = ({ m with state := .stateDone, done := true }, Cmd.Quit) := by
  obtain ⟨st, inp, sel, opts, dn⟩ := m
  simp only at hm
  subst hm
  simp only [model.Update, hk]

/-- An interrupt outside Done quits and leaves the model, hence the flag, as it
was. -/
theorem model.Update_ctrlC (m : model) (k : KeyMsg) (hm : m.state ≠ .stateDone)
    (hk : k.Typ = .KeyCtrlC) : m.Update (.key k) = (m, Cmd.Quit) := by
  obtain ⟨st, inp, sel, opts, dn⟩ := m
  cases st
  · simp only [model.Update, hk]
  · simp only [model.Update, hk]
  · exact absurd rfl hm

theorem model2.Update_ctrlC2 (m : model2) (k : KeyMsg) (hm : m.state ≠ .state2Done)
    (hk : k.Typ = .KeyCtrlC) : m.Update (.key k) = (m, Cmd.Quit) := by
  obtain ⟨st, sel, opts, dn⟩ := m
  cases st
  · simp only [model2.Update, hk]
  · exact absurd rfl hm

/-- A step that does not quit keeps an unfinished model unfinished. -/
theorem model.Update_none_unfinished (m : model) (e : Msg) (h0 : m.done = false)
    (h1 : m.state ≠ .stateDone) (h2 : (m.Update e).2 = Cmd.none) :
    (m.Update e).1.done = false ∧ (m.Update e).1.state ≠ .stateDone := by
  obtain ⟨st, inp, sel, opts, dn⟩ := m
  simp only at h0 h1
  subst h0
  revert h2
  unfold model.Update
  repeat' split
  all_goals simp_all

/-- A session in which no message is handled after the quit command ends with
the flag set exactly when some Enter arrived while the session was running in
the Menu state. -/
theorem model.run_done_iff (es : List Msg) :
    ∀ m : model, m.done = false → m.state ≠ .stateDone →
      ((m.run 0 es).1.done = true ↔
        ∃ pre k post, es = pre ++ Msg.key k :: post ∧ k.Typ = .KeyEnter ∧
          (m.run 0 pre).2 = false ∧ (m.run 0 pre).1.state = .stateMenu) := by
  induction es with
  | nil =>
    intro m h0 _
    simp [model.run, h0]
  | cons e es ih =>
    intro m h0 h1
    rcases hu : m.Update e with ⟨m1, c⟩
    cases c with
    | Quit =>
      have hr : m.run 0 (e :: es) = (m1, true) := by simp [model.run, model.steps, hu]
      rw [hr]
      constructor
      · intro hd
        have hs := m.Update_sets_flag e h0 (by rw [hu]; exact hd)
        obtain ⟨hm, ⟨k, hk, hkt⟩, _⟩ := hs
        exact ⟨[], k, es, by simp [hk], hkt, rfl, hm⟩
      · rintro ⟨pre, k, post, hes, hkt, hq, hst⟩
        cases pre with
        | nil =>
          simp only [List.nil_append, List.cons.injEq] at hes
          have hm : m.state = .stateMenu := hst
          have := m.Update_enter_menu k hm hkt
          rw [← hes.1, hu] at this
          simp only [Prod.mk.injEq] at this
          rw [this.1]
        | cons p pre =>
          simp only [List.cons_append, List.cons.injEq] at hes
          rw [← hes.1] at hq
          simp [model.run, model.steps, hu] at hq
    | none =>
      have hr : ∀ fs, m.run 0 (e :: fs) = m1.run 0 fs := by
        intro fs; simp [model.run, model.steps, hu]
      have hn := m.Update_none_unfinished e h0 h1 (by rw [hu])
      rw [hu] at hn
      rw [hr, ih m1 hn.1 hn.2]
      constructor
      · rintro ⟨pre, k, post, hes, hkt, hq, hst⟩
        exact ⟨e :: pre, k, post, by simp [hes], hkt, by rw [hr]; exact hq, by rw [hr]; exact hst⟩
      · rintro ⟨pre, k, post, hes, hkt, hq, hst⟩
        cases pre with
        | nil =>
          simp only [List.nil_append, List.cons.injEq] at hes
          have hm : m.state = .stateMenu := hst
          have := m.Update_enter_menu k hm hkt
          rw [← hes.1, hu] at this
          simp at this
        | cons p pre =>
          simp only [List.cons_append, List.cons.injEq] at hes
          rw [← hes.1, hr] at hq hst
          exact ⟨pre, k, post, hes.2, hkt, hq, hst⟩

theorem index_of_selectionOk (xs : List GoString) (i : Int) (h0 : 0 ≤ i)
    (h1 : i ≤ (xs.length : Int) - 1) : ∃ x, index xs i = some x := by
  have hlt : i.toNat < xs.length := by omega
  exact ⟨xs.get ⟨i.toNat, hlt⟩, by simp [index, h0, List.getElem?_eq_getElem hlt]⟩

/-- The completion flag and the results of `ui` and `ui2`. (1) In every state
reached from the initial model of either stage, by any sequence of messages or
by a session, the completion flag is true exactly in the Done state. (2) One
step sets the flag only through Enter in the Menu state, and that step quits.
(3) An interrupt outside Done quits and leaves the model, flag included,
unchanged. (4) A session of `ui` in which no message is handled after the quit
command ends with the flag set exactly when an Enter arrived in the Menu state
of the running session. (5) When the final model of the session has the flag
set, `ui` returns its input buffer and `options[selection]`, otherwise the
empty record; likewise `ui2` returns `options[selection]` or the empty
string. -/
theorem flag_and_result (late : Nat) (es : List Msg) (m : model) (m2 : model2) (e : Msg)
    (k : KeyMsg) :
    (((initModel.steps es).done = true ↔ (initModel.steps es).state = .stateDone) ∧
      ((initModel2.steps es).done = true ↔ (initModel2.steps es).state = .state2Done) ∧
      ((initModel.run late es).1.done = true ↔ (initModel.run late es).1.state = .stateDone) ∧
      ((initModel2.run late es).1.done = true ↔ (initModel2.run late es).1.state = .state2Done)) ∧
    ((m.done = false → (m.Update e).1.done = true →
        m.state = .stateMenu ∧ (∃ k1, e = .key k1 ∧ k1.Typ = .KeyEnter) ∧
          (m.Update e).2 = .Quit) ∧
      (m2.done = false → (m2.Update e).1.done = true →
        m2.state = .state2Menu ∧ (∃ k1, e = .key k1 ∧ k1.Typ = .KeyEnter) ∧
          (m2.Update e).2 = .Quit)) ∧
    ((k.Typ = .KeyCtrlC → m.state ≠ .stateDone → m.Update (.key k) = (m, Cmd.Quit)) ∧
      (k.Typ = .KeyCtrlC → m2.state ≠ .state2Done → m2.Update (.key k) = (m2, Cmd.Quit))) ∧
    (((initModel.run 0 es).1.done = true ↔
        ∃ pre k1 post, es = pre ++ Msg.key k1 :: post ∧ k1.Typ = .KeyEnter ∧
          (initModel.run 0 pre).2 = false ∧ (initModel.run 0 pre).1.state = .stateMenu) ∧
      ((initModel.run late es).1.done = true →
        ∃ pm, index initModel.options (initModel.run late es).1.selection = some pm ∧
          ui late es = some { Name := (initModel.run late es).1.input, PackageManager := pm }) ∧
      ((initModel.run late es).1.done = false →
        ui late es = some { Name := [], PackageManager := [] }) ∧
      ((initModel2.run late es).1.done = true →
        ∃ fw, index initModel2.options (initModel2.run late es).1.selection = some fw ∧
          ui2 late es = some fw) ∧
      ((initModel2.run late es).1.done = false → ui2 late es = some [])) := by
  have f1 : initModel.flagOk := by unfold model.flagOk initModel; simp
  have f2 : initModel2.flagOk := by unfold model2.flagOk initModel2; simp
  have k1 : initModel.selectionOk := by unfold model.selectionOk initModel; simp
  have k2 : initModel2.selectionOk := by unfold model2.selectionOk initModel2; simp
  obtain ⟨pre1, _, hp1⟩ := model.run_eq_steps late es initModel
  obtain ⟨pre2, _, hp2⟩ := model2.run_eq_steps2 late es initModel2
  have o1 : (initModel.run late es).1.options = initModel.options := by
    rw [hp1]; exact model.steps_options _ _
  have o2 : (initModel2.run late es).1.options = initModel2.options := by
    rw [hp2]; exact model2.steps_options2 _ _
  have s1 : (initModel.run late es).1.selectionOk := by
    rw [hp1]; exact model.steps_selectionOk _ _ k1
  have s2 : (initModel2.run late es).1.selectionOk := by
    rw [hp2]; exact model2.steps_selectionOk2 _ _ k2
  refine ⟨⟨model.steps_flagOk es _ f1, model2.steps_flagOk2 es _ f2, ?_, ?_⟩,
    ⟨m.Update_sets_flag e, m2.Update_sets_flag2 e⟩,
    ⟨fun hk hm => m.Update_ctrlC k hm hk, fun hk hm => m2.Update_ctrlC2 k hm hk⟩,
    model.run_done_iff es initModel rfl (by decide), ?_, ?_, ?_, ?_⟩
  · rw [hp1]; exact model.steps_flagOk pre1 _ f1
  · rw [hp2]; exact model2.steps_flagOk2 pre2 _ f2
  · intro hd
    obtain ⟨pm, hpm⟩ := index_of_selectionOk _ _ s1.1 s1.2
    rw [o1] at hpm
    refine ⟨pm, hpm, ?_⟩
    simp [ui, uiResult, hd, o1, hpm]
  · intro hd
    simp [ui, uiResult, hd]
  · intro hd
    obtain ⟨fw, hfw⟩ := index_of_selectionOk _ _ s2.1 s2.2
    rw [o2] at hfw
    refine ⟨fw, hfw, ?_⟩
    simp [ui2, ui2Result, hd, o2, hfw]
  · intro hd
    simp [ui2, ui2Result, hd]

/-- C10. For every model and every message, `Update` never moves the state
backward in the order Input < Menu < Done (stage 1) or Menu < Done (stage 2),
and in the Done state it returns the model unchanged with no command. -/
theorem forward_only (m : model) (m2 : model2) (e : Msg) :
    m.state.rank ≤ (m.Update e).1.state.rank ∧
    m2.state.rank ≤ (m2.Update e).1.state.rank ∧
    (m.state = .stateDone → m.Update e = (m, Cmd.none)) ∧
    (m2.state = .state2Done → m2.Update e = (m2, Cmd.none)) := by
  obtain ⟨st, inp, sel, opts, dn⟩ := m
  obtain ⟨st2, sel2, opts2, dn2⟩ := m2
  refine ⟨?_, ?_, ?_, ?_⟩
  · unfold model.Update
    repeat' split
    all_goals simp_all [state1.rank]
  · unfold model2.Update
    repeat' split
    all_goals simp_all [state2.rank]
  · intro h
    simp only at h
    subst h
    rfl
  · intro h
    simp only at h
    subst h
    rfl

/-! ## Replacement scans and overlaps of words -/

theorem replaceGo_skip (f : GoString → Option Nat) (new : GoString) :
    ∀ (s : GoString) (k : Nat), replaceGo f new k s = replaceGo f new 0 (s.drop k) := by
  intro s
  induction s with
  | nil => intro k; cases k <;> simp [replaceGo]
  | cons c cs ih =>
    intro k
    cases k with
    | zero => simp
    | succ k => simp [replaceGo, ih k]

theorem replaceGo_nil (f : GoString → Option Nat) (new : GoString) :
    replaceGo f new 0 [] = [] := rfl

theorem replaceGo_none (f : GoString → Option Nat) (new : GoString) (c : Nat) (cs : GoString)
    (h : f (c :: cs) = none) : replaceGo f new 0 (c :: cs) = c :: replaceGo f new 0 cs := by
  simp [replaceGo, h]

theorem replaceGo_some (f : GoString → Option Nat) (new : GoString) (x : GoString) (n : Nat)
    (h : f x = some n) (hn : 0 < n) (hx : n ≤ x.length) :
    replaceGo f new 0 x = new ++ replaceGo f new 0 (x.drop n) := by
  cases x with
  | nil => simp at hx; omega
  | cons c cs =>
    cases n with
    | zero => omega
    | succ n =>
      simp only [replaceGo, h]
      rw [replaceGo_skip]
      simp

theorem infix_iff_eq (m x : GoString) : m <:+: x ↔ ∃ s t, s ++ m ++ t = x := Iff.rfl

theorem touch_cases (m B u v s t : GoString) (h : s ++ m ++ t = u ++ B ++ v) :
    s.length + m.length ≤ u.length ∨ u.length + B.length ≤ s.length ∨ Overlap m B := by
  rw [List.append_assoc, List.append_assoc, List.append_eq_append_iff] at h
  rcases h with ⟨a, hu, h2⟩ | ⟨c, hs, h2⟩
  · rw [List.append_eq_append_iff] at h2
    rcases h2 with ⟨x, ha, _⟩ | ⟨y, hm, h3⟩
    · left
      subst hu ha
      simp
    · rw [List.append_eq_append_iff] at h3
      rcases h3 with ⟨z, hy, _⟩ | ⟨z, hB, _⟩
      · right; right; right; right; left
        subst hy
        exact ⟨a, z, by simp [hm]⟩
      · by_cases hy : y = []
        · left
          subst hy
          simp at hm
          subst hu hm
          simp
        · right; right; left
          exact ⟨y, hy, ⟨a, hm.symm⟩, ⟨z, hB.symm⟩⟩
  · rw [List.append_eq_append_iff] at h2
    rcases h2 with ⟨x, hc, _⟩ | ⟨y, hB, h3⟩
    · right; left
      subst hs hc
      simp
    · rw [List.append_eq_append_iff] at h3
      rcases h3 with ⟨z, hy, _⟩ | ⟨z, hm, _⟩
      · right; right; right; right; right
        subst hy
        exact ⟨c, z, by simp [hB]⟩
      · by_cases hy : y = []
        · right; left
          subst hy
          simp at hB
          subst hs hB
          simp
        · right; right; right; left
          exact ⟨y, hy, ⟨c, hB.symm⟩, ⟨z, hm.symm⟩⟩

theorem NoTouch_of_not_Overlap (m B : GoString) (h : ¬ Overlap m B) : NoTouch B m := by
  intro u v s t he
  rcases touch_cases m B u v s t he with h1 | h1 | h1
  · exact Or.inl h1
  · exact Or.inr h1
  · exact absurd h1 h

theorem Overlap_symm (m B : GoString) (h : Overlap m B) : Overlap B m := by
  rcases h with h | h | h | h
  · exact Or.inr (Or.inl h)
  · exact Or.inl h
  · exact Or.inr (Or.inr (Or.inr h))
  · exact Or.inr (Or.inr (Or.inl h))

theorem overlapB_of_Overlap (m B : GoString) (h : Overlap m B) : overlapB m B = true := by
  unfold overlapB
  simp only [Bool.or_eq_true, List.any_eq_true, Bool.and_eq_true, Bool.not_eq_true',
    List.isPrefixOf_iff_prefix, List.mem_tails]
  rcases h with ⟨t, h1, h2, h3⟩ | ⟨t, h1, h2, h3⟩ | ⟨s, t, h⟩ | ⟨s, t, h⟩
  · left; left; left
    exact ⟨t, h2, by simpa using h1, h3⟩
  · left; left; right
    exact ⟨t, h2, by simpa using h1, h3⟩
  · left; right
    exact ⟨B ++ t, ⟨s, by simpa using h⟩, List.prefix_append _ _⟩
  · right
    exact ⟨m ++ t, ⟨s, by simpa using h⟩, List.prefix_append _ _⟩

theorem NoTouch_of_overlapB (m B : GoString) (h : overlapB m B = false) : NoTouch B m :=
  NoTouch_of_not_Overlap m B fun ho => by
    rw [overlapB_of_Overlap m B ho] at h; exact Bool.noConfusion h

theorem NoTouch_of_overlapB_symm (m B : GoString) (h : overlapB m B = false) : NoTouch m B :=
  NoTouch_of_not_Overlap B m fun ho => by
    rw [overlapB_of_Overlap m B (Overlap_symm _ _ ho)] at h; exact Bool.noConfusion h

/-- An occurrence of `m` in `u ++ B ++ v` lies in `u` or in `v`. -/
theorem NoTouch.infix_cases {B m : GoString} (h : NoTouch B m) (u v : GoString)
    (hi : m <:+: u ++ B ++ v) : m <:+: u ∨ m <:+: v := by
  obtain ⟨s, t, he⟩ := hi
  rcases h u v s t he with h1 | h1
  · left
    have he2 : (s ++ m) ++ t = u ++ (B ++ v) := by simpa using he
    have hp1 : s ++ m <+: u ++ (B ++ v) := ⟨t, he2⟩
    have hp2 : u <+: u ++ (B ++ v) := List.prefix_append _ _
    have := List.prefix_of_prefix_length_le hp1 hp2 (by simpa using h1)
    obtain ⟨r, hr⟩ := this
    exact ⟨s, r, hr⟩
  · right
    have he2 : s ++ (m ++ t) = (u ++ B) ++ v := by simpa using he
    have hp1 : u ++ B <+: s ++ (m ++ t) := ⟨v, he2.symm⟩
    have hp2 : s <+: s ++ (m ++ t) := List.prefix_append _ _
    have := List.prefix_of_prefix_length_le hp1 hp2 (by simpa using h1)
    obtain ⟨r, hr⟩ := this
    rw [← hr, List.append_assoc] at he2
    have := List.append_cancel_left he2
    exact ⟨r, t, by simpa using this⟩

theorem scan_infix_forward_aux (f : GoString → Option Nat) (new m : GoString)
    (hf : ∀ y n, f y = some n → 0 < n ∧ n ≤ y.length) (hnt : NoTouch new m) :
    ∀ (n : Nat) (x : GoString), x.length ≤ n →
      ∀ u : GoString, m <:+: u ++ replaceGo f new 0 x → m <:+: u ++ x := by
  intro n
  induction n with
  | zero =>
    intro x hx u hi
    have : x = [] := List.length_eq_zero.mp (by omega)
    subst this
    simpa [replaceGo] using hi
  | succ n ih =>
    intro x hx u hi
    cases x with
    | nil => simpa [replaceGo] using hi
    | cons c cs =>
      cases hfc : f (c :: cs) with
      | none =>
        rw [replaceGo_none _ _ _ _ hfc] at hi
        have := ih cs (by simp at hx; omega) (u ++ [c]) (by simpa using hi)
        simpa using this
      | some k =>
        obtain ⟨hk0, hk1⟩ := hf _ _ hfc
        rw [replaceGo_some _ _ _ _ hfc hk0 hk1] at hi
        have h1 := ih ((c :: cs).drop k) (by simp at hx ⊢; omega) (u ++ new)
          (by simpa using hi)
        have hd : ((c :: cs).drop k) <:+: u ++ c :: cs :=
          (List.drop_suffix k (c :: cs)).isInfix.trans (List.suffix_append _ _).isInfix
        rcases hnt.infix_cases u _ (by simpa using h1) with h2 | h2
        · exact h2.trans (List.prefix_append _ _).isInfix
        · exact h2.trans hd

/-- An occurrence of `m` in the output of a replacement comes from the input
when `m` cannot touch the replacement text. -/
theorem scan_infix_forward (f : GoString → Option Nat) (new m : GoString)
    (hf : ∀ y n, f y = some n → 0 < n ∧ n ≤ y.length) (hnt : NoTouch new m)
    (x u : GoString) (h : m <:+: u ++ replaceGo f new 0 x) : m <:+: u ++ x :=
  scan_infix_forward_aux f new m hf hnt x.length x (Nat.le_refl _) u h

theorem scan_infix_reverse_aux (f : GoString → Option Nat) (new m : GoString)
    (hf : ∀ y n, f y = some n → 0 < n ∧ n ≤ y.length)
    (hnt : ∀ y n, f y = some n → NoTouch (y.take n) m) :
    ∀ (n : Nat) (x : GoString), x.length ≤ n →
      ∀ u : GoString, m <:+: u ++ x → m <:+: u ++ replaceGo f new 0 x := by
  intro n
  induction n with
  | zero =>
    intro x hx u hi
    have : x = [] := List.length_eq_zero.mp (by omega)
    subst this
    simpa [replaceGo] using hi
  | succ n ih =>
    intro x hx u hi
    cases x with
    | nil => simpa [replaceGo] using hi
    | cons c cs =>
      cases hfc : f (c :: cs) with
      | none =>
        rw [replaceGo_none _ _ _ _ hfc]
        have := ih cs (by simp at hx; omega) (u ++ [c]) (by simpa using hi)
        simpa using this
      | some k =>
        obtain ⟨hk0, hk1⟩ := hf _ _ hfc
        rw [replaceGo_some _ _ _ _ hfc hk0 hk1]
        have hsplit : u ++ (c :: cs) = u ++ (c :: cs).take k ++ (c :: cs).drop k := by
          rw [List.append_assoc, List.take_append_drop]
        rw [hsplit] at hi
        rcases (hnt _ _ hfc).infix_cases u _ hi with h2 | h2
        · exact h2.trans (List.prefix_append _ _).isInfix
        · have h3 := ih ((c :: cs).drop k) (by simp at hx ⊢; omega) [] (by simpa using h2)
          have h4 : replaceGo f new 0 ((c :: cs).drop k) <:+:
              u ++ (new ++ replaceGo f new 0 ((c :: cs).drop k)) := by
            rw [← List.append_assoc]
            exact (List.suffix_append _ _).isInfix
          exact (by simpa using h3 : m <:+: replaceGo f new 0 ((c :: cs).drop k)).trans h4

/-- An occurrence of `m` in the input of a replacement survives in the output
when `m` cannot touch any replaced match. -/
theorem scan_infix_reverse (f : GoString → Option Nat) (new m : GoString)
    (hf : ∀ y n, f y = some n → 0 < n ∧ n ≤ y.length)
    (hnt : ∀ y n, f y = some n → NoTouch (y.take n) m)
    (x u : GoString) (h : m <:+: u ++ x) : m <:+: u ++ replaceGo f new 0 x :=
  scan_infix_reverse_aux f new m hf hnt x.length x (Nat.le_refl _) u h

theorem scan_occurrence (f : GoString → Option Nat) (new m : GoString)
    (hf : ∀ y n, f y = some n → 0 < n ∧ n ≤ y.length) (hnt : NoTouch new m) (hm : m ≠ [])
    (hc : ∀ y, m <+: y → f y ≠ none) :
    ∀ (n : Nat) (x : GoString), x.length ≤ n → ∀ u s t : GoString,
      s ++ m ++ t = u ++ replaceGo f new 0 x →
      s.length + m.length ≤ u.length ∨
        (s.length < u.length ∧ ∃ t1, s ++ m ++ t1 = u ++ x) := by
  have hmpos : 0 < m.length := List.length_pos.mpr hm
  intro n
  induction n with
  | zero =>
    intro x hx u s t he
    have : x = [] := List.length_eq_zero.mp (by omega)
    subst this
    left
    have := congrArg List.length he
    simp [replaceGo] at this
    omega
  | succ n ih =>
    intro x hx u s t he
    cases x with
    | nil =>
      left
      have := congrArg List.length he
      simp [replaceGo] at this
      omega
    | cons c cs =>
      cases hfc : f (c :: cs) with
      | none =>
        rw [replaceGo_none _ _ _ _ hfc] at he
        -- an occurrence that starts at the copied byte would be a match there
        have hstart : ∀ t1, s ++ m ++ t1 = u ++ c :: cs → s.length = u.length → False := by
          intro t1 he1 hl
          have he2 : s ++ (m ++ t1) = u ++ (c :: cs) := by simpa using he1
          have h1 := List.append_inj_right he2 hl
          exact hc _ ⟨t1, h1⟩ hfc
        have he3 : s ++ m ++ t = (u ++ [c]) ++ replaceGo f new 0 cs := by simpa using he
        rcases ih cs (by simp at hx; omega) (u ++ [c]) s t he3 with h1 | ⟨h1, t1, h2⟩
        · simp at h1
          by_cases h3 : s.length + m.length ≤ u.length
          · exact Or.inl h3
          · have hlen : (s ++ m).length = (u ++ [c]).length := by simp; omega
            have he4 : (s ++ m) ++ t = (u ++ [c]) ++ replaceGo f new 0 cs := he3
            have h5 := List.append_inj_left he4 hlen
            have h6 : s ++ m ++ cs = u ++ c :: cs := by rw [h5]; simp
            by_cases h7 : s.length < u.length
            · exact Or.inr ⟨h7, cs, h6⟩
            · exact absurd (hstart cs h6 (by omega)) id
        · have h2b : s ++ m ++ t1 = u ++ c :: cs := by simpa using h2
          simp at h1
          by_cases h7 : s.length < u.length
          · exact Or.inr ⟨h7, t1, h2b⟩
          · exact absurd (hstart t1 h2b (by omega)) id
      | some k =>
        obtain ⟨hk0, hk1⟩ := hf _ _ hfc
        rw [replaceGo_some _ _ _ _ hfc hk0 hk1] at he
        have he3 : s ++ m ++ t = (u ++ new) ++ replaceGo f new 0 ((c :: cs).drop k) := by
          simpa using he
        rcases ih _ (by simp at hx ⊢; omega) (u ++ new) s t he3 with h1 | ⟨h1, t1, h2⟩
        · have hp1 : s ++ m <+: (u ++ new) ++ replaceGo f new 0 ((c :: cs).drop k) := ⟨t, he3⟩
          have hp2 : u ++ new <+: (u ++ new) ++ replaceGo f new 0 ((c :: cs).drop k) :=
            List.prefix_append _ _
          obtain ⟨r, hr⟩ := List.prefix_of_prefix_length_le hp1 hp2 (by simpa using h1)
          rcases hnt u [] s r (by simpa using hr) with h3 | h3
          · exact Or.inl h3
          · simp at h1; omega
        · rcases hnt u _ s t1 h2 with h3 | h3
          · exact Or.inl h3
          · simp at h1; omega

/-- The output of a replacement has no occurrence of a word `m` that cannot
touch the replacement text and that is matched wherever it occurs. -/
theorem scan_clean (f : GoString → Option Nat) (new m : GoString)
    (hf : ∀ y n, f y = some n → 0 < n ∧ n ≤ y.length) (hnt : NoTouch new m) (hm : m ≠ [])
    (hc : ∀ y, m <+: y → f y ≠ none) (x : GoString) : ¬ m <:+: replaceGo f new 0 x := by
  rintro ⟨s, t, he⟩
  have hmpos : 0 < m.length := List.length_pos.mpr hm
  rcases scan_occurrence f new m hf hnt hm hc x.length x (Nat.le_refl _) [] s t
    (by simpa using he) with h | ⟨h, _⟩
  · simp only [List.length_nil] at h; omega
  · simp at h

/-- A replacement leaves a text without matches as it is. -/
theorem scan_fix (f : GoString → Option Nat) (new : GoString) :
    ∀ x : GoString, (∀ t, t <:+ x → f t = none) → replaceGo f new 0 x = x := by
  intro x
  induction x with
  | nil => intro _; rfl
  | cons c cs ih =>
    intro h
    rw [replaceGo_none _ _ _ _ (h _ (List.suffix_refl _)), ih]
    intro t ht
    exact h t (ht.trans (List.suffix_cons _ _))

/-! ## The matcher -/

theorem starLoop_cons_true (cls : List Nat) (k : GoString → Option Nat) (c : Nat)
    (cs : GoString) (h : cls.contains c = true) :
    starLoop cls k (c :: cs) =
      match starLoop cls k cs with
      | some n => some (n + 1)
      | none => k (c :: cs) := by
  simp only [starLoop, h, if_true]

theorem starLoop_cons_false (cls : List Nat) (k : GoString → Option Nat) (c : Nat)
    (cs : GoString) (h : cls.contains c = false) :
    starLoop cls k (c :: cs) = k (c :: cs) := by
  simp only [starLoop, h, Bool.false_eq_true, if_false]

/-- Induction principle for the results of `starLoop`: a property of results
that holds for the results of the rest and is kept by one more byte of the
class holds for the results of the loop. -/
theorem starLoop_induct (cls : List Nat) (k : GoString → Option Nat)
    (P : GoString → Nat → Prop) (hk : ∀ s n, k s = some n → P s n)
    (hstep : ∀ c cs n, cls.contains c = true → P cs n → P (c :: cs) (n + 1)) :
    ∀ s n, starLoop cls k s = some n → P s n := by
  intro s
  induction s with
  | nil => intro n h; exact hk _ _ h
  | cons c cs ih =>
    intro n h
    by_cases hc : cls.contains c = true
    · rw [starLoop_cons_true _ _ _ _ hc] at h
      cases hs : starLoop cls k cs with
      | none => rw [hs] at h; exact hk _ _ h
      | some n1 =>
        rw [hs] at h
        simp only [Option.some.injEq] at h
        subst h
        exact hstep c cs n1 hc (ih n1 hs)
    · rw [starLoop_cons_false _ _ _ _ (by simpa using hc)] at h
      exact hk _ _ h

/-- Induction principle for the results of `matchItems`. -/
theorem matchItems_induct (P : List Item → GoString → Nat → Prop)
    (hnil : ∀ s, P [] s 0)
    (hone : ∀ cls rest c cs n, cls.contains c = true → P rest cs n →
      P (.one cls :: rest) (c :: cs) (n + 1))
    (hstar0 : ∀ cls rest s n, P rest s n → P (.star cls :: rest) s n)
    (hstar1 : ∀ cls rest c cs n, cls.contains c = true → P (.star cls :: rest) cs n →
      P (.star cls :: rest) (c :: cs) (n + 1)) :
    ∀ items s n, matchItems items s = some n → P items s n := by
  intro items
  induction items with
  | nil =>
    intro s n h
    simp only [matchItems, Option.some.injEq] at h
    subst h
    exact hnil s
  | cons it rest ih =>
    cases it with
    | one cls =>
      intro s n h
      cases s with
      | nil => simp [matchItems] at h
      | cons c cs =>
        simp only [matchItems] at h
        by_cases hc : cls.contains c = true
        · rw [if_pos hc] at h
          cases hm : matchItems rest cs with
          | none => rw [hm] at h; simp at h
          | some n1 =>
            rw [hm] at h
            simp only [Option.map_some', Option.some.injEq] at h
            subst h
            exact hone cls rest c cs n1 hc (ih cs n1 hm)
        · rw [if_neg hc] at h
          exact absurd h (by simp)
    | star cls =>
      intro s n h
      simp only [matchItems] at h
      exact starLoop_induct cls (matchItems rest) (P (.star cls :: rest))
        (fun s n hk => hstar0 cls rest s n (ih s n hk))
        (fun c cs n hc hp => hstar1 cls rest c cs n hc hp) s n h

theorem matchItems_le (items : List Item) (s : GoString) (n : Nat)
    (h : matchItems items s = some n) : n ≤ s.length := by
  refine matchItems_induct (fun _ s n => n ≤ s.length) ?_ ?_ ?_ ?_ items s n h
  · intro s; exact Nat.zero_le _
  · intro cls rest c cs n _ hp; simp; omega
  · intro cls rest s n hp; exact hp
  · intro cls rest c cs n _ hp; simp; omega

theorem matchItems_allowed (items : List Item) (s : GoString) (n : Nat)
    (h : matchItems items s = some n) : ∀ c ∈ s.take n, allowedBy items c = true := by
  refine matchItems_induct (fun items s n => ∀ c ∈ s.take n, allowedBy items c = true)
    ?_ ?_ ?_ ?_ items s n h
  · intro s c hc; simp at hc
  · intro cls rest c cs n hc hp b hb
    simp only [List.take_succ_cons, List.mem_cons] at hb
    rcases hb with hb | hb
    · subst hb; simp only [allowedBy, List.any_cons, Item.cls, hc, Bool.true_or]
    · have := hp b hb
      simp only [allowedBy, List.any_cons, Bool.or_eq_true] at this ⊢
      exact Or.inr this
  · intro cls rest s n hp b hb
    have := hp b hb
    simp only [allowedBy, List.any_cons, Bool.or_eq_true] at this ⊢
    exact Or.inr this
  · intro cls rest c cs n hc hp b hb
    simp only [List.take_succ_cons, List.mem_cons] at hb
    rcases hb with hb | hb
    · subst hb; simp only [allowedBy, List.any_cons, Item.cls, hc, Bool.true_or]
    · exact hp b hb

theorem matchItems_nil (s : GoString) : matchItems [] s = some 0 := rfl

theorem matchItems_one_nil (cls : List Nat) (rest : List Item) :
    matchItems (.one cls :: rest) [] = none := rfl

theorem matchItems_one_cons (cls : List Nat) (rest : List Item) (c : Nat) (cs : GoString) :
    matchItems (.one cls :: rest) (c :: cs) =
      if cls.contains c then (matchItems rest cs).map (· + 1) else none := rfl

theorem matchItems_star (cls : List Nat) (rest : List Item) (s : GoString) :
    matchItems (.star cls :: rest) s = starLoop cls (matchItems rest) s := rfl

theorem lits_cons (b : Nat) (w : GoString) : lits (b :: w) = Item.one [b] :: lits w := rfl

/-- What a match of a single class followed by `rest` looks like. -/
theorem matchItems_one_some (cls : List Nat) (rest : List Item) (s : GoString) (n : Nat)
    (h : matchItems (.one cls :: rest) s = some n) :
    ∃ c cs n1, s = c :: cs ∧ cls.contains c = true ∧ matchItems rest cs = some n1 ∧
      n = n1 + 1 := by
  cases s with
  | nil => rw [matchItems_one_nil] at h; exact Option.noConfusion h
  | cons c cs =>
    rw [matchItems_one_cons] at h
    by_cases hc : cls.contains c = true
    · rw [if_pos hc] at h
      cases hm : matchItems rest cs with
      | none => rw [hm] at h; exact Option.noConfusion h
      | some n1 =>
        rw [hm] at h
        simp only [Option.map_some', Option.some.injEq] at h
        exact ⟨c, cs, n1, rfl, hc, hm, h.symm⟩
    · rw [if_neg hc] at h
      exact Option.noConfusion h

theorem matchItems_one_pos (cls : List Nat) (rest : List Item) (s : GoString) (n : Nat)
    (h : matchItems (.one cls :: rest) s = some n) : 0 < n := by
  obtain ⟨_, _, n1, _, _, _, hn⟩ := matchItems_one_some cls rest s n h
  omega

theorem prefix_cons_inv (c : Nat) (t y : GoString) (h : c :: t <+: y) :
    ∃ ys, y = c :: ys ∧ t <+: ys := by
  obtain ⟨r, hr⟩ := h
  exact ⟨t ++ r, by simpa using hr.symm, List.prefix_append _ _⟩

theorem matchItems_extend : ∀ (items : List Item), det items = true →
    ∀ (s : GoString) (n : Nat) (y : GoString), matchItems items s = some n →
      s.take n <+: y → matchItems items y = some n := by
  intro items
  induction items with
  | nil =>
    intro _ s n y h _
    rw [matchItems_nil] at h ⊢
    exact h
  | cons it rest ih =>
    cases it with
    | one cls =>
      intro hd s n y h hp
      have hd2 : det rest = true := by simpa [det] using hd
      obtain ⟨c, cs, n1, rfl, hc, hm, rfl⟩ := matchItems_one_some cls rest s n h
      rw [List.take_succ_cons] at hp
      obtain ⟨ys, rfl, hp2⟩ := prefix_cons_inv _ _ _ hp
      rw [matchItems_one_cons, if_pos hc, ih hd2 cs n1 ys hm hp2]
      rfl
    | star cls =>
      intro hd
      cases rest with
      | nil => simp [det] at hd
      | cons it2 rest2 =>
        cases it2 with
        | star q => simp [det] at hd
        | one q =>
          simp only [det, Bool.and_eq_true, List.all_eq_true, Bool.not_eq_true'] at hd
          obtain ⟨hdis, hd2⟩ := hd
          have hk2 : ∀ c cs, cls.contains c = true →
              matchItems (.one q :: rest2) (c :: cs) = none := by
            intro c cs hc
            have : q.contains c = false := hdis c (by simpa using hc)
            rw [matchItems_one_cons, this]
            rfl
          intro s
          induction s with
          | nil =>
            intro n y h _
            rw [matchItems_star] at h
            exact Option.noConfusion (h : matchItems (.one q :: rest2) [] = some n)
          | cons c cs ihs =>
            intro n y h hp
            rw [matchItems_star] at h ⊢
            by_cases hc : cls.contains c = true
            · rw [starLoop_cons_true _ _ _ _ hc, hk2 c cs hc] at h
              cases hs : starLoop cls (matchItems (.one q :: rest2)) cs with
              | none => rw [hs] at h; exact Option.noConfusion h
              | some n1 =>
                rw [hs] at h
                simp only [Option.some.injEq] at h
                subst h
                rw [List.take_succ_cons] at hp
                obtain ⟨ys, rfl, hp2⟩ := prefix_cons_inv _ _ _ hp
                have := ihs n1 ys (by rw [matchItems_star]; exact hs) hp2
                rw [matchItems_star] at this
                rw [starLoop_cons_true _ _ _ _ hc, this]
            · have hc2 : cls.contains c = false := by simpa using hc
              rw [starLoop_cons_false _ _ _ _ hc2] at h
              have hpos := matchItems_one_pos _ _ _ _ h
              obtain ⟨n1, rfl⟩ : ∃ n1, n = n1 + 1 := ⟨n - 1, by omega⟩
              rw [List.take_succ_cons] at hp
              obtain ⟨ys, rfl, hp2⟩ := prefix_cons_inv _ _ _ hp
              rw [starLoop_cons_false _ _ _ _ hc2]
              exact ih hd2 (c :: cs) (n1 + 1) (c :: ys) h
                (by rw [List.take_succ_cons]; exact (List.prefix_cons_inj c).mpr hp2)

theorem matchItems_lits_append (w : GoString) (rest : List Item) :
    ∀ (s : GoString) (n : Nat), matchItems (lits w ++ rest) s = some n →
      ∃ s1 n1, s = w ++ s1 ∧ matchItems rest s1 = some n1 ∧ n = w.length + n1 := by
  induction w with
  | nil => intro s n h; exact ⟨s, n, by simp, by simpa [lits] using h, by simp⟩
  | cons b w ih =>
    intro s n h
    rw [lits_cons, List.cons_append] at h
    obtain ⟨c, cs, n1, rfl, hc, hm, rfl⟩ := matchItems_one_some _ _ s n h
    have hcb : c = b := by simpa using hc
    obtain ⟨s1, n2, h1, h2, h3⟩ := ih cs n1 hm
    exact ⟨s1, n2, by simp [hcb, h1], h2, by simp; omega⟩

theorem matchItems_append (pre suf : List Item) :
    ∀ (s : GoString) (n : Nat), matchItems (pre ++ suf) s = some n →
      ∃ n1 n2, n = n1 + n2 ∧ n1 ≤ s.length ∧ matchItems suf (s.drop n1) = some n2 := by
  induction pre with
  | nil => intro s n h; exact ⟨0, n, by simp, Nat.zero_le _, by simpa using h⟩
  | cons it pre ih =>
    cases it with
    | one cls =>
      intro s n h
      rw [List.cons_append] at h
      obtain ⟨c, cs, n1, rfl, hc, hm, rfl⟩ := matchItems_one_some _ _ s n h
      obtain ⟨k1, k2, h1, h2, h3⟩ := ih cs n1 hm
      exact ⟨k1 + 1, k2, by omega, by simp; omega, by simpa using h3⟩
    | star cls =>
      intro s n h
      rw [List.cons_append, matchItems_star] at h
      refine starLoop_induct cls (matchItems (pre ++ suf))
        (fun s n => ∃ n1 n2, n = n1 + n2 ∧ n1 ≤ s.length ∧
          matchItems suf (s.drop n1) = some n2) ih ?_ s n h
      rintro c cs n hc ⟨k1, k2, h1, h2, h3⟩
      exact ⟨k1 + 1, k2, by omega, by simp; omega, by simpa using h3⟩

/-! ## Words that cannot overlap -/

theorem prefix_takeWhile (allowed : Nat → Bool) :
    ∀ (t B : GoString), t <+: B → (∀ c ∈ t, allowed c = true) → t <+: B.takeWhile allowed := by
  intro t
  induction t with
  | nil => intro B _ _; exact List.nil_prefix
  | cons c t ih =>
    intro B hp ha
    obtain ⟨ys, rfl, hp2⟩ := prefix_cons_inv _ _ _ hp
    have hc : allowed c = true := ha c (List.mem_cons_self _ _)
    rw [List.takeWhile_cons, if_pos hc]
    exact (List.prefix_cons_inj c).mpr (ih ys hp2 fun d hd => ha d (List.mem_cons_of_mem _ hd))

theorem not_Overlap_of_guardB (allowed : Nat → Bool) (p q B m : GoString)
    (hg : guardB allowed p q B = true) (hp : p <+: m) (hq : q <:+ m)
    (ha : ∀ c ∈ m, allowed c = true) : ¬ Overlap m B := by
  simp only [guardB, Bool.and_eq_true, Bool.not_eq_true', List.all_eq_true, List.mem_tails,
    Bool.or_eq_true, List.isEmpty_iff, Bool.and_eq_false_imp, Bool.or_eq_false_iff,
    List.any_eq_false] at hg
  obtain ⟨⟨⟨⟨g1, g2a⟩, g2b⟩, g3⟩, g4⟩ := hg
  rintro (⟨t, ht0, ht1, ht2⟩ | ⟨t, ht0, ht1, ht2⟩ | ⟨x, y, hxy⟩ | ⟨x, y, hxy⟩)
  · -- a non-empty end of `m` starts `B`
    have hta : ∀ c ∈ t, allowed c = true := fun c hc => ha c (ht1.subset hc)
    have ht3 := prefix_takeWhile allowed t B ht2 hta
    rcases List.suffix_or_suffix_of_suffix hq ht1 with h | h
    · obtain ⟨a, rfl⟩ := h
      obtain ⟨b, hb⟩ := ht3
      have := g2a (q ++ b) ⟨a, by rw [← hb]; simp⟩
      rw [← Bool.not_eq_true, List.isPrefixOf_iff_prefix] at this
      exact this (List.prefix_append _ _)
    · rcases g2b t h with h2 | h2
      · exact ht0 h2
      · rw [← Bool.not_eq_true, List.isPrefixOf_iff_prefix] at h2
        exact h2 ht3
  · -- a non-empty end of `B` starts `m`
    have hta : ∀ c ∈ t, allowed c = true := fun c hc => ha c (ht2.subset hc)
    rcases g3 t ht1 with h | h
    · exact ht0 h
    · have h1 := h hta
      rcases List.prefix_or_prefix_of_prefix hp ht2 with h2 | h2
      · rw [List.isPrefixOf_iff_prefix.mpr h2] at h1
        exact Bool.noConfusion h1.1
      · rw [List.isPrefixOf_iff_prefix.mpr h2] at h1
        exact Bool.noConfusion h1.2
  · -- `B` inside `m`
    have hBa : ∀ c ∈ B, allowed c = true := fun c hc =>
      ha c (by rw [← hxy]; simp [hc])
    rw [List.all_eq_true.mpr hBa] at g1
    exact Bool.noConfusion g1
  · -- `m` inside `B`
    have hsuf : m ++ y <:+ B := ⟨x, by rw [← hxy]; simp⟩
    have h1 := g4 (m ++ y) hsuf (List.isPrefixOf_iff_prefix.mpr (hp.trans (List.prefix_append _ _)))
    have h2 := prefix_takeWhile allowed m (m ++ y) (List.prefix_append _ _) ha
    obtain ⟨a, rfl⟩ := hq
    obtain ⟨b, hb⟩ := h2
    have := h1 (q ++ b) ⟨a, by rw [← hb]; simp⟩
    rw [List.isPrefixOf_iff_prefix] at this
    exact this (List.prefix_append _ _)

/-! ## Matches of the import expression -/

theorem importRegex_det : det importRegex = true := by decide

theorem importRegex_head : importRegex = lits (str "import") ++ importRegex.drop 6 := by
  decide

theorem importRegex_last :
    importRegex = importRegex.take 33 ++ (lits (str "vite") ++ [Item.one reQuote]) := by
  decide

theorem importMatch_bounds (y : GoString) (n : Nat) (h : matchItems importRegex y = some n) :
    0 < n ∧ n ≤ y.length := by
  refine ⟨?_, matchItems_le _ _ _ h⟩
  rw [importRegex_head] at h
  obtain ⟨s1, n1, _, _, hn⟩ := matchItems_lits_append _ _ _ _ h
  have : (str "import").length = 6 := by decide
  omega

theorem ImportWord.length_pos {m : GoString} (h : ImportWord m) : m ≠ [] := by
  obtain ⟨s, n, hm, rfl⟩ := h
  obtain ⟨h0, h1⟩ := importMatch_bounds s n hm
  intro he
  have := congrArg List.length he
  rw [List.length_take] at this
  simp only [List.length_nil] at this
  omega

theorem ImportWord.starts {m : GoString} (h : ImportWord m) : str "import" <+: m := by
  obtain ⟨s, n, hm, rfl⟩ := h
  rw [importRegex_head] at hm
  obtain ⟨s1, n1, rfl, _, rfl⟩ := matchItems_lits_append _ _ _ _ hm
  rw [List.take_append_eq_append_take]
  have : List.take ((str "import").length + n1) (str "import") = str "import" :=
    List.take_of_length_le (by omega)
  rw [this]
  exact List.prefix_append _ _

theorem ImportWord.ends {m : GoString} (h : ImportWord m) :
    str "vite'" <:+ m ∨ str "vite\x22" <:+ m := by
  obtain ⟨s, n, hm, rfl⟩ := h
  rw [importRegex_last] at hm
  obtain ⟨n1, n2, rfl, _, h3⟩ := matchItems_append _ _ _ _ hm
  obtain ⟨s1, k, hs1, h4, rfl⟩ := matchItems_lits_append _ _ _ _ h3
  obtain ⟨c, cs, k1, rfl, hc, h5, rfl⟩ := matchItems_one_some _ _ _ _ h4
  rw [matchItems_nil] at h5
  simp only [Option.some.injEq] at h5
  subst h5
  have htake : List.take (n1 + ((str "vite").length + (0 + 1))) s =
      List.take n1 s ++ (str "vite" ++ [c]) := by
    rw [List.take_add, hs1]
    have : (str "vite").length + (0 + 1) = (str "vite" ++ [c]).length := by simp
    have h2 : str "vite" ++ c :: cs = (str "vite" ++ [c]) ++ cs := by simp
    rw [this, h2, List.take_left]
  rw [htake]
  have hq : c = 39 ∨ c = 34 := by simpa [reQuote] using hc
  rcases hq with rfl | rfl
  · left; exact List.suffix_append _ _
  · right; exact List.suffix_append _ _

theorem ImportWord.allowed {m : GoString} (h : ImportWord m) :
    ∀ c ∈ m, importAllowed c = true := by
  obtain ⟨s, n, hm, rfl⟩ := h
  exact matchItems_allowed _ _ _ hm

theorem ImportWord.matched {m : GoString} (h : ImportWord m) (y : GoString) (hy : m <+: y) :
    matchItems importRegex y ≠ none := by
  obtain ⟨s, n, hm, rfl⟩ := h
  rw [matchItems_extend _ importRegex_det s n y hm hy]
  exact Option.noConfusion

theorem ImportWord.not_Overlap {m B : GoString} (h : ImportWord m)
    (g : guardB importAllowed (str "import") (str "vite'") B = true ∧
      guardB importAllowed (str "import") (str "vite\x22") B = true) : ¬ Overlap m B := by
  rcases h.ends with he | he
  · exact not_Overlap_of_guardB _ _ _ _ _ g.1 h.starts he h.allowed
  · exact not_Overlap_of_guardB _ _ _ _ _ g.2 h.starts he h.allowed

theorem guard_newImport :
    guardB importAllowed (str "import") (str "vite'") newImport = true ∧
      guardB importAllowed (str "import") (str "vite\x22") newImport = true := by
  decide

theorem guard_newTarget :
    guardB importAllowed (str "import") (str "vite'") newTarget = true ∧
      guardB importAllowed (str "import") (str "vite\x22") newTarget = true := by
  decide

theorem guard_functionMarker :
    guardB importAllowed (str "import") (str "vite'") functionMarker = true ∧
      guardB importAllowed (str "import") (str "vite\x22") functionMarker = true := by
  decide

theorem guard_newConfigHead :
    guardB importAllowed (str "import") (str "vite'") newConfigHead = true ∧
      guardB importAllowed (str "import") (str "vite\x22") newConfigHead = true := by
  decide

set_option maxRecDepth 100000 in
theorem guard_serverProxy :
    guardB importAllowed (str "import") (str "vite'") serverProxy = true ∧
      guardB importAllowed (str "import") (str "vite\x22") serverProxy = true := by
  decide

theorem guard_newConfigTail :
    guardB importAllowed (str "import") (str "vite'") newConfigTail = true ∧
      guardB importAllowed (str "import") (str "vite\x22") newConfigTail = true := by
  decide

theorem overlap_old_new : overlapB oldTarget newTarget = false := by decide

theorem overlap_marker_old : overlapB functionMarker oldTarget = false := by decide

theorem overlap_marker_import : overlapB functionMarker newImport = false := by decide

/-! ## The steps of the rewrite -/

theorem Contains_iff (sub : GoString) : ∀ s : GoString, Contains s sub = true ↔ sub <:+: s := by
  intro s
  induction s with
  | nil =>
    rw [Contains, List.isPrefixOf_iff_prefix, List.prefix_nil, List.infix_nil]
  | cons c cs ih =>
    rw [Contains, Bool.or_eq_true, List.isPrefixOf_iff_prefix, ih, List.infix_cons_iff]

theorem literalAt_bounds (old : GoString) (hold : old ≠ []) (y : GoString) (n : Nat)
    (h : literalAt old y = some n) : 0 < n ∧ n ≤ y.length := by
  unfold literalAt at h
  split at h
  · rename_i hp
    simp only [Option.some.injEq] at h
    subst h
    exact ⟨List.length_pos.mpr hold, (List.isPrefixOf_iff_prefix.mp hp).length_le⟩
  · exact Option.noConfusion h

theorem literalAt_take (old y : GoString) (n : Nat) (h : literalAt old y = some n) :
    y.take n = old := by
  unfold literalAt at h
  split at h
  · rename_i hp
    simp only [Option.some.injEq] at h
    subst h
    obtain ⟨r, rfl⟩ := List.isPrefixOf_iff_prefix.mp hp
    exact List.take_left _ _
  · exact Option.noConfusion h

theorem literalAt_matched (old y : GoString) (h : old <+: y) : literalAt old y ≠ none := by
  unfold literalAt
  rw [if_pos (List.isPrefixOf_iff_prefix.mpr h)]
  exact Option.noConfusion

theorem oldTarget_ne_nil : oldTarget ≠ [] := by decide

/-- The import step leaves no match of the import expression. -/
theorem importStep_free (x : GoString) : ImportFree (importStep x) := by
  intro m hm
  exact scan_clean _ _ m importMatch_bounds
    (NoTouch_of_not_Overlap _ _ (hm.not_Overlap guard_newImport)) hm.length_pos hm.matched x

/-- The import step changes nothing in a text without matches. -/
theorem importStep_fix (x : GoString) (h : ImportFree x) : importStep x = x := by
  apply scan_fix
  intro t ht
  cases hm : matchItems importRegex t with
  | none => rfl
  | some n =>
    exfalso
    exact h (t.take n) ⟨t, n, hm, rfl⟩ ((List.take_prefix n t).isInfix.trans ht.isInfix)

/-- The import step neither removes nor creates the function marker. -/
theorem importStep_marker (x : GoString) :
    functionMarker <:+: importStep x ↔ functionMarker <:+: x := by
  constructor
  · intro h
    have := scan_infix_forward _ _ functionMarker importMatch_bounds
      (NoTouch_of_overlapB _ _ overlap_marker_import) x [] (by simpa using h)
    simpa using this
  · intro h
    have := scan_infix_reverse (matchItems importRegex) newImport functionMarker
      importMatch_bounds
      (fun y n hy => NoTouch_of_not_Overlap _ _ fun ho =>
        (ImportWord.not_Overlap ⟨y, n, hy, rfl⟩ guard_functionMarker) (Overlap_symm _ _ ho))
      x [] (by simpa using h)
    simpa using this

/-- The replacement of the proxy target creates no match of the import
expression. -/
theorem replaceTarget_free (x : GoString) (h : ImportFree x) :
    ImportFree (ReplaceAll x oldTarget newTarget) := by
  intro m hm hi
  have := scan_infix_forward _ _ m (literalAt_bounds oldTarget oldTarget_ne_nil)
    (NoTouch_of_not_Overlap _ _ (hm.not_Overlap guard_newTarget)) x [] (by simpa using hi)
  exact h m hm (by simpa using this)

/-- The replacement of the proxy target keeps the function marker. -/
theorem replaceTarget_marker (x : GoString) (h : functionMarker <:+: x) :
    functionMarker <:+: ReplaceAll x oldTarget newTarget := by
  have := scan_infix_reverse (literalAt oldTarget) newTarget functionMarker
    (literalAt_bounds oldTarget oldTarget_ne_nil)
    (fun y n hy => by
      rw [literalAt_take _ _ _ hy]
      exact NoTouch_of_overlapB_symm _ _ overlap_marker_old)
    x [] (by simpa using h)
  simpa using this

/-- After the replacement of the proxy target the old target is gone. -/
theorem replaceTarget_clean (x : GoString) :
    ¬ oldTarget <:+: ReplaceAll x oldTarget newTarget :=
  scan_clean _ _ oldTarget (literalAt_bounds oldTarget oldTarget_ne_nil)
    (NoTouch_of_overlapB _ _ overlap_old_new) oldTarget_ne_nil (literalAt_matched oldTarget) x

/-- The replacement of the proxy target changes nothing in a text without the
old target. -/
theorem replaceTarget_fix (x : GoString) (h : ¬ oldTarget <:+: x) :
    ReplaceAll x oldTarget newTarget = x := by
  apply scan_fix
  intro t ht
  unfold literalAt
  split
  · rename_i hp
    exact absurd ((List.isPrefixOf_iff_prefix.mp hp).isInfix.trans ht.isInfix) h
  · rfl

theorem trimGo_suffix (w : GoString → Nat) :
    ∀ (s : GoString) (k : Nat), trimGo w k s <:+ s := by
  intro s
  induction s with
  | nil => intro k; cases k <;> exact List.suffix_refl _
  | cons c cs ih =>
    intro k
    cases k with
    | zero =>
      rw [trimGo]
      split
      · exact List.suffix_refl _
      · exact (ih _).trans (List.suffix_cons _ _)
    | succ k =>
      rw [trimGo]
      exact (ih _).trans (List.suffix_cons _ _)

theorem TrimSpace_within (s : GoString) : TrimSpace s <:+: s := by
  unfold TrimSpace
  have h1 := trimGo_suffix spaceWidth s 0
  have h2 := trimGo_suffix spaceWidthRev (trimGo spaceWidth 0 s).reverse 0
  have h3 : (trimGo spaceWidthRev 0 (trimGo spaceWidth 0 s).reverse).reverse <+:
      trimGo spaceWidth 0 s := by
    have := List.reverse_prefix.mpr h2
    simpa using this
  exact h3.isInfix.trans h1.isInfix

theorem slice_within (s : GoString) (a b : Nat) : slice s a b <:+: s :=
  (List.take_prefix _ _).isInfix.trans (List.drop_suffix _ _).isInfix

theorem configBody_within (content : GoString) (e k : Nat) :
    configBody content e k <:+: content := by
  unfold configBody
  have h0 : TrimSpace (slice content e k) <:+: content :=
    (TrimSpace_within _).trans (slice_within _ _ _)
  simp only []
  split_ifs
  · exact (List.take_prefix _ _).isInfix.trans ((List.drop_suffix _ _).isInfix.trans h0)
  · exact (List.drop_suffix _ _).isInfix.trans h0
  · exact (List.take_prefix _ _).isInfix.trans h0
  · exact h0

theorem infix_nil_false {m : GoString} (hm : m ≠ []) (h : m <:+: []) : False :=
  hm (List.infix_nil.mp h)

/-- The text written by the conversion path has no match of the import
expression when the content it was built from has none. -/
theorem conversion_free (content pre body : GoString) (h : ImportFree content)
    (hpre : pre <:+: content) (hbody : body <:+: content) :
    ImportFree (pre ++ (newConfigHead ++ body ++ serverProxy ++ newConfigTail)) := by
  intro m hm hi
  have nt1 := NoTouch_of_not_Overlap _ _ (hm.not_Overlap guard_newConfigTail)
  have nt2 := NoTouch_of_not_Overlap _ _ (hm.not_Overlap guard_serverProxy)
  have nt3 := NoTouch_of_not_Overlap _ _ (hm.not_Overlap guard_newConfigHead)
  have e1 : pre ++ (newConfigHead ++ body ++ serverProxy ++ newConfigTail) =
      (pre ++ newConfigHead ++ body ++ serverProxy) ++ newConfigTail ++ [] := by simp
  rw [e1] at hi
  rcases nt1.infix_cases _ _ hi with h1 | h1
  · have e2 : pre ++ newConfigHead ++ body ++ serverProxy =
        (pre ++ newConfigHead ++ body) ++ serverProxy ++ [] := by simp
    rw [e2] at h1
    rcases nt2.infix_cases _ _ h1 with h2 | h2
    · rcases nt3.infix_cases _ _ h2 with h3 | h3
      · exact h m hm (h3.trans hpre)
      · exact h m hm (h3.trans hbody)
    · exact infix_nil_false hm.length_pos h2
  · exact infix_nil_false hm.length_pos h1

theorem marker_in_head : functionMarker <:+: newConfigHead := by decide

theorem marker_in_newConfig (body : GoString) :
    functionMarker <:+: newConfigHead ++ body ++ serverProxy ++ newConfigTail := by
  rw [List.append_assoc, List.append_assoc]
  exact marker_in_head.trans (List.prefix_append _ _).isInfix

/-- Every text the rewrite writes has no match of the import expression and
contains the function marker. -/
theorem patch_written (c y : GoString) (h : patchViteConfigText c = .written y) :
    ImportFree y ∧ functionMarker <:+: y := by
  unfold patchViteConfigText at h
  simp only [] at h
  split at h
  · rename_i hc
    simp only [Outcome.written.injEq] at h
    subst h
    exact ⟨replaceTarget_free _ (importStep_free c),
      replaceTarget_marker _ ((Contains_iff _ _).mp hc)⟩
  · split at h
    · exact Outcome.noConfusion h
    · split_ifs at h
      simp only [Outcome.written.injEq] at h
      subst h
      refine ⟨conversion_free _ _ _ (importStep_free c) (List.take_prefix _ _).isInfix
        (configBody_within _ _ _), ?_⟩
      exact (marker_in_newConfig _).trans (List.suffix_append _ _).isInfix

/-- On a text without import match that contains the function marker the
rewrite takes the fast path. -/
theorem patch_fast (y : GoString) (hf : ImportFree y) (hm : functionMarker <:+: y) :
    patchViteConfigText y = .written (ReplaceAll y oldTarget newTarget) := by
  unfold patchViteConfigText
  simp only []
  rw [importStep_fix y hf, if_pos ((Contains_iff _ _).mpr hm)]

/-- C1. When the rewrite succeeds on a config text `c` and writes `y`, it
succeeds on `y` as well, and what it writes then is reproduced byte for byte
when it is applied once more (`T(T(T(c))) = T(T(c))`); when `c` already contains
`defineConfig(({ mode })`, already the second application reproduces `y`
(`T(T(c)) = T(c)`). -/
theorem transformer_idempotent (c y : GoString) (h : patchViteConfigText c = .written y) :
    (∃ z, patchViteConfigText y = .written z ∧ patchViteConfigText z = .written z) ∧
    (functionMarker <:+: c → patchViteConfigText y = .written y) := by
  obtain ⟨hf, hm⟩ := patch_written c y h
  constructor
  · refine ⟨ReplaceAll y oldTarget newTarget, patch_fast y hf hm, ?_⟩
    rw [patch_fast _ (replaceTarget_free y hf) (replaceTarget_marker y hm),
      replaceTarget_fix _ (replaceTarget_clean y)]
  · intro hc
    have h1 : functionMarker <:+: importStep c := (importStep_marker c).mpr hc
    have h2 := patch_fast (importStep c) (importStep_free c) h1
    have h3 : patchViteConfigText c = patchViteConfigText (importStep c) := by
      unfold patchViteConfigText
      simp only []
      rw [importStep_fix (importStep c) (importStep_free c)]
    rw [h3, h2] at h
    simp only [Outcome.written.injEq] at h
    subst h
    rw [patch_fast _ hf hm, replaceTarget_fix _ (replaceTarget_clean _)]

set_option maxRecDepth 100000 in
/-- C1 at a concrete input: a function-based config whose proxy target still
reads `process.env.VITE_API_URL`. -/
theorem transformer_idempotent_witness :
    patchViteConfigText (str ("import \x7b defineConfig \x7d from \x22vite\x22\n" ++
        "export default defineConfig((\x7b mode \x7d) => (\x7b server: \x7b proxy: " ++
        "\x7b '/api': \x7b target: process.env.VITE_API_URL \x7d \x7d \x7d \x7d))\n")) =
      .written (str ("import \x7b defineConfig, loadEnv \x7d from 'vite'\n" ++
        "export default defineConfig((\x7b mode \x7d) => (\x7b server: \x7b proxy: " ++
        "\x7b '/api': \x7b target: env.VITE_API_URL \x7d \x7d \x7d \x7d))\n")) ∧
    patchViteConfigText (str ("import \x7b defineConfig, loadEnv \x7d from 'vite'\n" ++
        "export default defineConfig((\x7b mode \x7d) => (\x7b server: \x7b proxy: " ++
        "\x7b '/api': \x7b target: env.VITE_API_URL \x7d \x7d \x7d \x7d))\n")) =
      .written (str ("import \x7b defineConfig, loadEnv \x7d from 'vite'\n" ++
        "export default defineConfig((\x7b mode \x7d) => (\x7b server: \x7b proxy: " ++
        "\x7b '/api': \x7b target: env.VITE_API_URL \x7d \x7d \x7d \x7d))\n")) :=
  ⟨by decide,
    (transformer_idempotent
      (str ("import \x7b defineConfig \x7d from \x22vite\x22\n" ++
        "export default defineConfig((\x7b mode \x7d) => (\x7b server: \x7b proxy: " ++
        "\x7b '/api': \x7b target: process.env.VITE_API_URL \x7d \x7d \x7d \x7d))\n"))
      (str ("import \x7b defineConfig, loadEnv \x7d from 'vite'\n" ++
        "export default defineConfig((\x7b mode \x7d) => (\x7b server: \x7b proxy: " ++
        "\x7b '/api': \x7b target: env.VITE_API_URL \x7d \x7d \x7d \x7d))\n"))
      (by decide)).2 (by decide)⟩

/-! ## The conversion path -/

theorem findFrom_first (re : List Item) :
    ∀ (x : GoString) (i s n : Nat), s ≤ x.length →
      (∀ j, j < s → matchItems re (x.drop j) = none) →
      matchItems re (x.drop s) = some n → findFrom re i x = some (i + s, i + s + n) := by
  intro x
  induction x with
  | nil =>
    intro i s n hs _ hm
    have : s = 0 := by simpa using hs
    subst this
    simp only [List.drop_nil] at hm
    simp [findFrom, hm]
  | cons c cs ih =>
    intro i s n hs hfirst hm
    cases s with
    | zero =>
      simp only [List.drop_zero] at hm
      simp [findFrom, hm]
    | succ s =>
      have h0 : matchItems re (c :: cs) = none := by
        simpa using hfirst 0 (Nat.succ_pos _)
      have := ih (i + 1) s n (by simpa using hs)
        (fun j hj => by simpa using hfirst (j + 1) (by omega)) (by simpa using hm)
      simp only [findFrom, h0, this]
      simp only [Option.some.injEq, Prod.mk.injEq]
      omega

theorem lastIndexFrom_absent (sub : GoString) :
    ∀ (x : GoString) (i : Nat) (best : Int), ¬ sub <:+: x →
      lastIndexFrom sub i x best = best := by
  intro x
  induction x with
  | nil =>
    intro i best h
    have hp : sub.isPrefixOf [] = false := by
      rw [← Bool.not_eq_true, List.isPrefixOf_iff_prefix]
      exact fun hp => h hp.isInfix
    simp [lastIndexFrom, hp]
  | cons c cs ih =>
    intro i best h
    have hp : sub.isPrefixOf (c :: cs) = false := by
      rw [← Bool.not_eq_true, List.isPrefixOf_iff_prefix]
      exact fun hp => h hp.isInfix
    rw [lastIndexFrom, hp]
    exact ih _ _ fun hi => h (hi.trans (List.suffix_cons _ _).isInfix)

theorem lastIndexFrom_last (sub : GoString) :
    ∀ (x : GoString) (i k : Nat) (best : Int), k ≤ x.length → sub <+: x.drop k →
      ¬ sub <:+: x.drop (k + 1) → lastIndexFrom sub i x best = ((i + k : Nat) : Int) := by
  intro x
  induction x with
  | nil =>
    intro i k best hk hp _
    have : k = 0 := by simpa using hk
    subst this
    simp only [List.drop_nil] at hp
    simp [lastIndexFrom, List.isPrefixOf_iff_prefix.mpr hp]
  | cons c cs ih =>
    intro i k best hk hp hl
    cases k with
    | zero =>
      simp only [List.drop_zero] at hp
      rw [lastIndexFrom, List.isPrefixOf_iff_prefix.mpr hp, if_pos rfl]
      rw [lastIndexFrom_absent sub cs _ _ (by simpa using hl)]
      rfl
    | succ k =>
      rw [lastIndexFrom]
      rw [ih (i + 1) k _ (by simpa using hk) (by simpa using hp) (by simpa using hl)]
      congr 1
      omega

theorem HasSuffix_iff (s suf : GoString) : HasSuffix s suf = true ↔ suf <:+ s := by
  unfold HasSuffix
  rw [List.isPrefixOf_iff_prefix, List.reverse_prefix]

theorem configBody_eq_specBody (content : GoString) (e k : Nat) :
    configBody content e k = specBody (slice content e k) := by
  unfold configBody specBody HasPrefix
  simp only []
  have h1 : ∀ t : GoString, ((str "\x7b").isPrefixOf t = true) = (str "\x7b" <+: t) := by
    intro t; rw [List.isPrefixOf_iff_prefix]
  have h2 : ∀ t : GoString, (HasSuffix t (str "\x7d") = true) = (str "\x7d" <:+ t) := by
    intro t; rw [HasSuffix_iff]
  simp only [h1, h2, List.drop_one, List.dropLast_eq_take]

/-- C2. For a config text that is not function-based, write `content` for the
text after the import step. If the export signature first matches at `[s, e)`
in `content` (it matches at `s`, with end `e`, and at no earlier index) and the
last `})` of `content` is at index `k ≥ e`, then the rewrite succeeds and
writes: the bytes of `content` before `s`, the fixed head of the wrapper, the
body, the fixed `server.proxy` block and the fixed tail, where the body is the
text between `e` and `k`, whitespace-trimmed, without one leading `{` and
one trailing `}` if present. Nothing else of the text from `s` on is
written. -/
theorem conversion_result (data : GoString) (s e k : Nat)
    (hnf : ¬ functionMarker <:+: data)
    (hs : s ≤ e) (he : e ≤ k) (hk : k ≤ (importStep data).length)
    (hfirst : ∀ j, j < s → matchItems defineConfigRegex ((importStep data).drop j) = none)
    (hmatch : matchItems defineConfigRegex ((importStep data).drop s) = some (e - s))
    (hclose : str "\x7d)" <+: (importStep data).drop k)
    (hlast : ¬ str "\x7d)" <:+: (importStep data).drop (k + 1)) :
    patchViteConfigText data =
      .written ((importStep data).take s ++ newConfigHead ++
        specBody (slice (importStep data) e k) ++ serverProxy ++ newConfigTail) := by
  have h1 : Contains (importStep data) functionMarker = false := by
    rw [← Bool.not_eq_true, Contains_iff, importStep_marker]
    exact hnf
  have h2 : FindStringIndex defineConfigRegex (importStep data) = some (s, e) := by
    unfold FindStringIndex
    rw [findFrom_first _ _ 0 s (e - s) (by omega) hfirst hmatch]
    simp only [Nat.zero_add, Option.some.injEq, Prod.mk.injEq, true_and]
    omega
  have h3 : LastIndex (importStep data) (str "\x7d)") = (k : Int) := by
    unfold LastIndex
    rw [lastIndexFrom_last _ _ 0 k _ hk hclose hlast]
    simp
  unfold patchViteConfigText
  simp only [h1, h2, h3, Bool.false_eq_true, if_false]
  rw [if_neg (by omega), if_neg (by omega)]
  simp only [Int.toNat_ofNat, configBody_eq_specBody, List.append_assoc]

set_option maxRecDepth 100000 in
/-- C2 at two concrete inputs: the config of the specification, and the same
config after an import statement and followed by a line feed. -/
theorem conversion_result_witness :
    (patchViteConfigText (str "export default defineConfig(\x7b plugins: [x] \x7d)") =
      .written (str ("\nexport default defineConfig((\x7b mode \x7d) => \x7b\n" ++
        "  const env = loadEnv(mode, process.cwd(), '')\n  return \x7b\n\t" ++
        "plugins: [x]" ++
        "\n    server: \x7b\n      proxy: \x7b\n        '/api': \x7b\n" ++
        "          target: env.VITE_API_URL,\n          changeOrigin: true,\n" ++
        "          rewrite: path => path.replace(/^\\/api/, ''),\n" ++
        "        \x7d\n      \x7d\n    \x7d\n  \x7d\n\t" ++ "\n\x7d)\n"))) ∧
    (patchViteConfigText (str ("import \x7b defineConfig \x7d from 'vite'\n" ++
        "export default defineConfig(\x7b plugins: [x] \x7d)\n")) =
      .written (str ("import \x7b defineConfig, loadEnv \x7d from 'vite'\n" ++
        "\nexport default defineConfig((\x7b mode \x7d) => \x7b\n" ++
        "  const env = loadEnv(mode, process.cwd(), '')\n  return \x7b\n\t" ++
        "plugins: [x]" ++
        "\n    server: \x7b\n      proxy: \x7b\n        '/api': \x7b\n" ++
        "          target: env.VITE_API_URL,\n          changeOrigin: true,\n" ++
        "          rewrite: path => path.replace(/^\\/api/, ''),\n" ++
        "        \x7d\n      \x7d\n    \x7d\n  \x7d\n\t" ++ "\n\x7d)\n"))) :=
  ⟨(conversion_result (str "export default defineConfig(\x7b plugins: [x] \x7d)") 0 29 43
      (by decide) (by decide) (by decide) (by decide) (by decide) (by decide) (by decide)
      (by decide)).trans (by decide),
    (conversion_result (str ("import \x7b defineConfig \x7d from 'vite'\n" ++
        "export default defineConfig(\x7b plugins: [x] \x7d)\n")) 45 74 88
      (by decide) (by decide) (by decide) (by decide) (by decide) (by decide) (by decide)
      (by decide)).trans (by decide)⟩

set_option maxRecDepth 100000 in
/-- C3, the code at the failing input. The brackets of the config
`export default defineConfig({ plugins: [react()], server: { port: 3000 } })`
(with its usual line breaks) are balanced and properly nested; the conversion
path succeeds on it, and the brackets of the text it writes are not balanced:
the closing brace of `server` is removed as the "trailing brace" of the body. -/
theorem conversion_unbalanced :
    balanced (str ("export default defineConfig(\x7b\n  plugins: [react()],\n" ++
        "  server: \x7b port: 3000 \x7d\n\x7d)\n")) = true ∧
    patchViteConfigText (str ("export default defineConfig(\x7b\n  plugins: [react()],\n" ++
        "  server: \x7b port: 3000 \x7d\n\x7d)\n")) =
      .written (newConfigHead ++ str "plugins: [react()],\n  server: \x7b port: 3000 " ++
        serverProxy ++ newConfigTail) ∧
    balanced (newConfigHead ++ str "plugins: [react()],\n  server: \x7b port: 3000 " ++
        serverProxy ++ newConfigTail) = false := by
  decide

set_option maxRecDepth 100000 in
/-- C4, the code at the failing input. For the config
`export default defineConfig({ plugins: [x] })` the object literal that
the wrapper returns reads `plugins: [x]`, a line feed, four spaces and
`server: {`: between the last property of the body and the appended
`server` property there is white space only, no comma. -/
theorem conversion_no_comma :
    patchViteConfigText (str "export default defineConfig(\x7b plugins: [x] \x7d)") =
      .written (newConfigHead ++ str "plugins: [x]" ++ str "\n    " ++
        str "server: \x7b" ++ (serverProxy.drop 14 ++ newConfigTail)) ∧
    (44 ∉ str "\n    ") ∧ (44 ∉ str "plugins: [x]") := by
  decide

/-! ## White space of `strings.TrimSpace` -/

theorem spaceWidth_of_rune (r : Nat) (hr : r ∈ whiteSpaceRunes) (rest : GoString) :
    spaceWidth (encodeRune r ++ rest) = (encodeRune r).length := by
  simp only [whiteSpaceRunes, List.mem_cons, List.mem_singleton, List.not_mem_nil, or_false] at hr
  rcases hr with h | h | h | h | h | h | h | h | h | h | h | h | h | h | h | h | h | h | h | h |
    h | h | h | h | h <;> subst h <;> rfl

theorem rune_of_spaceWidth (s : GoString) (h : spaceWidth s ≠ 0) :
    ∃ r ∈ whiteSpaceRunes, encodeRune r <+: s ∧ spaceWidth s = (encodeRune r).length := by
  have key : ∀ (r : Nat) (rest : GoString), r ∈ whiteSpaceRunes → s = encodeRune r ++ rest →
      ∃ r ∈ whiteSpaceRunes, encodeRune r <+: s ∧ spaceWidth s = (encodeRune r).length := by
    intro r rest hr hs
    exact ⟨r, hr, ⟨rest, hs.symm⟩, by rw [hs]; exact spaceWidth_of_rune r hr rest⟩
  cases s with
  | nil => exact absurd rfl h
  | cons b rest =>
    by_cases ha : asciiSpace b = true
    · have hb : b = 9 ∨ b = 10 ∨ b = 11 ∨ b = 12 ∨ b = 13 ∨ b = 32 := by
        simpa [asciiSpace, or_assoc] using ha
      rcases hb with rfl | rfl | rfl | rfl | rfl | rfl
      · exact key 9 rest (by decide) rfl
      · exact key 10 rest (by decide) rfl
      · exact key 11 rest (by decide) rfl
      · exact key 12 rest (by decide) rfl
      · exact key 13 rest (by decide) rfl
      · exact key 32 rest (by decide) rfl
    · have ha2 : asciiSpace b = false := by simpa using ha
      simp only [spaceWidth, ha2, Bool.false_eq_true, if_false] at h
      split at h
      · rename_i b1 r1
        split at h
        · rename_i hc
          have hb1 : b1 = 0x85 ∨ b1 = 0xA0 := by simpa using hc
          rcases hb1 with rfl | rfl
          · exact key 0x85 r1 (by decide) rfl
          · exact key 0xA0 r1 (by decide) rfl
        · exact absurd rfl h
      · rename_i b1 b2 r1
        split at h
        · rename_i hc
          have hb : b1 = 0x9A ∧ b2 = 0x80 := by simpa using hc
          obtain ⟨rfl, rfl⟩ := hb
          exact key 0x1680 r1 (by decide) rfl
        · exact absurd rfl h
      · rename_i b1 b2 r1
        split at h
        · rename_i hc
          simp only [Bool.and_eq_true, beq_iff_eq, Bool.or_eq_true, decide_eq_true_eq] at hc
          obtain ⟨rfl, hb2⟩ := hc
          rcases hb2 with ((⟨h1, h2⟩ | rfl) | rfl) | rfl
          · interval_cases b2
            · exact key 0x2000 r1 (by decide) rfl
            · exact key 0x2001 r1 (by decide) rfl
            · exact key 0x2002 r1 (by decide) rfl
            · exact key 0x2003 r1 (by decide) rfl
            · exact key 0x2004 r1 (by decide) rfl
            · exact key 0x2005 r1 (by decide) rfl
            · exact key 0x2006 r1 (by decide) rfl
            · exact key 0x2007 r1 (by decide) rfl
            · exact key 0x2008 r1 (by decide) rfl
            · exact key 0x2009 r1 (by decide) rfl
            · exact key 0x200A r1 (by decide) rfl
          · exact key 0x2028 r1 (by decide) rfl
          · exact key 0x2029 r1 (by decide) rfl
          · exact key 0x202F r1 (by decide) rfl
        · split at h
          · rename_i hc
            have hb : b1 = 0x81 ∧ b2 = 0x9F := by simpa using hc
            obtain ⟨rfl, rfl⟩ := hb
            exact key 0x205F r1 (by decide) rfl
          · exact absurd rfl h
      · rename_i b1 b2 r1
        split at h
        · rename_i hc
          have hb : b1 = 0x80 ∧ b2 = 0x80 := by simpa using hc
          obtain ⟨rfl, rfl⟩ := hb
          exact key 0x3000 r1 (by decide) rfl
        · exact absurd rfl h
      · exact absurd rfl h

theorem spaceWidthRev_of_rune (r : Nat) (hr : r ∈ whiteSpaceRunes) (rest : GoString) :
    spaceWidthRev ((encodeRune r).reverse ++ rest) = (encodeRune r).length := by
  simp only [whiteSpaceRunes, List.mem_cons, List.mem_singleton, List.not_mem_nil, or_false] at hr
  rcases hr with h | h | h | h | h | h | h | h | h | h | h | h | h | h | h | h | h | h | h | h |
    h | h | h | h | h <;> subst h <;> rfl

theorem rune_of_spaceWidthRev (s : GoString) (h : spaceWidthRev s ≠ 0) :
    ∃ r ∈ whiteSpaceRunes, (encodeRune r).reverse <+: s ∧
      spaceWidthRev s = (encodeRune r).length := by
  have key : ∀ (r : Nat) (rest : GoString), r ∈ whiteSpaceRunes →
      s = (encodeRune r).reverse ++ rest →
      ∃ r ∈ whiteSpaceRunes, (encodeRune r).reverse <+: s ∧
        spaceWidthRev s = (encodeRune r).length := by
    intro r rest hr hs
    exact ⟨r, hr, ⟨rest, hs.symm⟩, by rw [hs]; exact spaceWidthRev_of_rune r hr rest⟩
  cases s with
  | nil => exact absurd rfl h
  | cons b rest =>
    by_cases ha : asciiSpace b = true
    · have hb : b = 9 ∨ b = 10 ∨ b = 11 ∨ b = 12 ∨ b = 13 ∨ b = 32 := by
        simpa [asciiSpace, or_assoc] using ha
      rcases hb with rfl | rfl | rfl | rfl | rfl | rfl
      · exact key 9 rest (by decide) rfl
      · exact key 10 rest (by decide) rfl
      · exact key 11 rest (by decide) rfl
      · exact key 12 rest (by decide) rfl
      · exact key 13 rest (by decide) rfl
      · exact key 32 rest (by decide) rfl
    · have ha2 : asciiSpace b = false := by simpa using ha
      cases rest with
      | nil => simp [spaceWidthRev, ha2] at h
      | cons b1 rest2 =>
        by_cases h2 : spaceWidth [b1, b] = 2
        · obtain ⟨r, hr, ⟨x, hx⟩, hlen⟩ := rune_of_spaceWidth [b1, b] (by rw [h2]; decide)
          have hl : (encodeRune r).length = 2 := by rw [← hlen, h2]
          have hx0 : x = [] := by
            have := congrArg List.length hx
            simp only [List.length_append, hl] at this
            simpa using this
          subst hx0
          rw [List.append_nil] at hx
          exact key r rest2 hr (by rw [hx]; rfl)
        · cases rest2 with
          | nil => simp [spaceWidthRev, ha2, h2] at h
          | cons b2 rest3 =>
            by_cases h3 : spaceWidth [b2, b1, b] = 3
            · obtain ⟨r, hr, ⟨x, hx⟩, hlen⟩ :=
                rune_of_spaceWidth [b2, b1, b] (by rw [h3]; decide)
              have hl : (encodeRune r).length = 3 := by rw [← hlen, h3]
              have hx0 : x = [] := by
                have := congrArg List.length hx
                simp only [List.length_append, hl] at this
                simpa using this
              subst hx0
              rw [List.append_nil] at hx
              exact key r rest3 hr (by rw [hx]; rfl)
            · simp [spaceWidthRev, ha2, h2, h3] at h

theorem WhiteRunes.append {a b : GoString} (ha : WhiteRunes a) (hb : WhiteRunes b) :
    WhiteRunes (a ++ b) := by
  induction ha with
  | nil => exact hb
  | cons r a hr _ ih => rw [List.append_assoc]; exact WhiteRunes.cons r _ hr ih

theorem trimGo_skip (w : GoString → Nat) :
    ∀ (s : GoString) (k : Nat), trimGo w k s = trimGo w 0 (s.drop k) := by
  intro s
  induction s with
  | nil => intro k; cases k <;> rfl
  | cons c cs ih =>
    intro k
    cases k with
    | zero => rfl
    | succ k => rw [trimGo, ih k]; rfl

/-- What `trimGo` removes is a sequence of chunks, each of the width that `w`
reports, and `w` reports no further chunk at the start of what is left. -/
theorem trimGo_decomp (w : GoString → Nat) (hw : ∀ s, w s ≤ s.length)
    (R : GoString → Prop) (h0 : R [])
    (hstep : ∀ s a, w s ≠ 0 → R a → R (s.take (w s) ++ a)) :
    ∀ (n : Nat) (s : GoString), s.length ≤ n →
      ∃ a, s = a ++ trimGo w 0 s ∧ R a ∧ w (trimGo w 0 s) = 0 := by
  intro n
  induction n with
  | zero =>
    intro s hs
    have : s = [] := List.length_eq_zero.mp (by omega)
    subst this
    exact ⟨[], rfl, h0, by have := hw []; simpa [trimGo] using this⟩
  | succ n ih =>
    intro s hs
    cases s with
    | nil => exact ⟨[], rfl, h0, by have := hw []; simpa [trimGo] using this⟩
    | cons c cs =>
      cases hk : w (c :: cs) with
      | zero =>
        refine ⟨[], ?_, h0, ?_⟩
        · simp [trimGo, hk]
        · simp [trimGo, hk]
      | succ k =>
        have e1 : trimGo w 0 (c :: cs) = trimGo w 0 ((c :: cs).drop (k + 1)) := by
          rw [trimGo, hk]
          simp only []
          rw [trimGo_skip]
          rfl
        obtain ⟨a, ha1, ha2, ha3⟩ := ih ((c :: cs).drop (k + 1)) (by simp at hs ⊢; omega)
        refine ⟨(c :: cs).take (k + 1) ++ a, ?_, ?_, ?_⟩
        · rw [e1, List.append_assoc, ← ha1, List.take_append_drop]
        · have := hstep (c :: cs) a (by rw [hk]; exact Nat.succ_ne_zero _) ha2
          rwa [hk] at this
        · rw [e1]; exact ha3

theorem spaceWidth_le (s : GoString) : spaceWidth s ≤ s.length := by
  by_cases h : spaceWidth s = 0
  · omega
  · obtain ⟨r, _, hp, hl⟩ := rune_of_spaceWidth s h
    rw [hl]; exact hp.length_le

theorem spaceWidthRev_le (s : GoString) : spaceWidthRev s ≤ s.length := by
  by_cases h : spaceWidthRev s = 0
  · omega
  · obtain ⟨r, _, hp, hl⟩ := rune_of_spaceWidthRev s h
    rw [hl, ← List.length_reverse]; exact hp.length_le

/-- The model of `strings.TrimSpace` removes a sequence of white-space runes at
the start and one at the end, and what is left neither starts nor ends with a
white-space rune. -/
theorem TrimSpace_spec (t : GoString) :
    ∃ a b, t = a ++ TrimSpace t ++ b ∧ WhiteRunes a ∧ WhiteRunes b ∧
      (∀ r ∈ whiteSpaceRunes, ¬ encodeRune r <+: TrimSpace t) ∧
      (∀ r ∈ whiteSpaceRunes, ¬ encodeRune r <:+ TrimSpace t) := by
  obtain ⟨a, ha1, ha2, ha3⟩ := trimGo_decomp spaceWidth spaceWidth_le WhiteRunes WhiteRunes.nil
    (fun s a hs hr => by
      obtain ⟨r, hr1, ⟨x, hx⟩, hl⟩ := rune_of_spaceWidth s hs
      have : s.take (spaceWidth s) = encodeRune r := by
        rw [hl, ← hx]; exact List.take_left _ _
      rw [this]
      exact WhiteRunes.cons r a hr1 hr)
    t.length t (Nat.le_refl _)
  obtain ⟨b, hb1, hb2, hb3⟩ := trimGo_decomp spaceWidthRev spaceWidthRev_le
    (fun x => WhiteRunes x.reverse) WhiteRunes.nil
    (fun s a hs hr => by
      obtain ⟨r, hr1, ⟨x, hx⟩, hl⟩ := rune_of_spaceWidthRev s hs
      have : s.take (spaceWidthRev s) = (encodeRune r).reverse := by
        rw [hl, ← hx, ← List.length_reverse]; exact List.take_left _ _
      rw [this, List.reverse_append, List.reverse_reverse]
      have h1 : WhiteRunes (encodeRune r) := by
        have := WhiteRunes.cons r [] hr1 WhiteRunes.nil
        simpa using this
      exact WhiteRunes.append hr h1)
    (trimGo spaceWidth 0 t).reverse.length (trimGo spaceWidth 0 t).reverse (Nat.le_refl _)
  have hT : TrimSpace t = (trimGo spaceWidthRev 0 (trimGo spaceWidth 0 t).reverse).reverse := rfl
  have hmid : trimGo spaceWidth 0 t = TrimSpace t ++ b.reverse := by
    have := congrArg List.reverse hb1
    rw [List.reverse_reverse, List.reverse_append] at this
    rw [hT]; exact this
  refine ⟨a, b.reverse, ?_, ha2, hb2, ?_, ?_⟩
  · rw [List.append_assoc, ← hmid]; exact ha1
  · intro r hr hp
    have h1 : encodeRune r <+: trimGo spaceWidth 0 t := by
      rw [hmid]; exact hp.trans (List.prefix_append _ _)
    obtain ⟨x, hx⟩ := h1
    have := spaceWidth_of_rune r hr x
    rw [hx, ha3] at this
    have hpos : 0 < (encodeRune r).length := by
      unfold encodeRune; split_ifs <;> simp
    omega
  · intro r hr hp
    have h1 : (encodeRune r).reverse <+:
        trimGo spaceWidthRev 0 (trimGo spaceWidth 0 t).reverse := by
      have := List.reverse_prefix.mpr hp
      rwa [hT, List.reverse_reverse] at this
    obtain ⟨x, hx⟩ := h1
    have := spaceWidthRev_of_rune r hr x
    rw [hx, hb3] at this
    have hpos : 0 < (encodeRune r).length := by
      unfold encodeRune; split_ifs <;> simp
    omega

/-! ## Checks of the model on concrete texts -/

/-- The import expression matches with either quote and any white space. -/
theorem importRegex_examples :
    matchItems importRegex (str "import \x7b defineConfig \x7d from 'vite';") = some 35 ∧
    matchItems importRegex (str "import\t\x7bdefineConfig\x7d\n from  \x22vite\x22") = some 35 ∧
    matchItems importRegex (str "import \x7b defineConfig, loadEnv \x7d from 'vite'") = none ∧
    FindStringIndex defineConfigRegex (str "// x\nexport  default\ndefineConfig ( \x7b a") =
      some (5, 37) := by
  decide

set_option maxRecDepth 100000 in
/-- On the conversion path the proxy target inside the body is not rewritten by
the first run; the second run rewrites it, and the third changes nothing. -/
theorem second_run_rewrites_target :
    patchViteConfigText (str "export default defineConfig(\x7b t: process.env.VITE_API_URL, target: process.env.VITE_API_URL, \x7d)") =
      .written (newConfigHead ++
        str "t: process.env.VITE_API_URL, target: process.env.VITE_API_URL," ++
        serverProxy ++ newConfigTail) ∧
    patchViteConfigText (newConfigHead ++
        str "t: process.env.VITE_API_URL, target: process.env.VITE_API_URL," ++
        serverProxy ++ newConfigTail) =
      .written (newConfigHead ++
        str "t: process.env.VITE_API_URL, target: env.VITE_API_URL," ++
        serverProxy ++ newConfigTail) := by
  decide

/-! ## Rendering of the menus -/

theorem menuLines_eq_flatten (sel : Int) :
    ∀ (opts : List GoString) (i : Nat),
      menuLines sel i opts = (menuLineList sel i opts).flatten := by
  intro opts
  induction opts with
  | nil => intro i; rfl
  | cons o rest ih =>
    intro i
    simp only [menuLines, menuLineList, List.flatten_cons, ih (i + 1), menuLine, List.append_assoc]

theorem menuLineList_length (sel : Int) :
    ∀ (opts : List GoString) (i : Nat), (menuLineList sel i opts).length = opts.length := by
  intro opts
  induction opts with
  | nil => intro i; rfl
  | cons o rest ih => intro i; simp [menuLineList, ih (i + 1)]

theorem menuLineList_get (sel : Int) :
    ∀ (opts : List GoString) (i j : Nat) (opt : GoString), opts[j]? = some opt →
      (menuLineList sel i opts)[j]? = some (menuLine sel (i + j) opt) := by
  intro opts
  induction opts with
  | nil => intro i j opt h; simp at h
  | cons o rest ih =>
    intro i j opt h
    cases j with
    | zero =>
      simp only [List.getElem?_cons_zero, Option.some.injEq] at h
      subst h
      simp [menuLineList]
    | succ j =>
      simp only [List.getElem?_cons_succ] at h
      simp only [menuLineList, List.getElem?_cons_succ]
      rw [ih (i + 1) j opt h]
      congr 2
      omega

/-- C11. In the Menu state of either stage `View` returns the header of the
stage followed by the lines of the menu: as many lines as options, the line of
index `j` being the cursor marker, a space, the text of option `j` and a line
feed, where the marker is `>` if `j` is the selection and a space otherwise (so
with the selection in range exactly the selected line is marked). In the Done
state `View` shows the text of `options[selection]`. -/
theorem menu_rendering (m : model) (m2 : model2) :
    (m.state = .stateMenu →
      m.View = some (str "You typed: " ++ m.input ++ str "\n\nChoose an option:\n\n" ++
        (menuLineList m.selection 0 m.options).flatten)) ∧
    (m2.state = .state2Menu →
      m2.View = some (str "Choose an option:\n\n" ++
        (menuLineList m2.selection 0 m2.options).flatten)) ∧
    (∀ (sel : Int) (opts : List GoString),
      (menuLineList sel 0 opts).length = opts.length ∧
      (∀ (j : Nat) (opt : GoString), opts[j]? = some opt →
        (menuLineList sel 0 opts)[j]? =
          some ((if (j : Int) = sel then str ">" else str " ") ++ str " " ++ opt ++ str "\n")) ∧
      (∀ (j : Nat) (opt : GoString), opts[j]? = some opt →
        (((menuLineList sel 0 opts)[j]?).map (fun l => l.head?) = some (some 62) ↔
          (j : Int) = sel))) ∧
    (∀ opt, m.state = .stateDone → index m.options m.selection = some opt →
      m.View = some (str "You typed: " ++ m.input ++ str "\n" ++
        (str "You selected: " ++ opt ++ str "\n"))) ∧
    (∀ opt, m2.state = .state2Done → index m2.options m2.selection = some opt →
      m2.View = some (str "You selected: " ++ opt ++ str "\n")) := by
  refine ⟨?_, ?_, ?_, ?_, ?_⟩
  · intro h
    simp only [model.View, h, menuLines_eq_flatten]
  · intro h
    simp only [model2.View, h, menuLines_eq_flatten]
  · intro sel opts
    refine ⟨menuLineList_length sel opts 0, ?_, ?_⟩
    · intro j opt h
      have := menuLineList_get sel opts 0 j opt h
      simpa [menuLine] using this
    · intro j opt h
      rw [menuLineList_get sel opts 0 j opt h]
      simp only [Nat.zero_add, Option.map_some', Option.some.injEq, menuLine]
      by_cases hj : (j : Int) = sel
      · simp only [hj, if_true, iff_true]
        rfl
      · simp only [hj, if_false, iff_false]
        intro hc
        have h2 : (str " " ++ str " " ++ opt ++ str "\n").head? = some 32 := rfl
        rw [h2] at hc
        exact absurd hc (by decide)
  · intro opt h hi
    simp only [model.View, h, hi, Option.map_some']
  · intro opt h hi
    simp only [model2.View, h, hi, Option.map_some']

set_option maxRecDepth 100000 in
/-- The menu of stage 1 after the name `ab`, Enter and one Down, and the Done
frame of stage 2 after Enter. -/
theorem rendering_examples :
    model.View (initModel.steps [printable (Char.ofNat 97), printable (Char.ofNat 98),
        .key { Typ := .KeyEnter, Runes := [], Alt := false },
        .key { Typ := .KeyDown, Runes := [], Alt := false }]) =
      some (str "You typed: ab\n\nChoose an option:\n\n  npm\n> yarn\n  pnpm\n  deno\n  bun\n") ∧
    model2.View (initModel2.steps [.key { Typ := .KeyEnter, Runes := [], Alt := false }]) =
      some (str "You selected: Standard\n") := by
  decide

/-! ## The dependency check -/

theorem mapGet_jsOptions (x : GoString) : mapGet jsOptions x = true ↔ x ∈ supportedTools := by
  simp only [jsOptions, mapGet, supportedTools, List.mem_cons, List.mem_singleton,
    List.not_mem_nil, or_false]
  constructor
  · intro h
    split_ifs at h with h1 h2 h3 h4 h5
    · exact Or.inl h1.symm
    · exact Or.inr (Or.inr (Or.inr (Or.inr h2.symm)))
    · exact Or.inr (Or.inr (Or.inl h3.symm))
    · exact Or.inr (Or.inr (Or.inr (Or.inl h4.symm)))
    · exact Or.inr (Or.inl h5.symm)
  · rintro (h | h | h | h | h) <;> subst h <;> decide

theorem CheckDependencies_unsupported (ul : GoString → GoString) (lookPath : GoString → Bool)
    (jsTool : GoString) (h : ToLower ul jsTool ∉ supportedTools) :
    CheckDependencies ul lookPath jsTool =
      (false, [.print (str "⚠ '" ++ ToLower ul jsTool ++ str "' is not a supported JS tool\n")]) := by
  have h1 : mapGet jsOptions (ToLower ul jsTool) = false := by
    rw [← Bool.not_eq_true, mapGet_jsOptions]; exact h
  simp only [CheckDependencies, h1, Bool.not_false, if_true]

theorem CheckDependencies_supported (ul : GoString → GoString) (lookPath : GoString → Bool)
    (jsTool : GoString) (h : ToLower ul jsTool ∈ supportedTools) :
    CheckDependencies ul lookPath jsTool =
      (lookPath (str "go") && lookPath (str "node") && lookPath (str "air") &&
          lookPath (ToLower ul jsTool),
        toolReport lookPath (str "go") ++ toolReport lookPath (str "node") ++
          toolReport lookPath (str "air") ++ toolReport lookPath (ToLower ul jsTool)) := by
  have h1 : mapGet jsOptions (ToLower ul jsTool) = true := (mapGet_jsOptions _).mpr h
  simp only [CheckDependencies, h1, Bool.not_true, Bool.false_eq_true, if_false, coreTools,
    List.foldl, checkTool, toolReport]
  cases h2 : lookPath (str "go") <;> cases h3 : lookPath (str "node") <;>
    cases h4 : lookPath (str "air") <;> cases h5 : lookPath (ToLower ul jsTool) <;> simp

theorem ToLower_ascii (ul : GoString → GoString) (s : GoString)
    (h : s.all (fun b => decide (b < 128)) = true) : ToLower ul s = s.map asciiLower := by
  simp only [ToLower, h, if_true]

/-- C12. `CheckDependencies` returns true exactly when the lower-cased
identifier is one of npm, yarn, pnpm, bun, deno and `go`, `node`, `air` and the
lower-cased identifier are all resolvable. The result depends on the identifier
through its lower-cased form only: identifiers of ASCII bytes that differ only
in case, like `NPM` and `npm`, give the same result and the same effects. -/
theorem check_dependencies_result (ul : GoString → GoString) (lookPath : GoString → Bool)
    (jsTool : GoString) :
    ((CheckDependencies ul lookPath jsTool).1 = true ↔
      (ToLower ul jsTool ∈ [str "npm", str "yarn", str "pnpm", str "bun", str "deno"] ∧
        lookPath (str "go") = true ∧ lookPath (str "node") = true ∧
        lookPath (str "air") = true ∧ lookPath (ToLower ul jsTool) = true)) ∧
    (∀ other, ToLower ul other = ToLower ul jsTool →
      CheckDependencies ul lookPath other = CheckDependencies ul lookPath jsTool) ∧
    (∀ other, jsTool.all (fun b => decide (b < 128)) = true →
      other.all (fun b => decide (b < 128)) = true →
      other.map asciiLower = jsTool.map asciiLower →
      CheckDependencies ul lookPath other = CheckDependencies ul lookPath jsTool) ∧
    ToLower ul (str "NPM") = str "npm" ∧
    CheckDependencies ul lookPath (str "NPM") = CheckDependencies ul lookPath (str "npm") := by
  have hsame : ∀ a b, ToLower ul a = ToLower ul b →
      CheckDependencies ul lookPath a = CheckDependencies ul lookPath b := by
    intro a b hab
    simp only [CheckDependencies, hab]
  have hN : ToLower ul (str "NPM") = str "npm" := by
    rw [ToLower_ascii ul _ (by decide)]; decide
  have hn : ToLower ul (str "npm") = str "npm" := by
    rw [ToLower_ascii ul _ (by decide)]; decide
  refine ⟨?_, fun other h => hsame _ _ h, ?_, hN, hsame _ _ (hN.trans hn.symm)⟩
  · by_cases h : ToLower ul jsTool ∈ supportedTools
    · rw [CheckDependencies_supported ul lookPath jsTool h]
      have h' : ToLower ul jsTool ∈
          [str "npm", str "yarn", str "pnpm", str "bun", str "deno"] := h
      simp only [Bool.and_eq_true, h', true_and, and_assoc]
    · rw [CheckDependencies_unsupported ul lookPath jsTool h]
      constructor
      · intro hc; exact Bool.noConfusion hc
      · intro hc; exact absurd hc.1 h
  · intro other h1 h2 h3
    apply hsame
    rw [ToLower_ascii ul _ h1, ToLower_ascii ul _ h2, h3]

/-- C13. For an identifier whose lower-cased form is not supported,
`CheckDependencies` returns false and its only effect is the line that reports
the unsupported tool: no lookup on the path and no line per tool. For a
supported identifier its effects are exactly four lookups, of `go`, `node`,
`air` and the lower-cased identifier in this order, each followed by the line
reporting its result, whatever the results of the earlier lookups. -/
theorem check_dependencies_lookups (ul : GoString → GoString) (lookPath : GoString → Bool)
    (jsTool : GoString) :
    (ToLower ul jsTool ∉ supportedTools →
      (CheckDependencies ul lookPath jsTool).1 = false ∧
      (CheckDependencies ul lookPath jsTool).2 =
        [.print (str "⚠ '" ++ ToLower ul jsTool ++ str "' is not a supported JS tool\n")] ∧
      lookups (CheckDependencies ul lookPath jsTool).2 = []) ∧
    (ToLower ul jsTool ∈ supportedTools →
      (CheckDependencies ul lookPath jsTool).2 =
        toolReport lookPath (str "go") ++ toolReport lookPath (str "node") ++
          toolReport lookPath (str "air") ++ toolReport lookPath (ToLower ul jsTool) ∧
      lookups (CheckDependencies ul lookPath jsTool).2 =
        [str "go", str "node", str "air", ToLower ul jsTool]) := by
  constructor
  · intro h
    rw [CheckDependencies_unsupported ul lookPath jsTool h]
    exact ⟨rfl, rfl, rfl⟩
  · intro h
    rw [CheckDependencies_supported ul lookPath jsTool h]
    exact ⟨rfl, rfl⟩

/-- The dependency check on `NPM` with `air` missing: four lookups, the third
fails, the fourth is still made, and the result is false. -/
theorem check_dependencies_example :
    CheckDependencies id (fun n => decide (n ≠ str "air")) (str "NPM") =
      (false,
        [.lookPath (str "go"), .print (str "✔ go is installed\n"),
          .lookPath (str "node"), .print (str "✔ node is installed\n"),
          .lookPath (str "air"), .print (str "✘ air is NOT installed\n"),
          .lookPath (str "npm"), .print (str "✔ npm is installed\n")]) := by
  decide

/-! ## `PatchViteConfig` on a file system -/

theorem findFrom_none (re : List Item) :
    ∀ (x : GoString) (i : Nat), (∀ t, t <:+ x → matchItems re t = none) →
      findFrom re i x = none := by
  intro x
  induction x with
  | nil =>
    intro i h
    simp [findFrom, h [] (List.suffix_refl _)]
  | cons c cs ih =>
    intro i h
    simp only [findFrom, h _ (List.suffix_refl _)]
    exact ih _ fun t ht => h t (ht.trans (List.suffix_cons _ _))

theorem findFrom_some (re : List Item) :
    ∀ (x : GoString) (i : Nat), (∃ t, t <:+ x ∧ matchItems re t ≠ none) →
      ∃ r, findFrom re i x = some r := by
  intro x
  induction x with
  | nil =>
    rintro i ⟨t, ht, hm⟩
    have : t = [] := List.suffix_nil.mp ht
    subst this
    cases h : matchItems re [] with
    | none => exact absurd h hm
    | some n => exact ⟨(i, i + n), by simp [findFrom, h]⟩
  | cons c cs ih =>
    rintro i ⟨t, ht, hm⟩
    cases h : matchItems re (c :: cs) with
    | some n => exact ⟨(i, i + n), by simp [findFrom, h]⟩
    | none =>
      simp only [findFrom, h]
      apply ih
      rcases List.suffix_cons_iff.mp ht with h1 | h1
      · subst h1; exact absurd h hm
      · exact ⟨t, h1, hm⟩

/-- The conversion path fails with the signature error when the signature has
no match. -/
theorem patch_no_signature (data : GoString) (hnf : ¬ functionMarker <:+: data)
    (hno : ∀ t, t <:+ importStep data → matchItems defineConfigRegex t = none) :
    patchViteConfigText data = .error errNoSignature := by
  have h1 : Contains (importStep data) functionMarker = false := by
    rw [← Bool.not_eq_true, Contains_iff, importStep_marker]; exact hnf
  simp only [patchViteConfigText, h1, Bool.false_eq_true, if_false, FindStringIndex,
    findFrom_none _ _ 0 hno, errNoSignature]

/-- The conversion path fails with the closing error when the signature
matches and the closing sequence occurs nowhere. -/
theorem patch_no_closing (data : GoString) (hnf : ¬ functionMarker <:+: data)
    (hsig : ∃ t, t <:+ importStep data ∧ matchItems defineConfigRegex t ≠ none)
    (hno : ¬ str "\x7d)" <:+: importStep data) :
    patchViteConfigText data = .error errNoClosing := by
  have h1 : Contains (importStep data) functionMarker = false := by
    rw [← Bool.not_eq_true, Contains_iff, importStep_marker]; exact hnf
  obtain ⟨⟨s, e⟩, hr⟩ := findFrom_some _ _ 0 hsig
  have h3 : LastIndex (importStep data) (str "\x7d)") = -1 :=
    lastIndexFrom_absent _ _ _ _ hno
  simp only [patchViteConfigText, h1, Bool.false_eq_true, if_false, FindStringIndex, hr, h3,
    if_true, errNoClosing]

theorem selectConfig_cases (fs : FS) :
    ((fs (str "vite.config.ts")).isSome = true →
      selectConfig fs configFiles = str "vite.config.ts") ∧
    (fs (str "vite.config.ts") = none → (fs (str "vite.config.js")).isSome = true →
      selectConfig fs configFiles = str "vite.config.js") ∧
    (fs (str "vite.config.ts") = none → fs (str "vite.config.js") = none →
      selectConfig fs configFiles = []) := by
  refine ⟨?_, ?_, ?_⟩
  · intro h
    simp only [selectConfig, configFiles, h, if_true]
  · intro h1 h2
    simp only [selectConfig, configFiles, h1, h2, Option.isSome_none, Bool.false_eq_true,
      if_false, if_true]
  · intro h1 h2
    simp only [selectConfig, configFiles, h1, h2, Option.isSome_none, Bool.false_eq_true,
      if_false]

/-! ## Matches of the export signature -/

theorem defineConfigRegex_det : det defineConfigRegex = true := by decide

theorem defineConfigRegex_head :
    defineConfigRegex = lits (str "export") ++ defineConfigRegex.drop 6 := by
  decide

theorem defineConfigRegex_last :
    defineConfigRegex =
      defineConfigRegex.take 30 ++ (lits (str "(") ++ ([Item.star reSpace] ++ lits (str "\x7b"))) := by
  decide

theorem exportMatch_bounds (y : GoString) (n : Nat)
    (h : matchItems defineConfigRegex y = some n) : 0 < n ∧ n ≤ y.length := by
  refine ⟨?_, matchItems_le _ _ _ h⟩
  rw [defineConfigRegex_head] at h
  obtain ⟨s1, n1, _, _, hn⟩ := matchItems_lits_append _ _ _ _ h
  have : (str "export").length = 6 := by decide
  omega

theorem ExportWord.starts_export {w : GoString} (h : ExportWord w) : str "export" <+: w := by
  obtain ⟨s, n, hm, rfl⟩ := h
  rw [defineConfigRegex_head] at hm
  obtain ⟨s1, n1, rfl, _, rfl⟩ := matchItems_lits_append _ _ _ _ hm
  rw [List.take_append_eq_append_take]
  have : List.take ((str "export").length + n1) (str "export") = str "export" :=
    List.take_of_length_le (by omega)
  rw [this]
  exact List.prefix_append _ _

theorem ExportWord.allowed_export {w : GoString} (h : ExportWord w) :
    ∀ c ∈ w, exportAllowed c = true := by
  obtain ⟨s, n, hm, rfl⟩ := h
  exact matchItems_allowed _ _ _ hm

theorem ExportWord.matched_export {w : GoString} (h : ExportWord w) (y : GoString) (hy : w <+: y) :
    matchItems defineConfigRegex y ≠ none := by
  obtain ⟨s, n, hm, rfl⟩ := h
  rw [matchItems_extend _ defineConfigRegex_det s n y hm hy]
  exact Option.noConfusion

/-- A match of the export signature ends with `(`, then bytes that are white
space or `{`. -/
theorem ExportWord.tail {w : GoString} (h : ExportWord w) :
    ∃ a b, w = a ++ 40 :: b ∧ ∀ c ∈ b, c ∈ reSpace ∨ c = 123 := by
  obtain ⟨s, n, hm, rfl⟩ := h
  rw [defineConfigRegex_last] at hm
  obtain ⟨n1, n2, rfl, _, h3⟩ := matchItems_append _ _ _ _ hm
  obtain ⟨s1, k, hs1, h4, rfl⟩ := matchItems_lits_append _ _ _ _ h3
  have hal := matchItems_allowed _ _ _ h4
  refine ⟨s.take n1, s1.take k, ?_, ?_⟩
  · rw [List.take_add, hs1]
    have : str "(" = [40] := by decide
    rw [this]
    simp [Nat.add_comm 1 k, List.take_succ_cons]
  · intro c hc
    have := hal c hc
    simp only [allowedBy, List.any_eq_true] at this
    obtain ⟨it, hit, hcl⟩ := this
    have hits : it = Item.star reSpace ∨ it = Item.one [123] := by
      have : [Item.star reSpace] ++ lits (str "\x7b") = [Item.star reSpace, Item.one [123]] := by
        decide
      rw [this] at hit
      simpa using hit
    rcases hits with rfl | rfl
    · left; simpa [Item.cls] using hcl
    · right; simpa [Item.cls] using hcl

theorem defineConfigRegex_brace :
    defineConfigRegex = defineConfigRegex.take 32 ++ (lits (str "\x7b") ++ []) := by
  decide

theorem ExportWord.ends_brace {w : GoString} (h : ExportWord w) : str "\x7b" <:+ w := by
  obtain ⟨s, n, hm, rfl⟩ := h
  rw [defineConfigRegex_brace] at hm
  obtain ⟨n1, n2, rfl, _, h3⟩ := matchItems_append _ _ _ _ hm
  obtain ⟨s1, k, hs1, h6, rfl⟩ := matchItems_lits_append _ _ _ _ h3
  rw [matchItems_nil] at h6
  simp only [Option.some.injEq] at h6
  subst h6
  rw [List.take_add, hs1, Nat.add_zero, List.take_left]
  exact List.suffix_append _ _

theorem ExportWord.nonempty {w : GoString} (h : ExportWord w) : w ≠ [] := by
  intro he
  have := h.starts_export
  rw [he] at this
  exact absurd (List.prefix_nil.mp this) (by decide)

theorem guard_export_newImport :
    guardB exportAllowed (str "export") (str "\x7b") newImport = true := by
  decide

theorem suffix_append_cons (t a : GoString) (c : Nat) (b : GoString)
    (h : t <:+ a ++ c :: b) : c ∈ t ∨ t <:+ b := by
  obtain ⟨s, hs⟩ := h
  rcases List.append_eq_append_iff.mp hs with ⟨x, _, hx⟩ | ⟨y, _, hy⟩
  · left; rw [hx]; simp
  · cases y with
    | nil => left; simp at hy; rw [← hy]; simp
    | cons d y =>
      right
      simp only [List.cons_append, List.cons.injEq] at hy
      exact ⟨y, hy.2.symm⟩

/-- A match of the export signature and a match of the import expression do
not overlap. -/
theorem ExportWord.not_Overlap_import {w m : GoString} (hw : ExportWord w)
    (hm : ImportWord m) : ¬ Overlap m w := by
  have hma := hm.allowed
  have hwa := hw.allowed_export
  rintro (⟨t, ht0, ht1, ht2⟩ | ⟨t, ht0, ht1, ht2⟩ | hi | hi)
  · -- a non-empty end of `m` starts `w`: the last byte of `m` is a quote
    have hq : ∃ q, (q = 39 ∨ q = 34) ∧ q ∈ t := by
      obtain ⟨l, hl⟩ : ∃ l, t.getLast? = some l := by
        cases h : t.getLast? with
        | none => exact absurd (List.getLast?_eq_none_iff.mp h) ht0
        | some l => exact ⟨l, rfl⟩
      have hlm : m.getLast? = some l := by
        obtain ⟨a, rfl⟩ := ht1
        rw [List.getLast?_append, hl]; rfl
      refine ⟨l, ?_, List.mem_of_getLast?_eq_some hl⟩
      rcases hm.ends with he | he
      · obtain ⟨a, rfl⟩ := he
        have : (a ++ str "vite'").getLast? = some 39 := by
          rw [List.getLast?_append]; rfl
        rw [this] at hlm
        left; exact (Option.some.inj hlm).symm
      · obtain ⟨a, rfl⟩ := he
        have : (a ++ str "vite\x22").getLast? = some 34 := by
          rw [List.getLast?_append]; rfl
        rw [this] at hlm
        right; exact (Option.some.inj hlm).symm
    obtain ⟨q, hq1, hq2⟩ := hq
    have := hwa q (ht2.subset hq2)
    rcases hq1 with rfl | rfl <;> exact absurd this (by decide)
  · -- a non-empty end of `w` starts `m`
    obtain ⟨a, b, hab, hb⟩ := hw.tail
    have hb40 : ∀ c ∈ t, c ≠ 40 := by
      intro c hc h40
      subst h40
      exact absurd (hma 40 (ht2.subset hc)) (by decide)
    have hi : ∃ t1, t = 105 :: t1 := by
      obtain ⟨x, hx⟩ := hm.starts
      cases t with
      | nil => exact absurd rfl ht0
      | cons c t1 =>
        obtain ⟨y, hy⟩ := ht2
        rw [← hx] at hy
        have : c = 105 := by
          have h1 : str "import" = 105 :: (str "import").tail := by decide
          rw [h1] at hy
          simp only [List.cons_append, List.cons.injEq] at hy
          exact hy.1
        exact ⟨t1, by rw [this]⟩
    obtain ⟨t1, rfl⟩ := hi
    rw [hab] at ht1
    rcases suffix_append_cons _ _ _ _ ht1 with h1 | h2
    · exact hb40 40 h1 rfl
    · rcases hb 105 (h2.subset (List.mem_cons_self _ _)) with h3 | h3
      · exact absurd h3 (by decide)
      · exact absurd h3 (by decide)
  · -- `w` inside `m`: `w` has the byte `x`
    have h1 : (120 : Nat) ∈ w := hw.starts_export.subset (by decide)
    exact absurd (hma 120 (hi.subset h1)) (by decide)
  · -- `m` inside `w`: `m` has the byte `m`
    have h1 : (109 : Nat) ∈ m := hm.starts.subset (by decide)
    exact absurd (hwa 109 (hi.subset h1)) (by decide)

theorem HasSignature_iff (x : GoString) : HasSignature x ↔ hasSignatureB x = true := by
  simp only [HasSignature, hasSignatureB, List.any_eq_true, List.mem_tails, ne_eq,
    Option.isSome_iff_ne_none]

theorem HasSignature_iff_word (x : GoString) :
    HasSignature x ↔ ∃ w, ExportWord w ∧ w <:+: x := by
  constructor
  · rintro ⟨t, ht, hm⟩
    cases h : matchItems defineConfigRegex t with
    | none => exact absurd h hm
    | some n =>
      exact ⟨t.take n, ⟨t, n, h, rfl⟩, (List.take_prefix _ _).isInfix.trans ht.isInfix⟩
  · rintro ⟨w, hw, a, b, hab⟩
    exact ⟨w ++ b, ⟨a, by rw [← hab]; simp⟩, hw.matched_export _ (List.prefix_append _ _)⟩

/-- The import step neither removes nor creates a match of the export
signature. -/
theorem importStep_signature (x : GoString) : HasSignature (importStep x) ↔ HasSignature x := by
  rw [HasSignature_iff_word, HasSignature_iff_word]
  constructor
  · rintro ⟨w, hw, hi⟩
    refine ⟨w, hw, ?_⟩
    have := scan_infix_forward _ _ w importMatch_bounds
      (NoTouch_of_not_Overlap _ _
        (not_Overlap_of_guardB _ _ _ _ _ guard_export_newImport hw.starts_export hw.ends_brace hw.allowed_export))
      x [] (by simpa using hi)
    simpa using this
  · rintro ⟨w, hw, hi⟩
    refine ⟨w, hw, ?_⟩
    have := scan_infix_reverse (matchItems importRegex) newImport w importMatch_bounds
      (fun y n hy => NoTouch_of_not_Overlap _ _ fun ho =>
        (hw.not_Overlap_import ⟨y, n, hy, rfl⟩) (Overlap_symm _ _ ho))
      x [] (by simpa using hi)
    simpa using this

theorem overlap_closing_import : overlapB (str "\x7d)") newImport = false := by decide

theorem guard_closing :
    guardB importAllowed (str "import") (str "vite'") (str "\x7d)") = true ∧
      guardB importAllowed (str "import") (str "vite\x22") (str "\x7d)") = true := by
  decide

/-- The import step neither removes nor creates the closing sequence. -/
theorem importStep_closing (x : GoString) :
    str "\x7d)" <:+: importStep x ↔ str "\x7d)" <:+: x := by
  constructor
  · intro h
    have := scan_infix_forward _ _ (str "\x7d)") importMatch_bounds
      (NoTouch_of_overlapB _ _ overlap_closing_import) x [] (by simpa using h)
    simpa using this
  · intro h
    have := scan_infix_reverse (matchItems importRegex) newImport (str "\x7d)")
      importMatch_bounds
      (fun y n hy => NoTouch_of_not_Overlap _ _ fun ho =>
        (ImportWord.not_Overlap ⟨y, n, hy, rfl⟩ guard_closing) (Overlap_symm _ _ ho))
      x [] (by simpa using h)
    simpa using this

theorem closing_in_marker : str "\x7d)" <:+: functionMarker := by decide

/-- The signature error: the text is not function-based and the export
signature matches nowhere in it. -/
theorem patch_signature_error (data : GoString) (hnf : ¬ functionMarker <:+: data)
    (hno : ¬ HasSignature data) : patchViteConfigText data = .error errNoSignature := by
  apply patch_no_signature data hnf
  intro t ht
  cases h : matchItems defineConfigRegex t with
  | none => rfl
  | some n =>
    exact absurd ((importStep_signature data).mp ⟨t, ht, by rw [h]; exact Option.noConfusion⟩) hno

/-- The closing error: the export signature matches in the text and the
closing sequence occurs nowhere in it. -/
theorem patch_closing_error (data : GoString) (hsig : HasSignature data)
    (hno : ¬ str "\x7d)" <:+: data) : patchViteConfigText data = .error errNoClosing :=
  patch_no_closing data (fun hm => hno (closing_in_marker.trans hm))
    ((importStep_signature data).mpr hsig) (fun h => hno ((importStep_closing data).mp h))

theorem Selected.select {fs : FS} {name : GoString} {f : FileEntry} (h : Selected fs name f) :
    selectConfig fs configFiles = name ∧ name ≠ [] ∧ fs name = some f := by
  rcases h with ⟨rfl, hf⟩ | ⟨rfl, h1, hf⟩
  · exact ⟨(selectConfig_cases fs).1 (by rw [hf]; rfl), by decide, hf⟩
  · exact ⟨(selectConfig_cases fs).2.1 h1 (by rw [hf]; rfl), by decide, hf⟩

/-- What `PatchViteConfig` does once a readable config file is selected. -/
theorem PatchViteConfig_selected (fs : FS) (name : GoString) (f : FileEntry)
    (hsel : Selected fs name f) (hr : f.readErr = none) :
    PatchViteConfig fs =
      match patchViteConfigText f.content with
      | .error msg => (fs, .error msg)
      | .panic => (fs, .panic)
      | .written content =>
        match WriteFile fs name content with
        | (fs1, none) => (fs1, .nil)
        | (fs1, some e) => (fs1, .error e) := by
  obtain ⟨h1, h2, h3⟩ := hsel.select
  simp only [PatchViteConfig, h1, h2, if_false, ReadFile, h3, hr]

theorem PatchViteConfig_none (fs : FS) (h1 : fs (str "vite.config.ts") = none)
    (h2 : fs (str "vite.config.js") = none) :
    PatchViteConfig fs = (fs, .error errNoConfig) := by
  simp only [PatchViteConfig, (selectConfig_cases fs).2.2 h1 h2, if_true, errNoConfig]

/-- The three errors of `PatchViteConfig`. It returns the no-config-file error
when neither candidate file exists; with a readable config file selected it returns the
signature error when the text is not function-based and the export signature
matches nowhere in it, and the closing error when the signature matches and the
sequence `})` occurs nowhere in the text. The three errors are pairwise
distinct; each is returned as an error (not `nil`, not a panic), with the file
system as it was. -/
theorem failure_modes (fs : FS) (name : GoString) (f : FileEntry) :
    (fs (str "vite.config.ts") = none → fs (str "vite.config.js") = none →
      PatchViteConfig fs = (fs, .error errNoConfig)) ∧
    (Selected fs name f → f.readErr = none → ¬ functionMarker <:+: f.content →
      ¬ HasSignature f.content → PatchViteConfig fs = (fs, .error errNoSignature)) ∧
    (Selected fs name f → f.readErr = none → HasSignature f.content →
      ¬ str "\x7d)" <:+: f.content → PatchViteConfig fs = (fs, .error errNoClosing)) ∧
    errNoConfig ≠ errNoSignature ∧ errNoConfig ≠ errNoClosing ∧
    errNoSignature ≠ errNoClosing ∧
    errNoConfig = str "No vite.config.js or vite.config.ts found" ∧
    errNoSignature = str "Could not find export default defineConfig(\x7b in config file" ∧
    errNoClosing = str "Could not find closing \x7d) in config file" := by
  refine ⟨PatchViteConfig_none fs, ?_, ?_, by decide, by decide, by decide, rfl, rfl, rfl⟩
  · intro hsel hr hnf hno
    rw [PatchViteConfig_selected fs name f hsel hr, patch_signature_error _ hnf hno]
  · intro hsel hr hsig hno
    rw [PatchViteConfig_selected fs name f hsel hr, patch_closing_error _ hsig hno]

set_option maxRecDepth 100000 in
/-- The three errors on three file systems: an empty directory, a `vite.config.ts` without
the export signature, and a `vite.config.js` whose call is never closed. -/
theorem failure_modes_witness :
    PatchViteConfig (fun _ => none) = (fun _ => none, .error errNoConfig) ∧
    PatchViteConfig (oneFile (str "vite.config.ts") (str "export default \x7b plugins: [] \x7d\n")) =
      (oneFile (str "vite.config.ts") (str "export default \x7b plugins: [] \x7d\n"),
        .error errNoSignature) ∧
    PatchViteConfig (oneFile (str "vite.config.js")
        (str "export default defineConfig(\x7b plugins: []\n")) =
      (oneFile (str "vite.config.js") (str "export default defineConfig(\x7b plugins: []\n"),
        .error errNoClosing) :=
  ⟨(failure_modes (fun _ => none) []
      { content := [], readErr := none, writeErr := none }).1 rfl rfl,
    (failure_modes (oneFile (str "vite.config.ts") (str "export default \x7b plugins: [] \x7d\n"))
      (str "vite.config.ts")
      { content := str "export default \x7b plugins: [] \x7d\n", readErr := none,
        writeErr := none }).2.1 (Or.inl ⟨rfl, by decide⟩) rfl (by decide)
      (fun h => absurd ((HasSignature_iff _).mp h) (by decide)),
    (failure_modes (oneFile (str "vite.config.js")
        (str "export default defineConfig(\x7b plugins: []\n"))
      (str "vite.config.js")
      { content := str "export default defineConfig(\x7b plugins: []\n", readErr := none,
        writeErr := none }).2.2.1 (Or.inr ⟨rfl, by decide, by decide⟩) rfl
      ((HasSignature_iff _).mpr (by decide)) (by decide)⟩

/-! ## Atomicity and file selection -/

/-- The errors of the text rewrite are the signature error and the closing
error. -/
theorem patch_error_cases (data msg : GoString) (h : patchViteConfigText data = .error msg) :
    msg = errNoSignature ∨ msg = errNoClosing := by
  unfold patchViteConfigText at h
  simp only [] at h
  split at h
  · exact Outcome.noConfusion h
  · split at h
    · left
      simp only [Outcome.error.injEq] at h
      exact h.symm
    · split_ifs at h
      right
      simp only [Outcome.error.injEq] at h
      exact h.symm

theorem WriteFile_frame (fs : FS) (name data n : GoString) (h : n ≠ name) :
    (WriteFile fs name data).1 n = fs n := by
  unfold WriteFile
  split
  · simp only [h, if_false]
  · split
    · rfl
    · simp only [h, if_false]

theorem ReadFile_selected (fs : FS) (name : GoString) (f : FileEntry) (hf : fs name = some f) :
    ReadFile fs name = match f.readErr with
      | some e => .error e
      | none => .ok f.content := by
  simp only [ReadFile, hf]

/-- C15. Whenever `PatchViteConfig` fails for a structural reason, the file
system is left exactly as it was: when neither candidate file exists, and when
the text rewrite of the selected file ends in one of its two errors (the
signature error or the closing error), even though the import step has by then
rewritten the text in memory. -/
theorem atomic_on_error (fs : FS) (name : GoString) (f : FileEntry) (msg : GoString) :
    (fs (str "vite.config.ts") = none → fs (str "vite.config.js") = none →
      PatchViteConfig fs = (fs, .error errNoConfig)) ∧
    (Selected fs name f → f.readErr = none → patchViteConfigText f.content = .error msg →
      (msg = errNoSignature ∨ msg = errNoClosing) ∧ PatchViteConfig fs = (fs, .error msg) ∧
      (PatchViteConfig fs).1 name = some f) ∧
    (Selected fs name f → f.readErr = none → ¬ functionMarker <:+: f.content →
      ¬ HasSignature f.content → (PatchViteConfig fs).1 = fs) ∧
    (Selected fs name f → f.readErr = none → HasSignature f.content →
      ¬ str "\x7d)" <:+: f.content → (PatchViteConfig fs).1 = fs) := by
  refine ⟨PatchViteConfig_none fs, ?_, ?_, ?_⟩
  · intro hsel hr hm
    have h1 : PatchViteConfig fs = (fs, .error msg) := by
      rw [PatchViteConfig_selected fs name f hsel hr, hm]
    exact ⟨patch_error_cases _ _ hm, h1, by rw [h1]; exact hsel.select.2.2⟩
  · intro hsel hr hnf hno
    rw [PatchViteConfig_selected fs name f hsel hr, patch_signature_error _ hnf hno]
  · intro hsel hr hsig hno
    rw [PatchViteConfig_selected fs name f hsel hr, patch_closing_error _ hsig hno]

set_option maxRecDepth 100000 in
/-- C15 on a `vite.config.ts` with an import statement that the import step
rewrites and without export signature: the error is returned and the file still
has its old text. -/
theorem atomic_on_error_witness :
    importStep (str "import \x7b defineConfig \x7d from 'vite'\nexport default \x7b\x7d\n") ≠
      str "import \x7b defineConfig \x7d from 'vite'\nexport default \x7b\x7d\n" ∧
    PatchViteConfig (oneFile (str "vite.config.ts")
        (str "import \x7b defineConfig \x7d from 'vite'\nexport default \x7b\x7d\n")) =
      (oneFile (str "vite.config.ts")
        (str "import \x7b defineConfig \x7d from 'vite'\nexport default \x7b\x7d\n"),
        .error errNoSignature) :=
  ⟨by decide,
    ((atomic_on_error (oneFile (str "vite.config.ts")
        (str "import \x7b defineConfig \x7d from 'vite'\nexport default \x7b\x7d\n"))
      (str "vite.config.ts")
      { content := str "import \x7b defineConfig \x7d from 'vite'\nexport default \x7b\x7d\n",
        readErr := none, writeErr := none } errNoSignature).2.1
      (Or.inl ⟨rfl, by decide⟩) rfl (by decide)).2.1⟩

/-- C16. `PatchViteConfig` selects `vite.config.ts` whenever it exists and
`vite.config.js` only when `vite.config.ts` does not exist; it fails with the
no-config-file error when neither exists. It reads the selected file (a read
error is returned as it is) and, when the rewrite succeeds, writes the new text
to the selected file (a write error is returned as it is); every other file is
left as it was. -/
theorem config_selection (fs : FS) (name : GoString) (f : FileEntry) :
    ((fs (str "vite.config.ts")).isSome = true →
      selectConfig fs configFiles = str "vite.config.ts") ∧
    (fs (str "vite.config.ts") = none → (fs (str "vite.config.js")).isSome = true →
      selectConfig fs configFiles = str "vite.config.js") ∧
    (fs (str "vite.config.ts") = none → fs (str "vite.config.js") = none →
      PatchViteConfig fs = (fs, .error errNoConfig)) ∧
    (∀ n, n ≠ selectConfig fs configFiles → (PatchViteConfig fs).1 n = fs n) ∧
    (Selected fs name f → ∀ e, f.readErr = some e → PatchViteConfig fs = (fs, .error e)) ∧
    (Selected fs name f → f.readErr = none → ∀ c, patchViteConfigText f.content = .written c →
      (f.writeErr = none →
        PatchViteConfig fs =
          (fun n => if n = name then some { f with content := c } else fs n, Ret.nil)) ∧
      (∀ e, f.writeErr = some e → PatchViteConfig fs = (fs, .error e))) := by
  refine ⟨(selectConfig_cases fs).1, (selectConfig_cases fs).2.1, PatchViteConfig_none fs,
    ?_, ?_, ?_⟩
  · intro n hn
    unfold PatchViteConfig
    simp only []
    split_ifs
    · rfl
    · split
      · rfl
      · split
        · rfl
        · rfl
        · rename_i content _
          have := WriteFile_frame fs (selectConfig fs configFiles) content n hn
          split
          · rename_i fs1 hw
            rw [hw] at this
            exact this
          · rename_i fs1 e hw
            rw [hw] at this
            exact this
  · intro hsel e he
    obtain ⟨h1, h2, h3⟩ := hsel.select
    simp only [PatchViteConfig, h1, h2, if_false, ReadFile, h3, he]
  · intro hsel hr c hc
    obtain ⟨_, _, h3⟩ := hsel.select
    rw [PatchViteConfig_selected fs name f hsel hr, hc]
    constructor
    · intro hw
      simp only [WriteFile, h3, hw]
    · intro e hw
      simp only [WriteFile, h3, hw]

set_option maxRecDepth 100000 in
/-- C16 on a directory with both candidates: `vite.config.ts` is rewritten and
`vite.config.js` keeps its text. -/
theorem config_selection_witness :
    (PatchViteConfig (twoFiles (str "export default defineConfig(\x7b a: 1, \x7d)")
        (str "old"))).1 (str "vite.config.js") = some (plainFile (str "old")) ∧
    (PatchViteConfig (twoFiles (str "export default defineConfig(\x7b a: 1, \x7d)")
        (str "old"))).1 (str "vite.config.ts") =
      some (plainFile (newConfigHead ++ str "a: 1," ++ serverProxy ++ newConfigTail)) :=
  ⟨((config_selection (twoFiles (str "export default defineConfig(\x7b a: 1, \x7d)") (str "old"))
      (str "vite.config.ts")
      (plainFile (str "export default defineConfig(\x7b a: 1, \x7d)"))).2.2.2.1
        (str "vite.config.js") (by decide)).trans (by decide),
    by decide⟩

/-! ## The import step -/

theorem ImportWord.match_eq {m : GoString} (h : ImportWord m) (y : GoString) (hy : m <+: y) :
    matchItems importRegex y = some m.length := by
  obtain ⟨s, n, hm, rfl⟩ := h
  rw [matchItems_extend _ importRegex_det s n y hm hy, List.length_take,
    Nat.min_eq_left (matchItems_le _ _ _ hm)]

/-- In a match of the import expression the byte `p` occurs in `import` only. -/
theorem ImportWord.one_p {w : GoString} (h : ImportWord w) :
    ∃ r, w = [105, 109, 112, 111, 114, 116] ++ r ∧ 112 ∉ r := by
  obtain ⟨s, n, hm, rfl⟩ := h
  rw [importRegex_head] at hm
  obtain ⟨s1, n1, rfl, h2, rfl⟩ := matchItems_lits_append _ _ _ _ hm
  refine ⟨s1.take n1, ?_, ?_⟩
  · rw [List.take_append_eq_append_take]
    have h3 : List.take ((str "import").length + n1) (str "import") = str "import" :=
      List.take_of_length_le (by omega)
    have h4 : (str "import").length + n1 - (str "import").length = n1 := by omega
    rw [h3, h4]
    rfl
  · intro hp
    have := matchItems_allowed _ _ _ h2 112 hp
    exact absurd this (by decide)

theorem ImportWord.last {w : GoString} (h : ImportWord w) :
    w.getLast? = some 39 ∨ w.getLast? = some 34 := by
  rcases h.ends with he | he
  · obtain ⟨a, rfl⟩ := he
    left; rw [List.getLast?_append]; rfl
  · obtain ⟨a, rfl⟩ := he
    right; rw [List.getLast?_append]; rfl

/-- No match of the import expression starts in a non-empty text `u` and ends
inside a match `m` that follows `u`. -/
theorem no_straddle (u m v : GoString) (hu : u ≠ []) (hm : ImportWord m) (n : Nat)
    (hn : u.length < n) (h : matchItems importRegex (u ++ m ++ v) = some n) : False := by
  have hw : ImportWord ((u ++ m ++ v).take n) := ⟨_, n, h, rfl⟩
  obtain ⟨k, rfl⟩ : ∃ k, n = u.length + (k + 1) := ⟨n - u.length - 1, by omega⟩
  have htake : (u ++ m ++ v).take (u.length + (k + 1)) = u ++ (m ++ v).take (k + 1) := by
    rw [List.append_assoc, List.take_append]
  rw [htake] at hw
  obtain ⟨mr, hm1, _⟩ := hm.one_p
  obtain ⟨r, hr1, hr2⟩ := hw.one_p
  subst hm1
  by_cases hk : 2 ≤ k
  · -- the straddling match contains the `p` of `m`
    obtain ⟨j, rfl⟩ : ∃ j, k = j + 2 := ⟨k - 2, by omega⟩
    simp only [List.cons_append, List.take_succ_cons] at hr1
    cases u with
    | nil => exact hu rfl
    | cons c u1 =>
      cases u1 with
      | nil => simp at hr1
      | cons d u2 =>
        cases u2 with
        | nil => simp at hr1
        | cons e u3 =>
          simp only [List.cons_append, List.cons.injEq] at hr1
          obtain ⟨_, _, _, h4⟩ := hr1
          have h5 : (112 : Nat) ∈ 111 :: 114 :: 116 :: ([] ++ r) := by
            rw [← h4]; simp
          simp only [List.mem_cons, List.mem_append] at h5
          rcases h5 with h6 | h6 | h6 | h6
          · exact absurd h6 (by decide)
          · exact absurd h6 (by decide)
          · exact absurd h6 (by decide)
          · exact hr2 (by simpa using h6)
  · -- the straddling match ends with `i` or `m`
    have hlast : (u ++ List.take (k + 1)
        (([105, 109, 112, 111, 114, 116] ++ mr) ++ v)).getLast? = some 105 ∨
        (u ++ List.take (k + 1)
        (([105, 109, 112, 111, 114, 116] ++ mr) ++ v)).getLast? = some 109 := by
      have hk2 : k = 0 ∨ k = 1 := by omega
      rcases hk2 with rfl | rfl
      · left
        simp only [List.cons_append, List.take_succ_cons, List.take_zero]
        rw [List.getLast?_append]; rfl
      · right
        simp only [List.cons_append, List.take_succ_cons, List.take_zero]
        rw [List.getLast?_append]; rfl
    rcases hw.last with h1 | h1 <;> rcases hlast with h2 | h2 <;>
      · rw [h1] at h2; exact absurd h2 (by decide)

theorem importStep_nil : importStep [] = [] := rfl

theorem importStep_append_word_aux :
    ∀ (n : Nat) (u : GoString), u.length ≤ n → ∀ (m v : GoString), ImportWord m →
      importStep (u ++ m ++ v) = importStep u ++ newImport ++ importStep v := by
  intro n
  induction n with
  | zero =>
    intro u hu m v hm
    have : u = [] := List.length_eq_zero.mp (by omega)
    subst this
    have h1 := hm.match_eq (m ++ v) (List.prefix_append _ _)
    have hpos : 0 < m.length := List.length_pos.mpr hm.length_pos
    simp only [importStep, ReplaceAllString, List.nil_append]
    rw [replaceGo_some _ _ _ _ h1 hpos (by simp), List.drop_left]
    rfl
  | succ n ih =>
    intro u hu m v hm
    cases u with
    | nil =>
      have h1 := hm.match_eq (m ++ v) (List.prefix_append _ _)
      have hpos : 0 < m.length := List.length_pos.mpr hm.length_pos
      simp only [importStep, ReplaceAllString, List.nil_append]
      rw [replaceGo_some _ _ _ _ h1 hpos (by simp), List.drop_left]
      rfl
    | cons c u1 =>
      cases hf : matchItems importRegex (c :: u1) with
      | some k =>
        obtain ⟨hk0, hk1⟩ := importMatch_bounds _ _ hf
        have hx : matchItems importRegex (c :: u1 ++ m ++ v) = some k := by
          apply matchItems_extend _ importRegex_det _ _ _ hf
          rw [List.append_assoc]
          exact (List.take_prefix _ _).trans (List.prefix_append _ _)
        have hdrop : (c :: u1 ++ m ++ v).drop k = (c :: u1).drop k ++ m ++ v := by
          rw [List.append_assoc, List.drop_append_of_le_length hk1, List.append_assoc]
        have e1 : importStep (c :: u1 ++ m ++ v) =
            newImport ++ importStep ((c :: u1).drop k ++ m ++ v) := by
          simp only [importStep, ReplaceAllString]
          rw [replaceGo_some _ _ _ _ hx hk0 (by simp at hk1 ⊢; omega), hdrop]
        have e2 : importStep (c :: u1) = newImport ++ importStep ((c :: u1).drop k) := by
          simp only [importStep, ReplaceAllString]
          rw [replaceGo_some _ _ _ _ hf hk0 hk1]
        rw [e1, e2, ih _ (by simp at hu ⊢; omega) m v hm]
        simp only [List.append_assoc]
      | none =>
        have hx : matchItems importRegex (c :: u1 ++ m ++ v) = none := by
          cases hx : matchItems importRegex (c :: u1 ++ m ++ v) with
          | none => rfl
          | some k =>
            exfalso
            by_cases hk : k ≤ (c :: u1).length
            · have h1 : (c :: u1 ++ m ++ v).take k <+: c :: u1 := by
                rw [List.append_assoc, List.take_append_of_le_length hk]
                exact List.take_prefix _ _
              rw [matchItems_extend _ importRegex_det _ _ _ hx h1] at hf
              exact Option.noConfusion hf
            · exact no_straddle (c :: u1) m v (List.cons_ne_nil _ _) hm k (by omega) hx
        have e1 : importStep (c :: u1 ++ m ++ v) = c :: importStep (u1 ++ m ++ v) := by
          simp only [importStep, ReplaceAllString]
          exact replaceGo_none _ _ _ _ (by simpa using hx)
        have e2 : importStep (c :: u1) = c :: importStep u1 := by
          simp only [importStep, ReplaceAllString]
          exact replaceGo_none _ _ _ _ hf
        rw [e1, e2, ih u1 (by simp at hu; omega) m v hm]
        simp only [List.cons_append]

/-- C17. The import step rewrites every match of the import expression: a text
`u ++ m ++ v` with a match `m` becomes the rewritten `u`, the import of both
symbols, and the rewritten `v`. A text without match is left byte-identical, in
particular the import that already names both symbols. The output has no
match, so the step is idempotent. -/
theorem import_step (u m v x : GoString) :
    (ImportWord m →
      importStep (u ++ m ++ v) =
        importStep u ++ str "import \x7b defineConfig, loadEnv \x7d from 'vite'" ++
          importStep v) ∧
    (ImportFree x → importStep x = x) ∧
    importStep (str "import \x7b defineConfig, loadEnv \x7d from 'vite'") =
      str "import \x7b defineConfig, loadEnv \x7d from 'vite'" ∧
    ImportFree (importStep x) ∧
    (∀ t, t <:+ importStep x → matchItems importRegex t = none) ∧
    importStep (importStep x) = importStep x := by
  refine ⟨fun hm => importStep_append_word_aux u.length u (Nat.le_refl _) m v hm,
    importStep_fix x, by decide, importStep_free x, ?_,
    importStep_fix _ (importStep_free x)⟩
  intro t ht
  cases h : matchItems importRegex t with
  | none => rfl
  | some n =>
    exact absurd ((List.take_prefix n t).isInfix.trans ht.isInfix)
      (importStep_free x (t.take n) ⟨t, n, h, rfl⟩)

set_option maxRecDepth 100000 in
/-- C17 on a text with two import statements, one with single and one with
double quotes and other white space. -/
theorem import_step_witness :
    importStep (str ("// a\nimport \x7b defineConfig \x7d from 'vite'\n" ++
        "import\t\x7bdefineConfig\x7d\n from  \x22vite\x22;\n")) =
      str ("// a\nimport \x7b defineConfig, loadEnv \x7d from 'vite'\n" ++
        "import \x7b defineConfig, loadEnv \x7d from 'vite';\n") ∧
    importStep (str "// a\n" ++ str "import \x7b defineConfig \x7d from 'vite'" ++
        str "\nconst x = 1\n") =
      importStep (str "// a\n") ++ str "import \x7b defineConfig, loadEnv \x7d from 'vite'" ++
        importStep (str "\nconst x = 1\n") :=
  ⟨by decide,
    (import_step (str "// a\n") (str "import \x7b defineConfig \x7d from 'vite'")
      (str "\nconst x = 1\n") []).1
      ⟨str "import \x7b defineConfig \x7d from 'vite'", 35, by decide, by decide⟩⟩

/-! ## The orchestrator after an interrupt -/

theorem ui_not_done (late : Nat) (msgs : List Msg)
    (h : (initModel.run late msgs).1.done = false) :
    ui late msgs = some { Name := [], PackageManager := [] } := by
  simp [ui, uiResult, h]

/-- C18. When the first wizard session ends with the completion flag false in
its final model, however many messages were handled after the quit command,
`InitProject` prints three lines and returns: its trace has no external
command, no change of directory, no file written and no second wizard stage,
whatever is on the path and whatever the second session would have been. -/
theorem interrupt_aborts (ul : GoString → GoString) (lookPath : GoString → Bool) (w : World)
    (late1 late2 : Nat) (msgs1 msgs2 : List Msg)
    (h : (initModel.run late1 msgs1).1.done = false) :
    InitProject ul lookPath w late1 late2 msgs1 msgs2 = abortedTrace ∧
    (∀ e ∈ InitProject ul lookPath w late1 late2 msgs1 msgs2, e.acts = false) ∧
    (∀ e ∈ InitProject ul lookPath w late1 late2 msgs1 msgs2, ∃ text, e = .print text) := by
  have h1 : InitProject ul lookPath w late1 late2 msgs1 msgs2 = abortedTrace := by
    have h2 : ToLower ul [] = [] := ToLower_ascii ul [] rfl
    have h3 := CheckDependencies_unsupported ul lookPath [] (by rw [h2]; decide)
    rw [h2] at h3
    simp only [InitProject, ui_not_done late1 msgs1 h, h3, if_true]
    decide
  rw [h1]
  exact ⟨rfl, by decide, by
    intro e he
    simp only [abortedTrace, List.mem_cons, List.mem_singleton, List.not_mem_nil, or_false] at he
    rcases he with rfl | rfl | rfl <;> exact ⟨_, rfl⟩⟩

set_option maxRecDepth 100000 in
/-- C18 on the session in which `a` is typed, Ctrl-C is pressed and one more
Enter is handled before the session ends, with every tool on the path and every
effect succeeding. -/
theorem interrupt_aborts_witness :
    (initModel.run 1 [printable 'a', plainKey .KeyCtrlC, plainKey .KeyEnter]).2 = true ∧
    (initModel.run 1 [printable 'a', plainKey .KeyCtrlC, plainKey .KeyEnter]).1.state =
      .stateMenu ∧
    (initModel.run 1 [printable 'a', plainKey .KeyCtrlC, plainKey .KeyEnter]).1.done = false ∧
    InitProject (fun s => s) (fun _ => true) (fun _ _ => true) 1 0
      [printable 'a', plainKey .KeyCtrlC, plainKey .KeyEnter] [plainKey .KeyEnter] =
        abortedTrace :=
  ⟨by decide, by decide, by decide,
    (interrupt_aborts (fun s => s) (fun _ => true) (fun _ _ => true) 1 0
      [printable 'a', plainKey .KeyCtrlC, plainKey .KeyEnter] [plainKey .KeyEnter]
      (by decide)).1⟩

/-! ## Other keys in the Input state -/

/-- C19, the code at the failing input. In the Input state the `default` branch
appends `msg.String()` for every key that is not Enter, Backspace or Ctrl-C: the
Up arrow appends `up`, Tab appends `tab` and Escape appends `esc` to the
buffer. -/
theorem other_keys_append :
    initModel.state = .stateInput ∧ initModel.input = [] ∧
    (initModel.Update (plainKey .KeyUp)).1.input = str "up" ∧
    (initModel.Update (plainKey .KeyTab)).1.input = str "tab" ∧
    (initModel.Update (plainKey .KeyEsc)).1.input = str "esc" ∧
    (initModel.steps [printable 'a', plainKey .KeyUp]).input = str "aup" ∧
    (initModel.steps [printable 'a', plainKey .KeyUp]).input ≠
      (initModel.steps [printable 'a']).input ∧
    (∀ m : model, m.state = .stateInput →
      (m.Update (plainKey .KeyUp)).1.input = m.input ++ str "up" ∧
      (m.Update (plainKey .KeyTab)).1.input = m.input ++ str "tab" ∧
      (m.Update (plainKey .KeyEsc)).1.input = m.input ++ str "esc") := by
  refine ⟨by decide, by decide, by decide, by decide, by decide, by decide, by decide, ?_⟩
  intro m hm
  obtain ⟨st, inp, sel, opts, dn⟩ := m
  simp only at hm
  subst hm
  exact ⟨rfl, rfl, rfl⟩

/-! ## The slice of the conversion path -/

set_option maxRecDepth 1000000 in
/-- C20, the code at the failing input. In the text `closingBeforeExport` the
export signature matches at `[23, 52)` and the only `\x7d)` is at index 20, before
the end of the signature: the slice `content[52:20]` is out of range and the
rewrite ends in the panic, not in a written result or an error. -/
theorem closing_before_signature :
    importStep closingBeforeExport = closingBeforeExport ∧
    Contains closingBeforeExport functionMarker = false ∧
    FindStringIndex defineConfigRegex closingBeforeExport = some (23, 52) ∧
    LastIndex closingBeforeExport (str "\x7d)") = 20 ∧
    patchViteConfigText closingBeforeExport = .panic ∧
    (PatchViteConfig (oneFile (str "vite.config.ts") closingBeforeExport)).2 = .panic := by
  decide

/-! ## Messages handled after an interrupt -/

set_option maxRecDepth 100000 in
/-- C9, the code at the failing input. Ctrl-C in the Input state returns the quit
command and leaves the model as it is, without recording the interrupt. When
the two Enter events that follow are handled before the session ends, the
first moves the model to Menu and the second sets the completion flag: the
session that was interrupted ends in Done with the flag true, and `ui` returns
the project with the empty name and `npm` instead of the empty record. With no
message handled after the quit command the flag stays false. In stage 2 one
Enter after Ctrl-C gives the framework `Standard`. -/
theorem interrupt_then_confirm :
    initModel.Update (plainKey .KeyCtrlC) = (initModel, Cmd.Quit) ∧
    (initModel.run 0 interruptThenConfirm).1.done = false ∧
    ui 0 interruptThenConfirm = some { Name := [], PackageManager := [] } ∧
    (initModel.run 2 interruptThenConfirm).2 = true ∧
    (initModel.run 2 interruptThenConfirm).1.state = .stateDone ∧
    (initModel.run 2 interruptThenConfirm).1.done = true ∧
    ui 2 interruptThenConfirm = some { Name := [], PackageManager := str "npm" } ∧
    initModel2.Update (plainKey .KeyCtrlC) = (initModel2, Cmd.Quit) ∧
    (initModel2.run 1 [plainKey .KeyCtrlC, plainKey .KeyEnter]).1.done = true ∧
    ui2 1 [plainKey .KeyCtrlC, plainKey .KeyEnter] = some (str "Standard") ∧
    Effect.runCommand [str "npm", str "create", str "vite@latest", []] ∈
      InitProject (fun s => s) (fun _ => true) (fun _ _ => true) 2 0
        interruptThenConfirm [plainKey .KeyEnter] := by
  decide

/-! ## A call that is never closed -/

set_option maxRecDepth 1000000 in
/-- C14, the code at the failing input. In the text `unclosedCall` the export
signature matches at `[6, 35)` and the call is never closed: no `\x7d)` occurs
at or after index 35. The only `\x7d)` of the text is at index 3, so the test for a
missing closing sequence does not fire, and the rewrite ends in the panic of the
slice `content[35:3]` instead of the closing error. -/
theorem unclosed_call_panics :
    importStep unclosedCall = unclosedCall ∧
    Contains unclosedCall functionMarker = false ∧
    FindStringIndex defineConfigRegex unclosedCall = some (6, 35) ∧
    Contains (unclosedCall.drop 35) (str "\x7d)") = false ∧
    LastIndex unclosedCall (str "\x7d)") = 3 ∧
    patchViteConfigText unclosedCall = .panic ∧
    patchViteConfigText unclosedCall ≠ .error errNoClosing ∧
    (PatchViteConfig (oneFile (str "vite.config.js") unclosedCall)).2 = .panic := by
  decide

end Arlo
